import Mathlib

/-!
# Bakery: geometry library, wire codec and result selection

A shallow embedding of the parts of `src/lib` (shape.cpp, sheet.cpp, plugins.cpp,
bakery.cpp, helpers.hpp) that the verified properties talk about.

Conventions of the embedding

* `qint32` / `qint64` values are integers (`Int`); where the C++ code can overflow the
  wrap-around is written explicitly (`wrap32`).
* A `QString` is a list of characters, a `QTextStream` opened on a string is the list of
  characters not yet read together with the stream status.
* Functions of the Qt library that the code calls are embedded from their documented
  behaviour (`QRect`, `QPolygon::boundingRect`, `QTextStream::operator>>`), or are taken as
  parameters when they are numeric (`QPolygon::intersected`, `QString::toDouble`).
* `double` values whose rounding decides an integer or a boolean result are values of `Dbl`,
  with the operations of IEEE 754 binary64 rounded to nearest, ties to even: the division by
  `BAKERY_PRECISION` in `Shape::updateMetrics` and `Sheet::area`, the sum of `shapesArea()` and
  the simplicity test (`qrealRounded`, `QLineF::intersect`, the comparison of `QPointF`
  values).
* The other `qreal` values are exact rational numbers: the entries of a `QTransform`, the
  values `qCos(angle)`, `qSin(angle)` handed to a rotation, the utilization of a sheet and the
  score of a result. A score as `operator<` compares it is such a number, `+inf` or NaN.
* The conversion of a `double` outside the range of `int` to `int`, undefined in C++, gives
  `-2^31` (`toInt32`).
* `std::sort` is a parameter of `findBestOutput`; the theorems instantiate it with the
  insertion sort that libstdc++ runs on ranges of at most 16 elements.
* The cached metrics of a `Shape` (`_signedArea`, `_centroid`, `_edges`, `_simple`) are
  functions of its points, as they are after `updateMetrics()`; `CachedShape` is the object
  with the cached members kept apart from the points, for the operations that change the
  points without a call of `updateMetrics()`.
* `QLineF::intersect`, `operator==` of `QPointF`, `qFuzzyIsNull`, `qRound` and
  `QTransform::map` follow the Qt 5 implementation.
* The worker process of a `PluginRunner` and the event loop of the orchestrator are the
  environment: the lines a process writes and the `finished` signals delivered to
  `_pluginFinished` are arguments of the embedded functions.
-/

namespace Bakery

/-! ## Data model -/

/-- A Qt string: a sequence of characters. -/
abbrev QString := List Char

/-- QPoint: a pair of `int` coordinates. -/
structure QPoint where
  x : Int
  y : Int
deriving DecidableEq, Repr

/-- Shape (shape.h): a named `QPolygon`. Only the name and the vertex sequence are part of
the value compared by `operator==`; the cached metrics are recomputed from the vertices. -/
structure Shape where
  name : QString
  points : List QPoint
deriving DecidableEq, Repr

/-- Sheet (sheet.h): `_width`, `_height` and the list `_shapes`; `_bounds` is always
`QRect(QPoint(0, 0), QPoint(width, height))` and is recomputed by `Sheet.bounds`. -/
structure Sheet where
  width : Int
  height : Int
  shapes : List Shape
deriving DecidableEq, Repr

/-- PluginInput (plugins.h). -/
structure PluginInput where
  sheetWidth : Int
  sheetHeight : Int
  shapes : List Shape
deriving DecidableEq, Repr

/-- PluginOutput (plugins.h). -/
structure PluginOutput where
  sheets : List Sheet
deriving DecidableEq, Repr

/-- PluginMetadata (plugins.h). -/
structure PluginMetadata where
  uniqueName : QString
  type : QString
  author : QString
  license : QString
deriving DecidableEq, Repr

/-- The range of a `qint32`. -/
def inInt32 (v : Int) : Bool := decide (-2147483648 ≤ v) && decide (v ≤ 2147483647)

/-- Two's complement wrap-around of a 32 bit signed integer. -/
def wrap32 (v : Int) : Int := (v + 2147483648) % 4294967296 - 2147483648

/-! ## QRect and QPolygon::boundingRect (Qt) -/

/-- QRect: stored as the corner coordinates `x1, y1, x2, y2`. -/
structure QRect where
  x1 : Int
  y1 : Int
  x2 : Int
  y2 : Int
deriving DecidableEq, Repr

/-- `QRect(const QPoint &topLeft, const QPoint &bottomRight)`. -/
def QRect.ofPoints (topLeft bottomRight : QPoint) : QRect :=
  ⟨topLeft.x, topLeft.y, bottomRight.x, bottomRight.y⟩

/-- `QRect(int x, int y, int width, int height)`. -/
def QRect.ofXYWH (x y w h : Int) : QRect :=
  ⟨x, y, wrap32 (x + w - 1), wrap32 (y + h - 1)⟩

/-- `QRect()`: the null rectangle `(0, 0, -1, -1)`. -/
def QRect.null : QRect := ⟨0, 0, -1, -1⟩

/-- `QRect::isNull()`: `x2 == x1 - 1 && y2 == y1 - 1`. -/
def QRect.isNull (r : QRect) : Bool :=
  decide (r.x2 = wrap32 (r.x1 - 1)) && decide (r.y2 = wrap32 (r.y1 - 1))

/-- `QRect::width()`: `x2 - x1 + 1`. -/
def QRect.widthOf (r : QRect) : Int := wrap32 (r.x2 - r.x1 + 1)

/-- `QRect::height()`: `y2 - y1 + 1`. -/
def QRect.heightOf (r : QRect) : Int := wrap32 (r.y2 - r.y1 + 1)

/-- `QRect::contains(const QRect &r, bool proper = false)` with `proper == false`. -/
def QRect.contains (a r : QRect) : Bool :=
  if a.isNull || r.isNull then false
  else
    let l1 := if a.widthOf < 0 then a.x2 else a.x1
    let r1 := if a.widthOf < 0 then a.x1 else a.x2
    let l2 := if r.widthOf < 0 then r.x2 else r.x1
    let r2 := if r.widthOf < 0 then r.x1 else r.x2
    if l2 < l1 || r2 > r1 then false
    else
      let t1 := if a.heightOf < 0 then a.y2 else a.y1
      let b1 := if a.heightOf < 0 then a.y1 else a.y2
      let t2 := if r.heightOf < 0 then r.y2 else r.y1
      let b2 := if r.heightOf < 0 then r.y1 else r.y2
      if t2 < t1 || b2 > b1 then false
      else true

/-- `QRect::intersected(const QRect &r)` (`operator&`). -/
def QRect.intersected (a r : QRect) : QRect :=
  if a.isNull || r.isNull then QRect.null
  else
    let l1 := if a.widthOf < 0 then a.x2 else a.x1
    let r1 := if a.widthOf < 0 then a.x1 else a.x2
    let l2 := if r.widthOf < 0 then r.x2 else r.x1
    let r2 := if r.widthOf < 0 then r.x1 else r.x2
    if l1 > r2 || l2 > r1 then QRect.null
    else
      let t1 := if a.heightOf < 0 then a.y2 else a.y1
      let b1 := if a.heightOf < 0 then a.y1 else a.y2
      let t2 := if r.heightOf < 0 then r.y2 else r.y1
      let b2 := if r.heightOf < 0 then r.y1 else r.y2
      if t1 > b2 || t2 > b1 then QRect.null
      else ⟨max l1 l2, max t1 t2, min r1 r2, min b1 b2⟩

/-- `QRect::size().isEmpty()`: `width() < 1 || height() < 1`. -/
def QRect.sizeIsEmpty (r : QRect) : Bool := decide (r.widthOf < 1) || decide (r.heightOf < 1)

/-- One step of the scan of `QPolygon::boundingRect()`, on the state
`(minx, maxx, miny, maxy)`: `if (x < minx) minx = x; else if (x > maxx) maxx = x;` and the
same for `y`. -/
def boundsStep (acc : Int × Int × Int × Int) (p : QPoint) : Int × Int × Int × Int :=
  (if p.x < acc.1 then p.x else acc.1,
   if p.x < acc.1 then acc.2.1 else if p.x > acc.2.1 then p.x else acc.2.1,
   if p.y < acc.2.2.1 then p.y else acc.2.2.1,
   if p.y < acc.2.2.1 then acc.2.2.2 else if p.y > acc.2.2.2 then p.y else acc.2.2.2)

/-- `QPolygon::boundingRect()`: `QRect(0, 0, 0, 0)` for the empty polygon, otherwise the
rectangle spanned by the smallest and largest coordinates. -/
def boundingRect : List QPoint → QRect
  | [] => QRect.ofXYWH 0 0 0 0
  | p :: rest =>
    let acc := rest.foldl boundsStep (p.x, p.x, p.y, p.y)
    QRect.ofPoints ⟨acc.1, acc.2.2.1⟩ ⟨acc.2.1, acc.2.2.2⟩

/-! ## Shape and Sheet predicates -/

/-- `Shape::isClosed()`: `size() == 0 || (size() > 2 && first() == last())`. -/
def isClosedPts (pts : List QPoint) : Bool :=
  pts.length == 0 || (decide (pts.length > 2) && decide (pts.head? = pts.getLast?))

/-- `Shape::isClosed()`. -/
def Shape.isClosed (s : Shape) : Bool := isClosedPts s.points

/-- `Shape::ensureClosed(bool closed)`: appends the first point to a non-empty open chain,
or removes the last point of a closed chain of more than one point. -/
def Shape.ensureClosed (s : Shape) (closed : Bool) : Shape :=
  if closed then
    if !s.isClosed && decide (s.points.length > 0) then
      { s with points := s.points ++ s.points.head?.toList }
    else s
  else
    if s.isClosed && decide (s.points.length > 1) then
      { s with points := s.points.dropLast }
    else s

/-- `Shape::intersects(const Shape &other)`: the bounding rectangle pre-test followed by
`QPolygon::intersected`, which is the parameter `polyIntersected`. -/
def Shape.intersects (polyIntersected : List QPoint → List QPoint → List QPoint)
    (a other : Shape) : Bool :=
  if ((boundingRect a.points).intersected (boundingRect other.points)).sizeIsEmpty then false
  else decide ((polyIntersected a.points other.points).length > 0)

/-- The rectangle `_bounds` of a sheet. -/
def Sheet.bounds (s : Sheet) : QRect := QRect.ofPoints ⟨0, 0⟩ ⟨s.width, s.height⟩

/-- The loops of `Sheet::isValid()`. The argument is the shape list in reverse: its head is
`*i_this`, its tail are the shapes `i_other` runs over, in the order it visits them. -/
def isValidFrom (polyIntersected : List QPoint → List QPoint → List QPoint) (bounds : QRect) :
    List Shape → Bool
  | [] => true
  | this :: before =>
    if !bounds.contains (boundingRect this.points) then false
    else if before.any (fun other => this.intersects polyIntersected other) then false
    else isValidFrom polyIntersected bounds before

/-- `Sheet::isValid()`. -/
def Sheet.isValid (polyIntersected : List QPoint → List QPoint → List QPoint) (s : Sheet) : Bool :=
  isValidFrom polyIntersected s.bounds s.shapes.reverse

/-! ## Bakery::isOutputValidForInput -/

/-- The inner `for` loop of `isOutputValidForInput`: erase the first element of `inputList`
that has the given name; `none` when no element has it (`found` stays false). -/
def eraseFirstNamed (name : QString) : List Shape → Option (List Shape)
  | [] => none
  | i :: rest =>
    if name = i.name then some rest
    else (eraseFirstNamed name rest).map (fun l => i :: l)

/-- The `foreach (Shape shape, s.shapes())` loop: `none` stands for `return false`. -/
def matchShapes : List Shape → List Shape → Option (List Shape)
  | [], inputList => some inputList
  | shape :: rest, inputList =>
    match eraseFirstNamed shape.name inputList with
    | none => none
    | some l => matchShapes rest l

/-- The `foreach (Sheet s, output.sheets)` loop of `isOutputValidForInput`, followed by
`return inputList.isEmpty()`. -/
def validLoop (polyIntersected : List QPoint → List QPoint → List QPoint) (input : PluginInput) :
    List Sheet → List Shape → Bool
  | [], inputList => inputList.isEmpty
  | s :: rest, inputList =>
    if !s.isValid polyIntersected then false
    else if s.width ≠ input.sheetWidth || s.height ≠ input.sheetHeight then false
    else
      match matchShapes s.shapes inputList with
      | none => false
      | some l => validLoop polyIntersected input rest l

/-- `Bakery::isOutputValidForInput`. -/
def isOutputValidForInput (polyIntersected : List QPoint → List QPoint → List QPoint)
    (input : PluginInput) (output : PluginOutput) : Bool :=
  validLoop polyIntersected input output.sheets input.shapes

/-- The names of all shapes placed on the sheets of a result, sheet by sheet. -/
def placedNames (sheets : List Sheet) : List QString :=
  (sheets.map (fun s => s.shapes.map Shape.name)).flatten

/-! ## Notions used to state sheet validity -/

/-- The scan state `(minx, maxx, miny, maxy)` spans the coordinates of the points seen so far:
it bounds every point and each of its four values is the coordinate of a seen point. -/
def SpansCoords (seen : List QPoint) (acc : Int × Int × Int × Int) : Prop :=
  (∀ p ∈ seen, acc.1 ≤ p.x ∧ p.x ≤ acc.2.1 ∧ acc.2.2.1 ≤ p.y ∧ p.y ≤ acc.2.2.2) ∧
  (∃ p ∈ seen, p.x = acc.1) ∧ (∃ p ∈ seen, p.x = acc.2.1) ∧
  (∃ p ∈ seen, p.y = acc.2.2.1) ∧ (∃ p ∈ seen, p.y = acc.2.2.2)

/-- A vertex lies in the closed rectangle `[0, w] x [0, h]`. -/
def inSheetRange (w h : Int) (p : QPoint) : Prop := 0 ≤ p.x ∧ p.x ≤ w ∧ 0 ≤ p.y ∧ p.y ≤ h

/-- Coordinates of magnitude below `2^30`, so that `maxx - minx + 1` cannot overflow 32 bits. -/
def smallCoord (p : QPoint) : Prop :=
  -1073741824 < p.x ∧ p.x < 1073741824 ∧ -1073741824 < p.y ∧ p.y < 1073741824

instance (w h : Int) (p : QPoint) : Decidable (inSheetRange w h p) := by
  unfold inSheetRange; infer_instance

instance (p : QPoint) : Decidable (smallCoord p) := by
  unfold smallCoord; infer_instance

/-- A polygon clipper that never reports an overlap; used for concrete evaluations in which
`QPolygon::intersected` is not reached or is known to return the empty polygon. -/
def noOverlap : List QPoint → List QPoint → List QPoint := fun _ _ => []

/-- The closed unit square (100000 fixed-point units) named "s". -/
def unitSquare : Shape :=
  ⟨['s'], [⟨0, 0⟩, ⟨0, 100000⟩, ⟨100000, 100000⟩, ⟨100000, 0⟩, ⟨0, 0⟩]⟩

/-! ## QTextStream (Qt) -/

/-- `QTextStream::Status`. -/
inductive Status
  | Ok
  | ReadPastEnd
  | ReadCorruptData
  | WriteFailed
deriving DecidableEq, Repr

/-- A `QTextStream` that reads from a string: the characters not yet consumed and the
status. -/
structure QTextStream where
  buf : List Char
  status : Status
deriving DecidableEq, Repr

/-- `QTextStream::setStatus`: the status is only changed while it is still `Ok`. -/
def QTextStream.setStatus (st : QTextStream) (s : Status) : QTextStream :=
  if st.status = Status.Ok then { st with status := s } else st

/-- `QTextStream::atEnd()` of a string stream: no character is left. -/
def QTextStream.atEnd (st : QTextStream) : Bool := st.buf.isEmpty

/-- `QChar::isSpace()`: U+0020, U+0009..U+000D, U+0085, U+00A0 and the Unicode separator
categories Zs, Zl and Zp. -/
def isSpace (c : Char) : Bool :=
  let n := c.toNat
  n == 0x20 || (decide (0x09 ≤ n) && decide (n ≤ 0x0D)) || n == 0x85 || n == 0xA0 ||
    n == 0x1680 || (decide (0x2000 ≤ n) && decide (n ≤ 0x200A)) || n == 0x2028 ||
    n == 0x2029 || n == 0x202F || n == 0x205F || n == 0x3000

/-- `QTextStream::operator>>(QString &)`: skips white space, then reads the word up to the
next white space. When nothing but white space is left the string read is empty and the status
becomes `ReadPastEnd`. -/
def QTextStream.readWord (st : QTextStream) : QString × QTextStream :=
  match st.buf.dropWhile isSpace with
  | [] => ([], (({ st with buf := [] } : QTextStream).setStatus Status.ReadPastEnd))
  | c :: cs =>
    ((c :: cs).takeWhile (fun ch => !isSpace ch),
      { st with buf := (c :: cs).dropWhile (fun ch => !isSpace ch) })

/-- `QString::trimmed()`: white space removed from both ends. -/
def trimmed (s : QString) : QString :=
  ((s.dropWhile isSpace).reverse.dropWhile isSpace).reverse

/-- `QString::contains(const QString &)`: `pat` occurs in `text` as a substring. -/
def containsStr (text pat : QString) : Bool := text.tails.any (fun t => pat.isPrefixOf t)

/-! ## Numbers on the wire (Qt) -/

/-- The character of a decimal digit. -/
def digitChar (d : Nat) : Char := Char.ofNat (48 + d)

/-- Decimal digits of a natural number, most significant first; `fuel` bounds the number of
digits. -/
def natStrFuel : Nat → Nat → List Char
  | 0, _ => []
  | fuel + 1, n =>
    if n < 10 then [digitChar n] else natStrFuel fuel (n / 10) ++ [digitChar (n % 10)]

/-- Decimal representation of a natural number. -/
def natStr (n : Nat) : List Char := natStrFuel (n + 1) n

/-- `QTextStream::operator<<(int)`: decimal representation with a leading `-` for negative
numbers. -/
def intStr (i : Int) : QString :=
  if i < 0 then '-' :: natStr i.natAbs else natStr i.natAbs

/-- An ASCII decimal digit. -/
def isDigit (c : Char) : Bool := decide (48 ≤ c.toNat) && decide (c.toNat ≤ 57)

/-- One step of reading a digit string; `none` once a character is not a digit. -/
def parseStep (acc : Option Nat) (c : Char) : Option Nat :=
  match acc with
  | none => none
  | some a => if isDigit c then some (a * 10 + (c.toNat - 48)) else none

/-- The value of a non-empty string of decimal digits. -/
def parseNat (s : List Char) : Option Nat :=
  if s.isEmpty then none else s.foldl parseStep (some 0)

/-- `QString::toInt(&ok)` in base 10 on a token (a string without white space): an optional
sign followed by decimal digits, with a value in the range of `int`; `none` stands for
`ok == false`. -/
def toInt (s : QString) : Option Int :=
  let v : Option Int :=
    match s with
    | [] => none
    | c :: ds =>
      if c = '-' then
        match parseNat ds with
        | none => none
        | some n => some (-(Int.ofNat n))
      else if c = '+' then
        match parseNat ds with
        | none => none
        | some n => some (Int.ofNat n)
      else
        match parseNat (c :: ds) with
        | none => none
        | some n => some (Int.ofNat n)
  match v with
  | none => none
  | some i => if inInt32 i then some i else none

/-! ## BakeryHelpers::readText / writeText (helpers.hpp) -/

/-- The `forever` loop of `readText`. The result is `(result, ok, stream)`, where `ok` tells
that the loop was left by `break` (the word `text_end` was read) and not by `return` at the
end of the stream. Every pass on a stream that is not at its end consumes a character, so a
`fuel` of at least the number of unread characters is never exhausted before `atEnd()` holds
(`readTextLoop_fuel`). -/
def readTextLoop : Nat → QTextStream → QString → QString × Bool × QTextStream
  | 0, st, result => (result, false, st)
  | fuel + 1, st, result =>
    if st.atEnd then (result, false, st)
    else
      let r := st.readWord
      if r.1 = "text_end".toList then (result, true, r.2)
      else readTextLoop fuel r.2 (result ++ ' ' :: r.1)

/-- `BakeryHelpers::readText(stream, &ok)`: the result is `(text, ok, stream)`. -/
def readText (st : QTextStream) : QString × Bool × QTextStream :=
  if st.status ≠ Status.Ok then ([], false, st)
  else
    let r := st.readWord
    if r.1 ≠ "text_begin".toList then ([], false, r.2)
    else
      let l := readTextLoop r.2.buf.length r.2 []
      if !l.2.1 then (l.1, false, l.2.2)
      else (trimmed l.1, !(trimmed l.1).isEmpty, l.2.2)

/-- `BakeryHelpers::writeText(stream, text)`: the characters appended to the stream. Nothing
is written when the text contains `text_begin` or `text_end`. -/
def writeText (text : QString) : QString :=
  if containsStr text "text_begin".toList || containsStr text "text_end".toList then []
  else "text_begin ".toList ++ text ++ " text_end ".toList

/-! ## Shape codec (shape.cpp) -/

/-- The coordinates written by the `for` loop of the Shape encoder. -/
def encodePoints (pts : List QPoint) : QString :=
  (pts.map (fun p => intStr p.x ++ ' ' :: intStr p.y ++ [' '])).flatten

/-- The point count written by the Shape encoder: `size() - 1` for a closed shape, `size()`
otherwise. -/
def Shape.wireSize (s : Shape) : Int :=
  if s.isClosed then (s.points.length : Int) - 1 else (s.points.length : Int)

/-- `operator<<(QTextStream &, const Shape &)` on a stream with status `Ok`: the characters
appended. -/
def encodeShape (s : Shape) : QString :=
  "shape_begin ".toList ++ writeText s.name ++ intStr s.wireSize ++ ' ' ::
    encodePoints (s.points.take s.wireSize.toNat) ++ "shape_end ".toList

/-- The `for` loop of the Shape decoder reading `n` points. `toDouble` stands for
`QString::toDouble(&ok)` followed by the conversion of the `qreal` to the `int` coordinate of
`QPoint`. The result is `(stream, points, ok)`; `ok == false` stands for the early `return`. -/
def readPoints (toDouble : QString → Option Int) :
    Nat → QTextStream → List QPoint → QTextStream × List QPoint × Bool
  | 0, st, pts => (st, pts, true)
  | n + 1, st, pts =>
    let rx := st.readWord
    match toDouble rx.1 with
    | none => (rx.2.setStatus Status.ReadCorruptData, pts, false)
    | some x =>
      let ry := rx.2.readWord
      match toDouble ry.1 with
      | none => (ry.2.setStatus Status.ReadCorruptData, pts, false)
      | some y => readPoints toDouble n ry.2 (pts ++ [⟨x, y⟩])

/-- `operator>>(QTextStream &, Shape &)`: the stream and the shape after the call. -/
def decodeShape (toDouble : QString → Option Int) (st : QTextStream) (shape : Shape) :
    QTextStream × Shape :=
  if st.status ≠ Status.Ok then (st, shape)
  else
    let r0 := st.readWord
    if r0.1 ≠ "shape_begin".toList then (r0.2.setStatus Status.ReadCorruptData, shape)
    else
      let t := readText r0.2
      if !t.2.1 then (t.2.2.setStatus Status.ReadCorruptData, shape)
      else
        let r1 := t.2.2.readWord
        match toInt r1.1 with
        | none => (r1.2.setStatus Status.ReadCorruptData, ⟨t.1, []⟩)
        | some numPoints =>
          let p := readPoints toDouble numPoints.toNat r1.2 []
          if !p.2.2 then (p.1, ⟨t.1, p.2.1⟩)
          else
            let shape2 := (Shape.mk t.1 p.2.1).ensureClosed true
            let r2 := p.1.readWord
            if r2.1 ≠ "shape_end".toList then (r2.2.setStatus Status.ReadCorruptData, shape2)
            else (r2.2, shape2)

/-- `Shape()`: the empty shape with the default name. -/
def Shape.default : Shape := ⟨"<default>".toList, []⟩

/-- The loop `for (i < numShapes) { Shape shape; stream >> shape; ...; list << shape; }` of
the Sheet and PluginInput decoders. The result is `(stream, shapes, ok)`. -/
def readShapes (toDouble : QString → Option Int) :
    Nat → QTextStream → List Shape → QTextStream × List Shape × Bool
  | 0, st, acc => (st, acc, true)
  | n + 1, st, acc =>
    let r := decodeShape toDouble st Shape.default
    if r.1.status ≠ Status.Ok then (r.1, acc, false)
    else readShapes toDouble n r.1 (acc ++ [r.2])

/-- The shapes written one after the other. -/
def encodeShapes (shapes : List Shape) : QString := (shapes.map encodeShape).flatten

/-! ## Well-formedness conditions used by the round trip theorems -/

/-- The maximal runs of characters that are not white space, in order; `fuel` bounds the
number of runs. -/
def splitWordsFuel : Nat → List Char → List QString
  | 0, _ => []
  | fuel + 1, s =>
    match s.dropWhile isSpace with
    | [] => []
    | c :: cs =>
      (c :: cs).takeWhile (fun ch => !isSpace ch) ::
        splitWordsFuel fuel ((c :: cs).dropWhile (fun ch => !isSpace ch))

/-- The words of a text. -/
def splitWords (s : QString) : List QString := splitWordsFuel s.length s

/-- Words joined by single blanks. -/
def joinWords : List QString → QString
  | [] => []
  | [w] => w
  | w :: v :: ws => w ++ ' ' :: joinWords (v :: ws)

/-- A text that the `Text` encoding of the wire format transports unchanged: it is not empty,
has no white space at either end, its words are separated by exactly one blank (U+0020), and
it contains neither `text_begin` nor `text_end`. -/
def wireSafe (t : QString) : Bool :=
  !containsStr t "text_begin".toList && !containsStr t "text_end".toList &&
    !t.isEmpty && decide (joinWords (splitWords t) = t)

/-- All characters are white space. -/
def SpacesOnly (sp : List Char) : Prop := ∀ c ∈ sp, isSpace c = true

/-- A token: a non-empty string without white space. -/
def IsToken (tok : List Char) : Prop := tok ≠ [] ∧ ∀ c ∈ tok, isSpace c = false

/-- The vertex coordinates are `qint32` values and the number of vertices is an `int`. -/
def pointsInRange (pts : List QPoint) : Bool :=
  decide (pts.length ≤ 2147483647) && pts.all (fun p => inInt32 p.x && inInt32 p.y)

/-- A shape whose decoding gives back the shape itself: it is empty, or it is closed and the
vertex sequence without its final point is not closed on its own. -/
def Shape.wireExact (s : Shape) : Bool :=
  s.points.isEmpty || (s.isClosed && !isClosedPts s.points.dropLast)

/-- The points written by the Shape encoder: the first `wireSize` points. -/
def Shape.wirePoints (s : Shape) : List QPoint := s.points.take s.wireSize.toNat

/-- The assumption made on `QString::toDouble` (followed by the conversion to `int`): the
decimal representation of a `qint32` is read back as that number. -/
def ReadsIntegers (toDouble : QString → Option Int) : Prop :=
  ∀ i : Int, inInt32 i = true → toDouble (intStr i) = some i

/-- `QString::toDouble(&ok)` followed by the conversion to `int`, on the decimal literals
`[+-]digits[.digits]` whose value is in the range of `int`: the fraction is cut off. Other
strings that Qt accepts (exponent forms, `inf`, `nan`) are not covered and give `none`. It
serves as the concrete instance in evaluations. -/
def toDoubleDec (s : QString) : Option Int :=
  if ((s.dropWhile (fun c => c ≠ '.')).drop 1).all isDigit then
    toInt (s.takeWhile (fun c => c ≠ '.'))
  else none

/-- A closed chain whose first three points are closed on their own. -/
def doubledEnd : Shape := ⟨['a'], [⟨1, 1⟩, ⟨2, 2⟩, ⟨1, 1⟩, ⟨1, 1⟩]⟩

/-! ## Sheet codec (sheet.cpp) -/

/-- `Sheet()`: a sheet of raw size 1 x 1 without shapes. -/
def Sheet.default : Sheet := ⟨1, 1, []⟩

/-- `operator<<(QTextStream &, const Sheet &)` on a stream with status `Ok`. -/
def encodeSheet (s : Sheet) : QString :=
  "sheet_begin ".toList ++ intStr s.width ++ ' ' :: intStr s.height ++ ' ' ::
    intStr (s.shapes.length : Int) ++ ' ' :: encodeShapes s.shapes ++ "sheet_end ".toList

/-- `operator>>(QTextStream &, Sheet &)`: the stream and the sheet after the call. -/
def decodeSheet (toDouble : QString → Option Int) (st : QTextStream) (sheet : Sheet) :
    QTextStream × Sheet :=
  if st.status ≠ Status.Ok then (st, sheet)
  else
    let r0 := st.readWord
    if r0.1 ≠ "sheet_begin".toList then (r0.2.setStatus Status.ReadCorruptData, sheet)
    else
      let r1 := r0.2.readWord
      match toInt r1.1 with
      | none => (r1.2.setStatus Status.ReadCorruptData, sheet)
      | some width =>
        let r2 := r1.2.readWord
        match toInt r2.1 with
        | none => (r2.2.setStatus Status.ReadCorruptData, sheet)
        | some height =>
          let r3 := r2.2.readWord
          match toInt r3.1 with
          | none => (r3.2.setStatus Status.ReadCorruptData, ⟨width, height, []⟩)
          | some numShapes =>
            let p := readShapes toDouble numShapes.toNat r3.2 []
            if !p.2.2 then (p.1, ⟨width, height, p.2.1⟩)
            else
              let r4 := p.1.readWord
              if r4.1 ≠ "sheet_end".toList then
                (r4.2.setStatus Status.ReadCorruptData, ⟨width, height, p.2.1⟩)
              else (r4.2, ⟨width, height, p.2.1⟩)

/-- The loop `for (i < numSheets) { Sheet sheet; stream >> sheet; ...; sheets << sheet; }` of
the PluginOutput decoder. The result is `(stream, sheets, ok)`. -/
def readSheets (toDouble : QString → Option Int) :
    Nat → QTextStream → List Sheet → QTextStream × List Sheet × Bool
  | 0, st, acc => (st, acc, true)
  | n + 1, st, acc =>
    let r := decodeSheet toDouble st Sheet.default
    if r.1.status ≠ Status.Ok then (r.1, acc, false)
    else readSheets toDouble n r.1 (acc ++ [r.2])

/-- The sheets written one after the other. -/
def encodeSheets (sheets : List Sheet) : QString := (sheets.map encodeSheet).flatten

/-! ## PluginInput, PluginOutput and PluginMetadata codecs (plugins.cpp) -/

/-- `BAKERY_PRECISION` (global.h), the constant `1.0E+5`. -/
def BAKERY_PRECISION : Int := 100000

/-- `operator<<(QTextStream &, const PluginInput &)` on a stream with status `Ok`. The
precision is written by `stream << BAKERY_PRECISION`, which prints the `double` `1.0E+5` as
`100000` (the expected strings of `TestPlugins::pluginInputSerialization`). -/
def encodePluginInput (input : PluginInput) : QString :=
  "plugininput_begin ".toList ++ "100000".toList ++ ' ' :: intStr input.sheetWidth ++ ' ' ::
    intStr input.sheetHeight ++ ' ' :: intStr (input.shapes.length : Int) ++ ' ' ::
    "shapelist_begin ".toList ++ encodeShapes input.shapes ++ "shapelist_end ".toList ++
    "plugininput_end ".toList

/-- `operator>>(QTextStream &, PluginInput &)`: the stream and the job after the call. A
failed `toInt` / `toDouble` stores 0 in the field it was assigned to. -/
def decodePluginInput (toDouble : QString → Option Int) (st : QTextStream)
    (input : PluginInput) : QTextStream × PluginInput :=
  if st.status ≠ Status.Ok then (st, input)
  else
    let r0 := st.readWord
    if r0.1 ≠ "plugininput_begin".toList then (r0.2.setStatus Status.ReadCorruptData, input)
    else
      let r1 := r0.2.readWord
      match toInt r1.1 with
      | none => (r1.2.setStatus Status.ReadCorruptData, input)
      | some precision =>
        if precision ≠ BAKERY_PRECISION then (r1.2.setStatus Status.ReadCorruptData, input)
        else
          let r2 := r1.2.readWord
          match toInt r2.1 with
          | none => (r2.2.setStatus Status.ReadCorruptData, { input with sheetWidth := 0 })
          | some w =>
            let r3 := r2.2.readWord
            match toDouble r3.1 with
            | none =>
              (r3.2.setStatus Status.ReadCorruptData,
                { input with sheetWidth := w, sheetHeight := 0 })
            | some h =>
              let r4 := r3.2.readWord
              match toInt r4.1 with
              | none =>
                (r4.2.setStatus Status.ReadCorruptData,
                  { input with sheetWidth := w, sheetHeight := h })
              | some numShapes =>
                let r5 := r4.2.readWord
                if r5.1 ≠ "shapelist_begin".toList then
                  (r5.2.setStatus Status.ReadCorruptData,
                    { input with sheetWidth := w, sheetHeight := h })
                else
                  let p := readShapes toDouble numShapes.toNat r5.2 []
                  if !p.2.2 then (p.1, ⟨w, h, p.2.1⟩)
                  else
                    let r6 := p.1.readWord
                    if r6.1 ≠ "shapelist_end".toList then
                      (r6.2.setStatus Status.ReadCorruptData, ⟨w, h, p.2.1⟩)
                    else
                      let r7 := r6.2.readWord
                      if r7.1 ≠ "plugininput_end".toList then
                        (r7.2.setStatus Status.ReadCorruptData, ⟨w, h, p.2.1⟩)
                      else (r7.2, ⟨w, h, p.2.1⟩)

/-- `operator<<(QTextStream &, const PluginOutput &)` on a stream with status `Ok`. -/
def encodePluginOutput (output : PluginOutput) : QString :=
  "pluginoutput_begin ".toList ++ intStr (output.sheets.length : Int) ++ ' ' ::
    "sheetlist_begin ".toList ++ encodeSheets output.sheets ++ "sheetlist_end ".toList ++
    "pluginoutput_end ".toList

/-- `operator>>(QTextStream &, PluginOutput &)`: the stream and the result after the call. -/
def decodePluginOutput (toDouble : QString → Option Int) (st : QTextStream)
    (output : PluginOutput) : QTextStream × PluginOutput :=
  if st.status ≠ Status.Ok then (st, output)
  else
    let r0 := st.readWord
    if r0.1 ≠ "pluginoutput_begin".toList then (r0.2.setStatus Status.ReadCorruptData, output)
    else
      let r1 := r0.2.readWord
      match toInt r1.1 with
      | none => (r1.2.setStatus Status.ReadCorruptData, output)
      | some numSheets =>
        let r2 := r1.2.readWord
        if r2.1 ≠ "sheetlist_begin".toList then
          (r2.2.setStatus Status.ReadCorruptData, output)
        else
          let p := readSheets toDouble numSheets.toNat r2.2 []
          if !p.2.2 then (p.1, ⟨p.2.1⟩)
          else
            let r3 := p.1.readWord
            if r3.1 ≠ "sheetlist_end".toList then
              (r3.2.setStatus Status.ReadCorruptData, ⟨p.2.1⟩)
            else
              let r4 := r3.2.readWord
              if r4.1 ≠ "pluginoutput_end".toList then
                (r4.2.setStatus Status.ReadCorruptData, ⟨p.2.1⟩)
              else (r4.2, ⟨p.2.1⟩)

/-- `operator<<(QTextStream &, const PluginMetadata &)` on a stream with status `Ok`. -/
def encodePluginMetadata (meta : PluginMetadata) : QString :=
  "pluginmetadata_begin ".toList ++ writeText meta.uniqueName ++ writeText meta.type ++
    writeText meta.author ++ writeText meta.license ++ "pluginmetadata_end ".toList

/-- `operator>>(QTextStream &, PluginMetadata &)`: the stream and the metadata after the
call. -/
def decodePluginMetadata (st : QTextStream) (meta : PluginMetadata) :
    QTextStream × PluginMetadata :=
  if st.status ≠ Status.Ok then (st, meta)
  else
    let r0 := st.readWord
    if r0.1 ≠ "pluginmetadata_begin".toList then (r0.2.setStatus Status.ReadCorruptData, meta)
    else
      let t1 := readText r0.2
      let m1 := { meta with uniqueName := t1.1 }
      if !t1.2.1 then (t1.2.2.setStatus Status.ReadCorruptData, m1)
      else
        let t2 := readText t1.2.2
        let m2 := { m1 with type := t2.1 }
        if !t2.2.1 then (t2.2.2.setStatus Status.ReadCorruptData, m2)
        else
          let t3 := readText t2.2.2
          let m3 := { m2 with author := t3.1 }
          if !t3.2.1 then (t3.2.2.setStatus Status.ReadCorruptData, m3)
          else
            let t4 := readText t3.2.2
            let m4 := { m3 with license := t4.1 }
            if !t4.2.1 then (t4.2.2.setStatus Status.ReadCorruptData, m4)
            else
              let r5 := t4.2.2.readWord
              if r5.1 ≠ "pluginmetadata_end".toList then
                (r5.2.setStatus Status.ReadCorruptData, m4)
              else (r5.2, m4)

/-! ## Values the wire format transports -/

/-- The shape obtained by decoding the encoding of `s`: the written points, closed again. -/
def Shape.decoded (s : Shape) : Shape := (Shape.mk s.name s.wirePoints).ensureClosed true

/-- A shape the codec can transport: the name passes the `Text` encoding and the vertex
coordinates fit `qint32`. -/
def Shape.wireOk (s : Shape) : Bool := wireSafe s.name && pointsInRange s.points

/-- A sheet the codec can transport: `qint32` width and height, an `int` number of shapes,
every shape transportable. -/
def Sheet.wireOk (s : Sheet) : Bool :=
  inInt32 s.width && inInt32 s.height && decide (s.shapes.length ≤ 2147483647) &&
    s.shapes.all Shape.wireOk

/-- A job the codec can transport. -/
def PluginInput.wireOk (i : PluginInput) : Bool :=
  inInt32 i.sheetWidth && inInt32 i.sheetHeight && decide (i.shapes.length ≤ 2147483647) &&
    i.shapes.all Shape.wireOk

/-- A result the codec can transport. -/
def PluginOutput.wireOk (o : PluginOutput) : Bool :=
  decide (o.sheets.length ≤ 2147483647) && o.sheets.all Sheet.wireOk

/-- The sheet obtained by decoding the encoding of `s`. -/
def Sheet.decoded (s : Sheet) : Sheet := ⟨s.width, s.height, s.shapes.map Shape.decoded⟩

/-- The open unit square: four points, the first one not repeated. -/
def openSquare : Shape :=
  ⟨['s'], [⟨0, 0⟩, ⟨0, 100000⟩, ⟨100000, 100000⟩, ⟨100000, 0⟩]⟩

/-! ## `double` arithmetic -/

/-- A finite `double`: the value `m * 2 ^ e`. A result of an arithmetic operation is zero, with
`m = 0`, or has `2 ^ 52 ≤ |m| ≤ 2 ^ 53`. The range of the exponent is not limited: the
operations are those of IEEE 754 binary64 as long as no result overflows or falls below the
smallest normal number. -/
structure Dbl where
  m : Int
  e : Int
deriving DecidableEq, Repr

/-- The loop that brings the quotient `N / D` into the range of a 53-bit significand and rounds
it to the nearest integer, ties to even: the significand and the exponent. -/
def roundLoop : Nat → Nat → Nat → Int → Nat × Int
  | 0, N, D, e => (N / D, e)
  | fuel + 1, N, D, e =>
    if N < 2 ^ 52 * D then roundLoop fuel (2 * N) D (e - 1)
    else if 2 ^ 53 * D ≤ N then roundLoop fuel N (2 * D) (e + 1)
    else if D < 2 * (N % D) ∨ (2 * (N % D) = D ∧ N / D % 2 = 1) then (N / D + 1, e)
    else (N / D, e)

/-- A coarse scaling of the numerator by powers of two given by `ks`, each applied while the
quotient stays below `2 ^ 53`; the value `N / D * 2 ^ e` is kept. -/
def scaleUp (D : Nat) : List Nat → Nat → Int → Nat × Int
  | [], N, e => (N, e)
  | k :: ks, N, e =>
    if N * 2 ^ k < 2 ^ 53 * D then scaleUp D ks (N * 2 ^ k) (e - k) else scaleUp D ks N e

/-- A coarse scaling of the denominator by powers of two given by `ks`, each applied while the
quotient stays at or above `2 ^ 53`; the value `N / D * 2 ^ e` is kept. -/
def scaleDown (N : Nat) : List Nat → Nat → Int → Nat × Int
  | [], D, e => (D, e)
  | k :: ks, D, e =>
    if 2 ^ 53 * (D * 2 ^ k) ≤ N then scaleDown N ks (D * 2 ^ k) (e + k) else scaleDown N ks D e

/-- The `double` nearest to `n / d * 2 ^ e`, ties to even. The quotient is first scaled by
powers of two in large steps, which does not change its value, and then rounded by
`roundLoop`. -/
def Dbl.round (n : Int) (d : Nat) (e : Int) : Dbl :=
  if n = 0 ∨ d = 0 then ⟨0, 0⟩
  else
    let up := scaleUp d [128, 64, 32, 16, 8, 4, 2, 1] n.natAbs e
    let down := scaleDown up.1 [128, 64, 32, 16, 8, 4, 2, 1] d up.2
    let r := roundLoop (up.1 + down.1 + 53) up.1 down.1 down.2
    ⟨if n < 0 then -(r.1 : Int) else (r.1 : Int), r.2⟩

/-- The conversion of an integer to `double`. -/
def Dbl.ofInt (v : Int) : Dbl := Dbl.round v 1 0

/-- The value as an integer multiple of `2 ^ e0`, for `e0` not above the exponent. -/
def Dbl.scaled (a : Dbl) (e0 : Int) : Int := a.m * ((2 ^ (a.e - e0).toNat : Nat) : Int)

/-- Addition of `double` values. -/
def Dbl.add (a b : Dbl) : Dbl :=
  Dbl.round (a.scaled (min a.e b.e) + b.scaled (min a.e b.e)) 1 (min a.e b.e)

/-- Subtraction of `double` values. -/
def Dbl.sub (a b : Dbl) : Dbl :=
  Dbl.round (a.scaled (min a.e b.e) - b.scaled (min a.e b.e)) 1 (min a.e b.e)

/-- Multiplication of `double` values. -/
def Dbl.mul (a b : Dbl) : Dbl := Dbl.round (a.m * b.m) 1 (a.e + b.e)

/-- Division of `double` values, for a divisor that is not zero. -/
def Dbl.div (a b : Dbl) : Dbl :=
  Dbl.round (if b.m < 0 then -a.m else a.m) b.m.natAbs (a.e - b.e)

/-- The comparison `a < b` of `double` values. -/
def Dbl.lt (a b : Dbl) : Bool := decide (a.scaled (min a.e b.e) < b.scaled (min a.e b.e))

/-- The comparison `a <= b` of `double` values. -/
def Dbl.le (a b : Dbl) : Bool := decide (a.scaled (min a.e b.e) ≤ b.scaled (min a.e b.e))

/-- The comparison `a == 0`. -/
def Dbl.isZero (a : Dbl) : Bool := decide (a.m = 0)

/-- The function `qAbs` on `double` values. -/
def Dbl.abs (a : Dbl) : Dbl := ⟨|a.m|, a.e⟩

/-- The conversion of a `double` to an integer type: the fraction is cut off. -/
def Dbl.toInt (a : Dbl) : Int :=
  if 0 ≤ a.e then a.m * ((2 ^ a.e.toNat : Nat) : Int)
  else Int.tdiv a.m ((2 ^ (-a.e).toNat : Nat) : Int)

/-- The value of a `double` as a rational number. -/
def Dbl.val (a : Dbl) : ℚ := (a.m : ℚ) * (2 : ℚ) ^ a.e

/-- The expression `v / BAKERY_PRECISION` for a `qint64` value `v`, stored in a `qint64`
again (`_signedArea /= BAKERY_PRECISION`, `(qint64)_width * _height / BAKERY_PRECISION`):
`BAKERY_PRECISION` is the `double` constant `1.0E+5`, so `v` is converted to `double`, the
division is made in `double`, and the fraction of the quotient is cut off. -/
def divPrecision (v : Int) : Int := (Dbl.div (Dbl.ofInt v) (Dbl.ofInt 100000)).toInt

/-! ## Areas, utilization and score (shape.cpp, sheet.cpp, plugins.cpp) -/

/-- Two's complement wrap-around of a 64 bit signed integer. -/
def wrap64 (v : Int) : Int := (v + 9223372036854775808) % 18446744073709551616 - 9223372036854775808

/-- The sum `_signedArea += z` of `Shape::updateMetrics()` over the consecutive vertex pairs,
`z = x1 * y2 - x2 * y1`, accumulated in a `qint64`. -/
def shoelaceSum : Int → List QPoint → Int
  | acc, p :: q :: rest => shoelaceSum (wrap64 (acc + wrap64 (p.x * q.y - q.x * p.y))) (q :: rest)
  | acc, _ => acc

/-- The cached `_signedArea` after `Shape::updateMetrics()`: the sum is halved
(`_signedArea /= 2`, an integer division) and divided by `BAKERY_PRECISION`
(`_signedArea /= BAKERY_PRECISION`, a division in `double` whose result is cut off to a
`qint64`). -/
def Shape.signedArea (s : Shape) : Int :=
  divPrecision (Int.tdiv (shoelaceSum 0 s.points) 2)

/-- `Shape::area()`: `qAbs(_signedArea)`, for a shape whose metrics are up to date. -/
def Shape.area (s : Shape) : Int := |s.signedArea|

/-- `Sheet::area()`: `(qint64)_width * _height / BAKERY_PRECISION`, a division in `double`
whose result is cut off to a `qint64`. -/
def Sheet.area (s : Sheet) : Int := divPrecision (s.width * s.height)

/-- `Sheet::shapesArea()`: `qreal a = 0;`, then `a += i_shape->area()` for each placed shape,
and `return a`, which cuts the `double` off to a `qint64`. -/
def Sheet.shapesArea (s : Sheet) : Int :=
  (s.shapes.foldl (fun a shape => Dbl.add a (Dbl.ofInt shape.area)) ⟨0, 0⟩).toInt

/-- A `qreal` value, idealised: a finite value is an exact rational number, `none` is a value
that is not finite (the result of a division by zero, infinite or NaN). Rounding of `double`
arithmetic is not part of the embedding. -/
abbrev QReal := Option ℚ

/-- Addition of `qreal` values. -/
def QReal.add (a b : QReal) : QReal :=
  match a, b with
  | some x, some y => some (x + y)
  | _, _ => none

/-- Multiplication of `qreal` values. -/
def QReal.mul (a b : QReal) : QReal :=
  match a, b with
  | some x, some y => some (x * y)
  | _, _ => none

/-- Division of `qreal` values; the quotient by zero is not finite. -/
def QReal.div (a b : QReal) : QReal :=
  match a, b with
  | some x, some y => if y = 0 then none else some (x / y)
  | _, _ => none

/-- `Sheet::utilitization()`: `(qreal)shapesArea() / area()`. -/
def Sheet.utilitization (s : Sheet) : QReal :=
  QReal.div (some (s.shapesArea : ℚ)) (some (s.area : ℚ))

/-- `BakeryPlugins::outputScore`: 0 for a result without sheets, otherwise the utilizations
added up from 0 in list order, times 100, divided by the number of sheets. -/
def outputScore (output : PluginOutput) : QReal :=
  if output.sheets.isEmpty then some 0
  else
    QReal.div
      (QReal.mul (output.sheets.foldl (fun u sheet => QReal.add u sheet.utilitization) (some 0))
        (some 100))
      (some (output.sheets.length : ℚ))

/-- The arithmetic mean of the utilizations of the sheets, following the wording of the
specification: the sum of `shapesArea() / area()` over the sheets divided by their number;
not finite when some sheet has area 0. -/
def meanUtilization (sheets : List Sheet) : QReal :=
  if sheets.all (fun s => decide (s.area ≠ 0)) then
    some ((sheets.map (fun s => (s.shapesArea : ℚ) / (s.area : ℚ))).sum / (sheets.length : ℚ))
  else none

/-! ## Bakery::findBestOutput (bakery.cpp) -/

/-- `operator<(const PluginOutput &, const PluginOutput &)`:
`outputScore(left) <= outputScore(right)`. The score of a result is `some` value of a linear
order, or `none` for the `double` NaN, with which `<=` is false on either side. -/
def operatorLess {S : Type} [LinearOrder S] (score : PluginOutput → Option S)
    (left right : PluginOutput) : Bool :=
  match score left, score right with
  | some a, some b => decide (a ≤ b)
  | _, _ => false

/-- `Bakery::findBestOutput`. The hash `outputs` is the list of its entries in iteration
order, `outputs.values()` the list of their values; `stdSort` stands for
`std::sort(begin, end)`, which compares with `operator<`. -/
def findBestOutput {S : Type} [LinearOrder S] (score : PluginOutput → Option S)
    (stdSort : (PluginOutput → PluginOutput → Bool) → List PluginOutput → List PluginOutput)
    (outputs : List (QString × PluginOutput)) : PluginOutput :=
  if outputs.isEmpty then ⟨[]⟩
  else
    let candidates := outputs.map Prod.snd
    let sorted :=
      if candidates.length > 1 then stdSort (operatorLess score) candidates else candidates
    sorted.getLastD ⟨[]⟩

/-- `std::__unguarded_linear_insert` of libstdc++ on the reversed sorted range: `val` moves
towards the front while `comp(val, next)` holds. -/
def unguardedLinearInsert {α : Type} (comp : α → α → Bool) (val : α) : List α → List α
  | [] => [val]
  | next :: rest =>
    if comp val next then next :: unguardedLinearInsert comp val rest
    else val :: next :: rest

/-- One pass of the loop of `std::__insertion_sort` of libstdc++: an element that compares
less than the first one is moved to the front, any other element is inserted by
`__unguarded_linear_insert`. -/
def insertionStep {α : Type} (comp : α → α → Bool) (sorted : List α) (val : α) : List α :=
  match sorted with
  | [] => [val]
  | first :: _ =>
    if comp val first then val :: sorted
    else (unguardedLinearInsert comp val sorted.reverse).reverse

/-- `std::sort` as libstdc++ carries it out on a range of at most 16 elements
(`_S_threshold`): `__insertion_sort`. -/
def insertionSort {α : Type} (comp : α → α → Bool) (l : List α) : List α :=
  l.foldl (insertionStep comp) []

/-- The loop `while (__comp(__first, __pivot)) ++__first;` at the head of
`std::__unguarded_partition` of libstdc++, which `std::sort` reaches for a range of more than
16 elements once `std::__move_median_to_first` has put the pivot in front; `range` holds the
elements from `__first` up to the end of the range. The loop has no test against the end of the
range: the result is the number of elements passed when the comparison fails, and `none` when
the comparison holds for every element, so that the loop goes on to read past the end. -/
def unguardedPartitionScan {α : Type} (comp : α → α → Bool) (pivot : α) : List α → Option Nat
  | [] => none
  | x :: range =>
    if comp x pivot then (unguardedPartitionScan comp pivot range).map (fun n => n + 1)
    else some 0

/-- The first element, in list order, with the largest key. -/
def firstMax {S : Type} [LinearOrder S] (key : PluginOutput → S) :
    PluginOutput → List PluginOutput → PluginOutput
  | best, [] => best
  | best, o :: rest => firstMax key (if key best < key o then o else best) rest

/-- The `double` that `BakeryPlugins::outputScore` returns, as `<=` sees it: `some` of a rational
number or of `⊤` for `+inf`, and `none` for NaN. The sum of the utilizations is not finite when
some sheet has `area()` 0: such a sheet contributes `0 / 0`, NaN, when its `shapesArea()` is 0
as well, and `+inf` otherwise (`shapesArea()` is a sum of absolute values and `area()` is
converted from an integer, so the zero divisor is `+0.0`); NaN added to anything is NaN, and
`+inf` added to a number or to `+inf` is `+inf`. -/
def outputScoreDouble (output : PluginOutput) : Option (WithTop ℚ) :=
  match outputScore output with
  | some q => some (WithTop.some q)
  | none =>
    if output.sheets.any (fun s => decide (s.area = 0) && decide (s.shapesArea = 0)) then none
    else some ⊤

/-! ## Concrete results used in evaluations -/

/-- A sheet of 100000 x 100000 that holds one closed rectangle with corners `(0, 0)` and
`(w, h)`. -/
def rectSheet (name : QString) (w h : Int) : Sheet :=
  ⟨100000, 100000, [⟨name, [⟨0, 0⟩, ⟨0, h⟩, ⟨w, h⟩, ⟨w, 0⟩, ⟨0, 0⟩]⟩]⟩

/-- A result with the single sheet `rectSheet name w h`. -/
def rectOutput (name : QString) (w h : Int) : PluginOutput := ⟨[rectSheet name w h]⟩

/-- Result "A": utilization 0.4, score 40. -/
def outputA : PluginOutput := rectOutput ['a'] 100000 40000

/-- Result "B": utilization 0.75, score 75. -/
def outputB : PluginOutput := rectOutput ['b'] 100000 75000

/-- Result "C": utilization 0.75, score 75. -/
def outputC : PluginOutput := rectOutput ['c'] 75000 100000

/-- A result whose only sheet is the default `Sheet()`, of area 0 and without shapes: its
utilization is `0 / 0`, its score NaN. -/
def outputNaN : PluginOutput := ⟨[Sheet.default]⟩

/-! ## Coordinate pairs on a stream -/

/-- The stream after `n` coordinate pairs have been read from it with `operator>>`: `none`
when one of the `2 n` words is missing or is not read by `toDouble`. -/
def skipPairs (toDouble : QString → Option Int) : Nat → QTextStream → Option QTextStream
  | 0, st => some st
  | n + 1, st =>
    if st.readWord.1 ≠ [] ∧ toDouble st.readWord.1 ≠ none ∧ st.readWord.2.readWord.1 ≠ [] ∧
        toDouble st.readWord.2.readWord.1 ≠ none then
      skipPairs toDouble n st.readWord.2.readWord.2
    else none

/-! ## Shape::updateMetrics: centroid (shape.cpp) -/

/-- The `for` loop of `Shape::updateMetrics()` over the consecutive vertex pairs with its three
`qint64` accumulators `(_signedArea, cx, cy)`: with `z = x1 * y2 - x2 * y1` it carries out
`_signedArea += z; cx += (x1 + x2) * z; cy += (y1 + y2) * z;`. -/
def metricsLoop : Int × Int × Int → List QPoint → Int × Int × Int
  | acc, p :: q :: rest =>
    metricsLoop
      (wrap64 (acc.1 + wrap64 (p.x * q.y - q.x * p.y)),
        wrap64 (acc.2.1 + wrap64 ((p.x + q.x) * wrap64 (p.x * q.y - q.x * p.y))),
        wrap64 (acc.2.2 + wrap64 ((p.y + q.y) * wrap64 (p.x * q.y - q.x * p.y))))
      (q :: rest)
  | acc, _ => acc

/-- The cached `_centroid` after `Shape::updateMetrics()`: when the halved sum `_signedArea` is
not 0, `cx` and `cy` are divided by `_signedArea * 6` (the division of C++, which cuts off
toward zero); `QPoint(cx, cy)` then narrows the two `qint64` values to `int`. -/
def Shape.centroid (s : Shape) : QPoint :=
  let m := metricsLoop (0, 0, 0) s.points
  let half := Int.tdiv m.1 2
  if half ≠ 0 then
    ⟨wrap32 (Int.tdiv m.2.1 (wrap64 (half * 6))), wrap32 (Int.tdiv m.2.2 (wrap64 (half * 6)))⟩
  else ⟨wrap32 m.2.1, wrap32 m.2.2⟩

/-- The shoelace sum in the wording of the specification, as an exact integer and without the
loop of `updateMetrics()`: the sum over every position `i` of the vertex sequence of
`x_i * y_(i+1) - x_(i+1) * y_i`, the position after the last one being the first. -/
def cyclicShoelace (pts : List QPoint) : Int :=
  ((List.range pts.length).map (fun i =>
    (pts.getD i ⟨0, 0⟩).x * (pts.getD ((i + 1) % pts.length) ⟨0, 0⟩).y
      - (pts.getD ((i + 1) % pts.length) ⟨0, 0⟩).x * (pts.getD i ⟨0, 0⟩).y)).sum

/-- The signed area in the wording of the specification: the cyclic shoelace sum, reduced to 64
bits, halved and then divided by `10^5`, both cut off toward zero. -/
def Shape.cyclicSignedArea (s : Shape) : Int :=
  Int.tdiv (Int.tdiv (wrap64 (cyclicShoelace s.points)) 2) 100000

/-- The cross terms `x1 * y2 - x2 * y1` of the consecutive vertex pairs. -/
def crossTerms : List QPoint → List Int
  | p :: q :: rest => (p.x * q.y - q.x * p.y) :: crossTerms (q :: rest)
  | _ => []

/-- The triangle (1,0), (2,2), (0,2) of `TestShape::area`, in raw units, as three points. -/
def openTriangle : Shape := ⟨['t'], [⟨100000, 0⟩, ⟨200000, 200000⟩, ⟨0, 200000⟩]⟩

/-- The triangle of `TestShape::area` after `ensureClosed()`. -/
def closedTriangle : Shape := openTriangle.ensureClosed true

/-- A closed self-crossing chain whose shoelace sum cancels. -/
def bowTie : Shape := ⟨['b'], [⟨0, 0⟩, ⟨2, 2⟩, ⟨2, 0⟩, ⟨0, 2⟩, ⟨0, 0⟩]⟩

/-- The closed axis-aligned rectangle with opposite corners `(a, b)` and `(c, d)`, the corner
`(a, d)` listed second. -/
def rectangle (name : QString) (a b c d : Int) : Shape :=
  ⟨name, [⟨a, b⟩, ⟨a, d⟩, ⟨c, d⟩, ⟨c, b⟩, ⟨a, b⟩]⟩

/-- The same rectangle listed in the other orientation, the corner `(c, b)` second. -/
def rectangleRev (name : QString) (a b c d : Int) : Shape :=
  ⟨name, [⟨a, b⟩, ⟨c, b⟩, ⟨c, d⟩, ⟨a, d⟩, ⟨a, b⟩]⟩

/-- The three sums of the loop of `Shape::updateMetrics()` as mathematical integers, without
the wrap-around of `qint64`; `metricsLoop` equals it as long as nothing overflows
(`metricsLoop_exact`). -/
def metricsSums : Int × Int × Int → List QPoint → Int × Int × Int
  | acc, p :: q :: rest =>
    metricsSums
      (acc.1 + (p.x * q.y - q.x * p.y), acc.2.1 + (p.x + q.x) * (p.x * q.y - q.x * p.y),
        acc.2.2 + (p.y + q.y) * (p.x * q.y - q.x * p.y))
      (q :: rest)
  | acc, _ => acc

/-! ## Transformations (shape.cpp, QTransform of Qt) -/

/-- An affine `QTransform`, idealised: the six entries are exact rational numbers, so the
rounding of `double` arithmetic is not part of the embedding. A point `(x, y)` is mapped to
`(m11 * x + m21 * y + dx, m12 * x + m22 * y + dy)`. The projective entries stay `0, 0, 1` for
the transformations built by `Shape`. -/
structure QTransform where
  m11 : ℚ
  m12 : ℚ
  m21 : ℚ
  m22 : ℚ
  dx : ℚ
  dy : ℚ
deriving DecidableEq

/-- `QTransform()`: the identity. -/
def QTransform.identity : QTransform := ⟨1, 0, 0, 1, 0, 0⟩

/-- `QTransform::fromTranslate(dx, dy)`. -/
def QTransform.fromTranslate (dx dy : ℚ) : QTransform := ⟨1, 0, 0, 1, dx, dy⟩

/-- `QTransform::operator*`: `a * b` maps a point by `a` and then by `b`. -/
def QTransform.mul (a b : QTransform) : QTransform :=
  ⟨a.m11 * b.m11 + a.m12 * b.m21, a.m11 * b.m12 + a.m12 * b.m22,
    a.m21 * b.m11 + a.m22 * b.m21, a.m21 * b.m12 + a.m22 * b.m22,
    a.dx * b.m11 + a.dy * b.m21 + b.dx, a.dx * b.m12 + a.dy * b.m22 + b.dy⟩

/-- `QTransform::translate(dx, dy)`: the translation is carried out before the
transformation. -/
def QTransform.translate (t : QTransform) (dx dy : ℚ) : QTransform :=
  QTransform.mul (QTransform.fromTranslate dx dy) t

/-- `QTransform::determinant()` of an affine transformation. -/
def QTransform.determinant (t : QTransform) : ℚ := t.m11 * t.m22 - t.m12 * t.m21

/-- `QTransform::inverted()`: the inverse, and the identity for a transformation that is not
invertible (Qt tests the determinant against 0 up to `1e-12`; the embedding tests it
exactly). -/
def QTransform.inverted (t : QTransform) : QTransform :=
  if t.determinant = 0 then QTransform.identity
  else
    ⟨t.m22 / t.determinant, -t.m12 / t.determinant, -t.m21 / t.determinant,
      t.m11 / t.determinant, (t.m21 * t.dy - t.m22 * t.dx) / t.determinant,
      (t.m12 * t.dx - t.m11 * t.dy) / t.determinant⟩

/-- The conversion `int(d)` of a `double`: the fractional part is discarded. For a value whose
integer part is not an `int` C++ leaves the conversion undefined; the embedding takes what the
conversion instruction of x86-64 (`cvttsd2si`) gives, `-2^31`. The theorems on transformations
are stated for values that are converted within the range of `int`. -/
def toInt32 (d : ℚ) : Int :=
  if -2147483649 < d ∧ d < 2147483648 then (if 0 ≤ d then ⌊d⌋ else ⌈d⌉) else -2147483648

/-- `qRound(double d)` of Qt 5:
`d >= 0.0 ? int(d + 0.5) : int(d - double(int(d-1)) + 0.5) + int(d-1)`. Where the conversions
stay in the range of `int`, for `-2^31 < d < 2^31 - 1/2`, it is the nearest integer, a half
rounded up. -/
def qRound (d : ℚ) : Int :=
  if 0 ≤ d then toInt32 (d + 1 / 2)
  else wrap32 (toInt32 (d - (toInt32 (d - 1) : ℚ) + 1 / 2) + toInt32 (d - 1))

/-- The `int` values `v` for which `qRound(double(v))` and `qRound(double(-v))` convert within
the range of `int`: all but `-2^31`. -/
def symInt32 (v : Int) : Bool := decide (-2147483647 ≤ v) && decide (v ≤ 2147483647)

/-- One point of `QTransform::map(const QPolygon &)`. For a transformation whose type is at
most `TxTranslate` (the linear part is the identity) Qt returns
`a.translated(qRound(_dx), qRound(_dy))`: the rounded offset is added to the `int` coordinates.
Otherwise the image `(m11 * x + m21 * y + dx, m12 * x + m22 * y + dy)` is rounded by `qRound`
to the `int` coordinates of a `QPoint`. -/
def QTransform.mapPoint (t : QTransform) (p : QPoint) : QPoint :=
  if t.m11 = 1 ∧ t.m12 = 0 ∧ t.m21 = 0 ∧ t.m22 = 1 then
    ⟨wrap32 (p.x + qRound t.dx), wrap32 (p.y + qRound t.dy)⟩
  else
    ⟨qRound (t.m11 * p.x + t.m21 * p.y + t.dx), qRound (t.m12 * p.x + t.m22 * p.y + t.dy)⟩

/-- A `Shape` object together with its member `_transform`, the product of the transformations
applied so far. -/
structure ShapeT where
  shape : Shape
  transform : QTransform

/-- A shape that has not been transformed: `_transform` is the identity. -/
def ShapeT.fresh (s : Shape) : ShapeT := ⟨s, QTransform.identity⟩

/-- `Shape::transform(QTransform)`: the points are mapped and `_transform *= transform`. -/
def ShapeT.transformBy (s : ShapeT) (t : QTransform) : ShapeT :=
  ⟨⟨s.shape.name, s.shape.points.map t.mapPoint⟩, s.transform.mul t⟩

/-- `Shape::translate(const QPoint &)`. -/
def ShapeT.translate (s : ShapeT) (p : QPoint) : ShapeT :=
  s.transformBy (QTransform.fromTranslate p.x p.y)

/-- `Shape::invert()`: `transform(_transform.inverted())`. -/
def ShapeT.invert (s : ShapeT) : ShapeT := s.transformBy s.transform.inverted

/-- `Shape::inverted()`: a copy on which `invert()` was called. -/
def ShapeT.inverted (s : ShapeT) : ShapeT := s.invert

/-- `Shape::isCongruent(Shape &other)`: `inverted() == other.inverted()`, where `operator==`
compares the names and the points. -/
def ShapeT.isCongruent (s other : ShapeT) : Bool :=
  decide (s.inverted.shape = other.inverted.shape)

/-- `BakeryHelpers::vectorOrientation(p, q, r)`: 0 for collinear, 1 for clockwise, 2 for
counter-clockwise. The coordinate differences are taken in `int`, the products and their
difference in `qint64`. -/
def vectorOrientation (p q r : QPoint) : Int :=
  let v := wrap64
    (wrap32 (q.y - p.y) * wrap32 (r.x - q.x) - wrap32 (q.x - p.x) * wrap32 (r.y - q.y))
  if v = 0 then 0 else if v > 0 then 1 else 2

/-- The first loop of `Shape::convexHull()`: the points without repetitions, each at the
place of its first occurrence. -/
def uniquePoints (pts : List QPoint) : List QPoint :=
  pts.foldl (fun ps p => if ps.contains p then ps else ps ++ [p]) []

/-- The point `ps[i]`. -/
def pointAt (ps : List QPoint) (i : Nat) : QPoint := ps.getD i ⟨0, 0⟩

/-- The second loop of `Shape::convexHull()`: the index `l` of the point with the smallest
`x` and, among those, the smallest `y`. -/
def topLeftMost (ps : List QPoint) : Nat :=
  (List.range' 1 (ps.length - 1)).foldl
    (fun l i =>
      if (pointAt ps i).x < (pointAt ps l).x ∨
          ((pointAt ps i).x = (pointAt ps l).x ∧ (pointAt ps i).y < (pointAt ps l).y) then i
      else l) 0

/-- The inner `for` loop of the gift wrapping: starting from `q = (p + 1) % n`, every `i` with
`vectorOrientation(ps[p], ps[i], ps[q]) == 2` replaces `q`. -/
def hullNext (ps : List QPoint) (p : Nat) : Nat :=
  (List.range ps.length).foldl
    (fun q i =>
      if vectorOrientation (pointAt ps p) (pointAt ps i) (pointAt ps q) = 2 then i else q)
    ((p + 1) % ps.length)

/-- The `do ... while (p != l)` loop of `Shape::convexHull()`. The result is the shape
returned: `Shape()` when the hull has grown beyond `n` points, the closed hull when the walk
is back at `l`. Every pass adds a point to the hull, so a `fuel` of `n + 1` passes is never
used up (`hullLoop_isSome`); `none` stands for used up fuel. -/
def hullLoop (ps : List QPoint) (l : Nat) : Nat → Nat → List QPoint → Option Shape
  | 0, _, _ => none
  | fuel + 1, p, hull =>
    if (hull ++ [pointAt ps p]).length > ps.length then some Shape.default
    else if hullNext ps p ≠ l then hullLoop ps l fuel (hullNext ps p) (hull ++ [pointAt ps p])
    else some ((Shape.mk Shape.default.name (hull ++ [pointAt ps p])).ensureClosed true)

/-- `Shape::convexHull()`. -/
def Shape.convexHull (s : Shape) : Shape :=
  let ps := uniquePoints s.points
  if ps.length < 3 then Shape.default
  else (hullLoop ps (topLeftMost ps) (ps.length + 1) (topLeftMost ps) []).getD Shape.default

/-! ## Auxiliary notions for the area of a moved shape -/

/-- The last point of the chain `p :: rest`. -/
def lastFrom (p : QPoint) : List QPoint → QPoint
  | [] => p
  | q :: rest => lastFrom q rest

/-- A point moved by the offset `d`, in exact integer arithmetic. -/
def QPoint.shifted (d p : QPoint) : QPoint := ⟨p.x + d.x, p.y + d.y⟩

/-- The sheet `S(10, 10)` of `TestSheet::utilitization`, row "Empty", in raw units. -/
def emptyTenByTen : Sheet := ⟨1000000, 1000000, []⟩

/-- A closed triangle with a vertex at the largest `int` abscissa. -/
def edgeTriangle : Shape :=
  ⟨['e'], [⟨0, 0⟩, ⟨2147483647, 0⟩, ⟨0, 100000⟩, ⟨0, 0⟩]⟩

/-- A closed triangle whose halved shoelace sum, 9199998004599999, is above `2^53`. -/
def wideTriangle : Shape :=
  ⟨['w'], [⟨0, 0⟩, ⟨2000000001, 0⟩, ⟨0, 9199998⟩, ⟨0, 0⟩]⟩

/-- A job of one unit square named `x` on a sheet of raw size 200000 x 200000. -/
def squareJob : PluginInput := ⟨200000, 200000, [⟨['x'], unitSquare.points⟩]⟩

/-- A result for `squareJob` that places the job shape unchanged. -/
def squareResult : PluginOutput := ⟨[⟨200000, 200000, [⟨['x'], unitSquare.points⟩]⟩]⟩

/-- A result for `squareJob` that places, under the name `x`, a triangle that has nothing in
common with the job shape. -/
def forgedResult : PluginOutput :=
  ⟨[⟨200000, 200000, [⟨['x'], [⟨7, 3⟩, ⟨150000, 9⟩, ⟨20, 180000⟩, ⟨7, 3⟩]⟩]⟩]⟩

/-! ## PluginRunner -/

/-- The arguments of the signal `PluginRunner::finished(int, QString, PluginInput,
PluginOutput)`, which is connected to the slot `Bakery::_pluginFinished`. -/
structure Finished where
  exitCode : Int
  pluginName : QString
  pluginInput : PluginInput
  pluginOutput : PluginOutput
deriving DecidableEq, Repr

/-- A `PluginRunner` object. Of the member `_process` the embedding keeps the complete lines
waiting in its read buffer (`lines`, what `canReadLine()` and `readLine()` deliver) and whether
`_process.kill()` has been called (`killed`). -/
structure PluginRunner where
  pluginName : QString
  pluginPath : QString
  pluginInput : PluginInput
  pluginOutput : PluginOutput
  lines : List QString
  killed : Bool
deriving DecidableEq, Repr

/-- The constructor `PluginRunner(pluginName, pluginPath, pluginInput)`: `_pluginOutput` is a
default-constructed `PluginOutput`, without sheets. -/
def PluginRunner.create (pluginName pluginPath : QString) (pluginInput : PluginInput) :
    PluginRunner :=
  ⟨pluginName, pluginPath, pluginInput, ⟨[]⟩, [], false⟩

/-- `PluginRunner::kill()`. -/
def PluginRunner.kill (r : PluginRunner) : PluginRunner := { r with killed := true }

/-- The statements `QTextStream stream(buffer); PluginOutput output; stream >> output;` of
`processReadyRead` for one line. -/
def decodeLine (toDouble : QString → Option Int) (line : QString) : QTextStream × PluginOutput :=
  decodePluginOutput toDouble ⟨line, Status.Ok⟩ ⟨[]⟩

/-- The loop `while (_process.canReadLine())` of `PluginRunner::processReadyRead()` over the
buffered lines, starting with the stored result `out`: the lines left in the buffer, the stored
result, whether `kill()` was called, and the arguments of the `outputUpdated` signals emitted,
oldest first. -/
def readLoop (toDouble : QString → Option Int) (pluginName : QString) :
    List QString → PluginOutput → List QString × PluginOutput × Bool × List (QString × PluginOutput)
  | [], out => ([], out, false, [])
  | line :: rest, out =>
    let d := decodeLine toDouble line
    if d.1.status ≠ Status.Ok then (rest, out, true, [])
    else
      let n := readLoop toDouble pluginName rest d.2
      (n.1, n.2.1, n.2.2.1, (pluginName, d.2) :: n.2.2.2)

/-- `PluginRunner::processReadyRead()`: the runner afterwards and the `outputUpdated` signals
emitted. -/
def PluginRunner.processReadyRead (toDouble : QString → Option Int) (r : PluginRunner) :
    PluginRunner × List (QString × PluginOutput) :=
  let n := readLoop toDouble r.pluginName r.lines r.pluginOutput
  ({ r with lines := n.1, pluginOutput := n.2.1, killed := r.killed || n.2.2.1 }, n.2.2.2)

/-- Complete lines arrive on the standard output of the process: they enter the read buffer
and the signal `readyReadStandardOutput` runs `processReadyRead()`. -/
def PluginRunner.receive (toDouble : QString → Option Int) (r : PluginRunner)
    (chunk : List QString) : PluginRunner × List (QString × PluginOutput) :=
  PluginRunner.processReadyRead toDouble { r with lines := r.lines ++ chunk }

/-- A sequence of arrivals, each followed by `processReadyRead()`: the runner afterwards and all
`outputUpdated` signals emitted, oldest first. -/
def PluginRunner.receiveAll (toDouble : QString → Option Int) (r : PluginRunner) :
    List (List QString) → PluginRunner × List (QString × PluginOutput)
  | [] => (r, [])
  | chunk :: rest =>
    let n := r.receive toDouble chunk
    let m := PluginRunner.receiveAll toDouble n.1 rest
    (m.1, n.2 ++ m.2)

/-- `PluginRunner::processFinished(int exitCode)`: the signal `finished` emitted. -/
def PluginRunner.processFinished (r : PluginRunner) (exitCode : Int) : Finished :=
  ⟨exitCode, r.pluginName, r.pluginInput, r.pluginOutput⟩

/-- The result stored after the lines `lines` have all been decoded, starting from `out`: the
decoding of the last line, `out` when there is none. -/
def lastDecoded (toDouble : QString → Option Int) (lines : List QString) (out : PluginOutput) :
    PluginOutput :=
  ((lines.map (fun l => (decodeLine toDouble l).2)).getLast?).getD out

/-! ## The orchestrator -/

/-- `QHash::operator[]` followed by an assignment, or `QHash::insert`: the entry of the key is
replaced. The order of the entries of a `QHash` is not specified; the list is one order. -/
def hashInsert {α : Type} (k : QString) (v : α) (h : List (QString × α)) : List (QString × α) :=
  (k, v) :: h.filter (fun e => decide (e.1 ≠ k))

/-- `QHash::remove`. -/
def hashRemove {α : Type} (k : QString) (h : List (QString × α)) : List (QString × α) :=
  h.filter (fun e => decide (e.1 ≠ k))

/-- An object of the class `Bakery`: the members that `computeAllOutputs` and
`_pluginFinished` use. Of `_settings` the entries `pluginsEnabled/<name>` are kept; a missing
entry reads as `false`. -/
structure BakeryObj where
  pluginsMetadata : List (QString × PluginMetadata)
  pluginsPaths : List (QString × QString)
  pluginsEnabled : List (QString × Bool)
  pluginsRunners : List (QString × PluginRunner)
  validOutputs : List (QString × PluginOutput)
deriving DecidableEq, Repr

/-- The signals emitted by `computeAllOutputs` and `_pluginFinished`. -/
inductive BakerySignal
  | pluginStarting (pluginName : QString)
  | pluginFinished (exitCode : Int) (pluginName : QString) (pluginOutput : PluginOutput)
      (valid : Bool)
  | allPluginsFinished (outputs : List (QString × PluginOutput))
deriving DecidableEq, Repr

/-- `Bakery::getEnabledPlugins()`. -/
def BakeryObj.getEnabledPlugins (b : BakeryObj) : List QString :=
  (b.pluginsMetadata.map Prod.fst).filter (fun key => (b.pluginsEnabled.lookup key).getD false)

/-- `Bakery::_pluginFinished(exitCode, pluginName, pluginInput, pluginOutput)`, with
`QPolygon::intersected` as the parameter `polyIntersected`: the object afterwards and the
signals emitted. -/
def BakeryObj.pluginFinished (polyIntersected : List QPoint → List QPoint → List QPoint)
    (b : BakeryObj) (ev : Finished) : BakeryObj × List BakerySignal :=
  let valid := isOutputValidForInput polyIntersected ev.pluginInput ev.pluginOutput
  let outputs := if valid then hashInsert ev.pluginName ev.pluginOutput b.validOutputs
    else b.validOutputs
  let runners := hashRemove ev.pluginName b.pluginsRunners
  ({ b with validOutputs := outputs, pluginsRunners := runners },
    BakerySignal.pluginFinished ev.exitCode ev.pluginName ev.pluginOutput valid ::
      (if runners.isEmpty then [BakerySignal.allPluginsFinished outputs] else []))

/-- The slot `_pluginFinished` run for a sequence of `finished` signals. -/
def BakeryObj.pluginsFinished (polyIntersected : List QPoint → List QPoint → List QPoint)
    (b : BakeryObj) (events : List Finished) : BakeryObj :=
  events.foldl (fun s ev => (s.pluginFinished polyIntersected ev).1) b

/-- The loop `foreach (QString pluginName, getEnabledPlugins())` of `computeAllOutputs`: a
runner is created for each name, entered in `_pluginsRunners` and started. Returns the object
afterwards and the names of the workers started, in order. -/
def BakeryObj.startPlugins (input : PluginInput) : List QString → BakeryObj → BakeryObj × List QString
  | [], b => (b, [])
  | pluginName :: rest, b =>
    let runner := PluginRunner.create pluginName ((b.pluginsPaths.lookup pluginName).getD [])
      input
    let n := BakeryObj.startPlugins input rest
      { b with pluginsRunners := hashInsert pluginName runner b.pluginsRunners }
    (n.1, pluginName :: n.2)

/-- The loop `while (!_pluginsRunners.isEmpty()) { processEvents(); msleep(100); }` of
`computeAllOutputs`. Each call of `processEvents()` delivers one batch of `finished` signals
to `_pluginFinished`; `none` when the batches are used up while a runner is still entered, in
which case the loop does not end. -/
def BakeryObj.waitLoop (polyIntersected : List QPoint → List QPoint → List QPoint) :
    List (List Finished) → BakeryObj → Option BakeryObj
  | [], b => if b.pluginsRunners.isEmpty then some b else none
  | batch :: rest, b =>
    if b.pluginsRunners.isEmpty then some b
    else BakeryObj.waitLoop polyIntersected rest (b.pluginsFinished polyIntersected batch)

/-- What a call of `computeAllOutputs` leaves behind: the object, the hash returned, the value
written through the pointer `ok` (`none` when nothing is written) and the names of the workers
started. -/
structure ComputeResult where
  state : BakeryObj
  outputs : List (QString × PluginOutput)
  ok : Option Bool
  started : List QString
deriving DecidableEq, Repr

/-- The first part of `computeAllOutputs`, up to the end of the `foreach` loop:
`_validOutputs.clear()`, then, unless no plugin is loaded, the runners are started. -/
def BakeryObj.startRun (b : BakeryObj) (input : PluginInput) : BakeryObj × List QString :=
  let b1 := { b with validOutputs := [] }
  if b1.pluginsMetadata.length = 0 then (b1, [])
  else BakeryObj.startPlugins input b1.getEnabledPlugins b1

/-- `Bakery::computeAllOutputs(input, synchronous, ok)`; `batches` are the `finished` signals
delivered by the calls of `processEvents()` in synchronous mode. -/
def BakeryObj.computeAllOutputs (polyIntersected : List QPoint → List QPoint → List QPoint)
    (b : BakeryObj) (input : PluginInput) (synchronous : Bool) (batches : List (List Finished)) :
    Option ComputeResult :=
  let b1 := { b with validOutputs := [] }
  if b1.pluginsMetadata.length = 0 then
    some ⟨b1, b1.validOutputs, if synchronous then some false else none, []⟩
  else
    let s := BakeryObj.startPlugins input b1.getEnabledPlugins b1
    if synchronous then
      match BakeryObj.waitLoop polyIntersected batches s.1 with
      | none => none
      | some b2 => some ⟨b2, b2.validOutputs, some true, s.2⟩
    else some ⟨s.1, s.1.validOutputs, none, s.2⟩

/-- An orchestrator with one plugin loaded, which is disabled, and no runner entered. -/
def oneDisabled : BakeryObj :=
  ⟨[(['p'], ⟨['p'], ['t'], ['a'], ['l']⟩)], [(['p'], ['x'])], [(['p'], false)], [], []⟩

/-- An orchestrator without any plugin loaded. -/
def noPlugins : BakeryObj := ⟨[], [], [], [], []⟩

/-! ## Edges, inner distances and the simplicity test of `Shape::updateMetrics()` -/

/-- A `QPointF`: a point with `double` coordinates. -/
structure QPointF where
  xp : Dbl
  yp : Dbl

/-- A `QLineF`: the segment from `pt1` to `pt2`. -/
structure QLineF where
  pt1 : QPointF
  pt2 : QPointF

/-- A `QLine`: the segment between two points with `int` coordinates. -/
structure QLine where
  pt1 : QPoint
  pt2 : QPoint
deriving DecidableEq, Repr

/-- `QLineF::IntersectType`. -/
inductive IntersectType
  | NoIntersection
  | BoundedIntersection
  | UnboundedIntersection
deriving DecidableEq, Repr

/-- `BakeryHelpers::qrealRounded`: `(qreal)i / BAKERY_PRECISION`. -/
def qrealRounded (i : Int) : Dbl := Dbl.div (Dbl.ofInt i) (Dbl.ofInt 100000)

/-- `BakeryHelpers::qPointRounded`. -/
def qPointRounded (p : QPoint) : QPointF := ⟨qrealRounded p.x, qrealRounded p.y⟩

/-- `qFuzzyIsNull(double d)` of Qt 5: `qAbs(d) <= 0.000000000001`. -/
def qFuzzyIsNull (d : Dbl) : Bool := Dbl.le (Dbl.abs d) (Dbl.round 1 1000000000000 0)

/-- `operator==(const QPointF &p1, const QPointF &p2)` of the Qt 5 releases of the years of the
code: `qFuzzyIsNull(p1.xp - p2.xp) && qFuzzyIsNull(p1.yp - p2.yp)`. Later releases compare two
coordinates that are both different from zero with `qFuzzyCompare` and keep `qFuzzyIsNull` of
the difference when one of them is zero. -/
def QPointF.operatorEq (p1 p2 : QPointF) : Bool :=
  qFuzzyIsNull (Dbl.sub p1.xp p2.xp) && qFuzzyIsNull (Dbl.sub p1.yp p2.yp)

/-- `QLineF::intersect(const QLineF &l, QPointF *intersectionPoint)` of Qt 5, called with a
default-constructed point: the type of the intersection and the point afterwards. With
`a = pt2 - pt1`, `b = l.pt1 - l.pt2`, `c = pt1 - l.pt1` the lines do not intersect when
`denominator = a.y() * b.x() - a.x() * b.y()` is zero; otherwise, with
`reciprocal = 1 / denominator` and `na = (b.y() * c.x() - b.x() * c.y()) * reciprocal`, the
point is `pt1 + a * na`, and the intersection is bounded when both `na` and
`nb = (a.x() * c.y() - a.y() * c.x()) * reciprocal` lie in `[0, 1]`. Every operation is the
`double` operation. The other disjunct of the first test, `!qt_is_finite(denominator)`, is
never true for the edges of a shape, whose coordinates are below 21475 in absolute value. -/
def QLineF.intersect (e l : QLineF) : IntersectType × QPointF :=
  let ax := Dbl.sub e.pt2.xp e.pt1.xp
  let ay := Dbl.sub e.pt2.yp e.pt1.yp
  let bx := Dbl.sub l.pt1.xp l.pt2.xp
  let by_ := Dbl.sub l.pt1.yp l.pt2.yp
  let cx := Dbl.sub e.pt1.xp l.pt1.xp
  let cy := Dbl.sub e.pt1.yp l.pt1.yp
  let denominator := Dbl.sub (Dbl.mul ay bx) (Dbl.mul ax by_)
  if denominator.isZero then (IntersectType.NoIntersection, ⟨Dbl.ofInt 0, Dbl.ofInt 0⟩)
  else
    let reciprocal := Dbl.div (Dbl.ofInt 1) denominator
    let na := Dbl.mul (Dbl.sub (Dbl.mul by_ cx) (Dbl.mul bx cy)) reciprocal
    let p : QPointF := ⟨Dbl.add e.pt1.xp (Dbl.mul ax na), Dbl.add e.pt1.yp (Dbl.mul ay na)⟩
    if Dbl.lt na (Dbl.ofInt 0) || Dbl.lt (Dbl.ofInt 1) na then
      (IntersectType.UnboundedIntersection, p)
    else
      let nb := Dbl.mul (Dbl.sub (Dbl.mul ax cy) (Dbl.mul ay cx)) reciprocal
      if Dbl.lt nb (Dbl.ofInt 0) || Dbl.lt (Dbl.ofInt 1) nb then
        (IntersectType.UnboundedIntersection, p)
      else (IntersectType.BoundedIntersection, p)

/-- The pairs of consecutive points, as visited by the first loop of `updateMetrics()`. -/
def edgePairs : List QPoint → List (QPoint × QPoint)
  | p :: q :: rest => (p, q) :: edgePairs (q :: rest)
  | _ => []

/-- The member `_edges` after `updateMetrics()`. -/
def Shape.edges (s : Shape) : List QLine := (edgePairs s.points).map (fun e => ⟨e.1, e.2⟩)

/-- The local list `edgesF` of `updateMetrics()`: the consecutive segments and, for a chain of
more than one point that is not closed, the segment from the last point to the first. -/
def Shape.edgesF (s : Shape) : List QLineF :=
  (edgePairs s.points).map (fun e => ⟨qPointRounded e.1, qPointRounded e.2⟩) ++
    (if !s.isClosed && decide (s.points.length > 1) then
      match s.points.getLast?, s.points.head? with
      | some l, some f => [⟨qPointRounded l, qPointRounded f⟩]
      | _, _ => []
    else [])

/-- `QSet::operator<<`: the value is entered unless it is there already. -/
def setInsert (v : Int) (set : List Int) : List Int := if v ∈ set then set else set ++ [v]

/-- The member `_innerDistances` after `updateMetrics()`: for each pair of consecutive points
the absolute differences of the abscissas and of the ordinates, computed in `qint32`, that are
greater than zero. -/
def innerDistancesLoop : List Int → List QPoint → List Int
  | set, p :: q :: rest =>
    let innerX := wrap32 |wrap32 (q.x - p.x)|
    let set1 := if innerX > 0 then setInsert innerX set else set
    let innerY := wrap32 |wrap32 (q.y - p.y)|
    let set2 := if innerY > 0 then setInsert innerY set1 else set1
    innerDistancesLoop set2 (q :: rest)
  | set, _ => set

/-- The body of the inner loop of the simplicity test for the pair `(*i_edgeF, *i_edgeFInner)`:
`false` when `_simple` is set to `false`. -/
def edgePairSimple (e inner : QLineF) : Bool :=
  let r := e.intersect inner
  if r.1 ≠ IntersectType.BoundedIntersection then true
  else if (r.2.operatorEq e.pt1 && r.2.operatorEq inner.pt2) ||
      (r.2.operatorEq e.pt2 && r.2.operatorEq inner.pt1) then true
  else false

/-- The two loops of the simplicity test: each edge is tested against itself and the edges
after it, while `_simple` is still true. -/
def simpleLoop : List QLineF → Bool
  | [] => true
  | e :: rest => (e :: rest).all (edgePairSimple e) && simpleLoop rest

/-- `Shape::isSimple()`, for a shape whose metrics are up to date. -/
def Shape.isSimple (s : Shape) : Bool := simpleLoop s.edgesF

/-- The closed chain (0,0), (2,0), (1,0), (0,0) in units: it runs along the abscissa and back. -/
def flatChain : Shape := ⟨['f'], [⟨0, 0⟩, ⟨200000, 0⟩, ⟨100000, 0⟩, ⟨0, 0⟩]⟩

/-- The closed chain (-1,-1), (0,0), (1,-1), (1,1), (0,0), (-1,1), (-1,-1) in units: two
triangles that touch at the point (0,0), which the chain visits twice. -/
def touchingTriangles : Shape :=
  ⟨['w'], [⟨-100000, -100000⟩, ⟨0, 0⟩, ⟨100000, -100000⟩, ⟨100000, 100000⟩, ⟨0, 0⟩,
    ⟨-100000, 100000⟩, ⟨-100000, -100000⟩]⟩

/-- The triangle of `TestShape::isSimple`. -/
def testTriangle : Shape := ⟨['t'], [⟨0, 0⟩, ⟨100000, 0⟩, ⟨100000, 100000⟩, ⟨0, 0⟩]⟩

/-- The closed quadrilateral (0,0), (2,2), (2,0), (0,2) in units, whose first and third edge
cross at (1,1). -/
def crossedQuadrilateral : Shape :=
  ⟨['b'], [⟨0, 0⟩, ⟨200000, 200000⟩, ⟨200000, 0⟩, ⟨0, 200000⟩, ⟨0, 0⟩]⟩

/-- The closed triangle (0,0), (2147483647,0), (0,2147483647) in raw units: a right triangle
with legs of the largest `int` length along the axes. -/
def largeTriangle : Shape :=
  ⟨['l'], [⟨0, 0⟩, ⟨2147483647, 0⟩, ⟨0, 2147483647⟩, ⟨0, 0⟩]⟩

/-! ## A Shape object with its cached metrics -/

/-- A `Shape` object: the points of the `QPolygon` base, the name, and the members that
`updateMetrics()` writes, with the flag `_updateMetrics`. -/
structure CachedShape where
  name : QString
  points : List QPoint
  _simple : Bool
  _edges : List QLine
  _signedArea : Int
  _centroid : QPoint
  _innerDistances : List Int
  _updateMetrics : Bool
deriving DecidableEq, Repr

/-- The shape of the points and the name of the object, whose metrics are functions of the
points. -/
def CachedShape.shape (o : CachedShape) : Shape := ⟨o.name, o.points⟩

/-- `Shape::updateMetrics()`: nothing happens when `_updateMetrics` is false; otherwise the
edges, the signed area, the centroid, the inner distances and the simplicity are computed from
the points. -/
def CachedShape.updateMetrics (o : CachedShape) : CachedShape :=
  if !o._updateMetrics then o
  else
    { o with
      _simple := o.shape.isSimple
      _edges := o.shape.edges
      _signedArea := o.shape.signedArea
      _centroid := o.shape.centroid
      _innerDistances := innerDistancesLoop [] o.points }

/-- The constructor `Shape(QString name)`: `_name(name), _simple(true), _updateMetrics(true)`
and an empty body. There are no points, `updateMetrics()` is not called, and the member
`_signedArea`, a `qint64` without an initialiser, holds an indeterminate value, which is an
argument here. -/
def CachedShape.named (name : QString) (indeterminate : Int) : CachedShape :=
  ⟨name, [], true, [], indeterminate, ⟨0, 0⟩, [], true⟩

/-- The constructor `Shape(const QPolygon &polygon)`. -/
def CachedShape.ofPolygon (polygon : List QPoint) : CachedShape :=
  CachedShape.updateMetrics ⟨Shape.default.name, polygon, true, [], 0, ⟨0, 0⟩, [], true⟩

/-- `Shape::append(const QPoint &p)`: `QPolygon::append(p); updateMetrics();`. -/
def CachedShape.append (o : CachedShape) (p : QPoint) : CachedShape :=
  CachedShape.updateMetrics { o with points := o.points ++ [p] }

/-- `Shape::replace(qint32 index, const QPoint &p)`: `QPolygon::replace(index, p);
updateMetrics();`, for an index in range. -/
def CachedShape.replace (o : CachedShape) (index : Nat) (p : QPoint) : CachedShape :=
  CachedShape.updateMetrics { o with points := o.points.set index p }

/-- `Shape::transform(QTransform transform)` on the object with its cached members: the
points are mapped and `updateMetrics()` is called. The member `_transform` is left to
`ShapeT`. -/
def CachedShape.transform (o : CachedShape) (t : QTransform) : CachedShape :=
  CachedShape.updateMetrics { o with points := o.points.map t.mapPoint }

/-- `Shape::translate(const QPoint &p)` on the object with its cached members. -/
def CachedShape.translate (o : CachedShape) (p : QPoint) : CachedShape :=
  o.transform (QTransform.fromTranslate p.x p.y)

/-- `Shape::setUpdateMetrics(bool updateMetrics_)`. -/
def CachedShape.setUpdateMetrics (o : CachedShape) (updateMetrics_ : Bool) : CachedShape :=
  let o1 := { o with _updateMetrics := updateMetrics_ }
  if o1._updateMetrics then o1.updateMetrics else o1

/-- `QVector<QPoint>::removeLast()`, which `Shape` inherits from `QPolygon` and does not
redefine: only the points change. -/
def CachedShape.removeLast (o : CachedShape) : CachedShape :=
  { o with points := o.points.dropLast }

/-- `QVector<QPoint>::insert(int i, const QPoint &p)`, inherited and not redefined. -/
def CachedShape.insert (o : CachedShape) (i : Nat) (p : QPoint) : CachedShape :=
  { o with points := o.points.take i ++ p :: o.points.drop i }

/-- `QVector<QPoint>::remove(int i)`, inherited and not redefined. -/
def CachedShape.remove (o : CachedShape) (i : Nat) : CachedShape :=
  { o with points := o.points.eraseIdx i }

/-- `Shape::edges()`. -/
def CachedShape.edges (o : CachedShape) : List QLine := o._edges

/-- `Shape::signedArea()`. -/
def CachedShape.signedArea (o : CachedShape) : Int := o._signedArea

/-- `Shape::area()`: `qAbs(_signedArea)`. -/
def CachedShape.area (o : CachedShape) : Int := |o._signedArea|

/-- `Shape::centroid()`. -/
def CachedShape.centroid (o : CachedShape) : QPoint := o._centroid

/-- `Shape::isSimple()`. -/
def CachedShape.isSimple (o : CachedShape) : Bool := o._simple

/-- `Shape::innerDistances()`. -/
def CachedShape.innerDistances (o : CachedShape) : List Int := o._innerDistances

/-- The cached metrics are the values computed from the current points. -/
def CachedShape.UpToDate (o : CachedShape) : Prop :=
  o.edges = o.shape.edges ∧ o.signedArea = o.shape.signedArea ∧ o.area = o.shape.area ∧
    o.centroid = o.shape.centroid ∧ o.isSimple = o.shape.isSimple ∧
    o.innerDistances = innerDistancesLoop [] o.points

/-! # Theorems -/

/-! ## `double` arithmetic -/

theorem roundLoop_final (N D : Nat) (e : Int) (hD : 0 < D) (h1 : 2 ^ 52 * D ≤ N)
    (h2 : N < 2 ^ 53 * D) (q : Nat × Int)
    (hq : q = if D < 2 * (N % D) ∨ (2 * (N % D) = D ∧ N / D % 2 = 1) then (N / D + 1, e)
      else (N / D, e)) :
    2 ^ 52 ≤ q.1 ∧ q.1 ≤ 2 ^ 53 ∧
    |(q.1 : ℚ) * (2 : ℚ) ^ q.2 - (N : ℚ) / D * (2 : ℚ) ^ e| ≤ (2 : ℚ) ^ q.2 / 2 ∧
    (D ∣ N → (q.1 : ℚ) * (2 : ℚ) ^ q.2 = (N : ℚ) / D * (2 : ℚ) ^ e) := by
  have hdm := Nat.div_add_mod N D
  have hmod := Nat.mod_lt N hD
  have hlo : 2 ^ 52 ≤ N / D := by
    rw [Nat.le_div_iff_mul_le hD]
    exact h1
  have hhi : N / D < 2 ^ 53 := by
    rw [Nat.div_lt_iff_lt_mul hD]
    exact h2
  have hDq : (0 : ℚ) < D := by exact_mod_cast hD
  have hpow : (0 : ℚ) < (2 : ℚ) ^ e := by positivity
  have hN : (N : ℚ) / D = (N / D : Nat) + ((N % D : Nat) : ℚ) / D := by
    field_simp
    have : ((D * (N / D) + N % D : Nat) : ℚ) = N := by rw [hdm]
    push_cast at this
    linarith
  have hr0 : (0 : ℚ) ≤ ((N % D : Nat) : ℚ) / D := by positivity
  split_ifs at hq with hup
  · subst hq
    refine ⟨by simp only; omega, by simp only; omega, ?_, ?_⟩
    · simp only
      have h2r : (D : ℚ) ≤ 2 * ((N % D : Nat) : ℚ) := by
        rcases hup with h | h
        · exact_mod_cast le_of_lt h
        · exact_mod_cast le_of_eq h.1.symm
      have hrD : ((N % D : Nat) : ℚ) / D < 1 := by
        rw [div_lt_one hDq]
        exact_mod_cast hmod
      have hhalf : (1 : ℚ) / 2 ≤ ((N % D : Nat) : ℚ) / D := by
        rw [le_div_iff₀ hDq]
        linarith
      have e1 : ((N / D + 1 : Nat) : ℚ) * (2 : ℚ) ^ e - (N : ℚ) / D * (2 : ℚ) ^ e
          = (1 - ((N % D : Nat) : ℚ) / D) * (2 : ℚ) ^ e := by
        rw [hN]
        push_cast
        ring
      rw [e1, abs_of_nonneg (by apply mul_nonneg _ hpow.le; linarith)]
      have : (1 - ((N % D : Nat) : ℚ) / D) ≤ 1 / 2 := by linarith
      calc (1 - ((N % D : Nat) : ℚ) / D) * (2 : ℚ) ^ e ≤ 1 / 2 * (2 : ℚ) ^ e :=
            mul_le_mul_of_nonneg_right this hpow.le
        _ = (2 : ℚ) ^ e / 2 := by ring
    · intro hdvd
      exfalso
      have : N % D = 0 := Nat.mod_eq_zero_of_dvd hdvd
      rcases hup with h | h
      · omega
      · omega
  · subst hq
    refine ⟨hlo, le_of_lt hhi, ?_, ?_⟩
    · simp only
      have h2r : 2 * ((N % D : Nat) : ℚ) ≤ D := by
        have : 2 * (N % D) ≤ D := by
          by_contra hc
          exact hup (Or.inl (by omega))
        exact_mod_cast this
      have hhalf : ((N % D : Nat) : ℚ) / D ≤ 1 / 2 := by
        rw [div_le_iff₀ hDq]
        linarith
      have e1 : ((N / D : Nat) : ℚ) * (2 : ℚ) ^ e - (N : ℚ) / D * (2 : ℚ) ^ e
          = -((((N % D : Nat) : ℚ) / D) * (2 : ℚ) ^ e) := by
        rw [hN]
        ring
      rw [e1, abs_neg, abs_of_nonneg (mul_nonneg hr0 hpow.le)]
      calc ((N % D : Nat) : ℚ) / D * (2 : ℚ) ^ e ≤ 1 / 2 * (2 : ℚ) ^ e :=
            mul_le_mul_of_nonneg_right hhalf hpow.le
        _ = (2 : ℚ) ^ e / 2 := by ring
    · intro hdvd
      simp only
      have : N % D = 0 := Nat.mod_eq_zero_of_dvd hdvd
      rw [hN, this]
      simp

theorem dvd_of_representable (N D : Nat) (e : Int) (hD : 0 < D) (h1 : 2 ^ 52 * D ≤ N)
    (M : Nat) (E : Int) (hM : M < 2 ^ 53)
    (hv : (N : ℚ) / D * (2 : ℚ) ^ e = (M : ℚ) * (2 : ℚ) ^ E) : D ∣ N := by
  have hDq : (0 : ℚ) < D := by exact_mod_cast hD
  have h2 : (2 : ℚ) ≠ 0 := by norm_num
  have hq : (N : ℚ) / D = (M : ℚ) * (2 : ℚ) ^ (E - e) := by
    rw [zpow_sub₀ h2]
    have he : (2 : ℚ) ^ e ≠ 0 := zpow_ne_zero _ h2
    field_simp
    field_simp at hv
    linarith
  have hlow : (2 : ℚ) ^ 52 ≤ (N : ℚ) / D := by
    rw [le_div_iff₀ hDq]
    exact_mod_cast h1
  by_cases ht : 0 ≤ E - e
  · obtain ⟨T, hT⟩ : ∃ T : Nat, E - e = (T : Int) := ⟨(E - e).toNat, by omega⟩
    rw [hT, zpow_natCast] at hq
    have hN : (N : ℚ) = ((D * (M * 2 ^ T) : Nat) : ℚ) := by
      push_cast
      field_simp at hq
      linarith
    have hN2 : N = D * (M * 2 ^ T) := by exact_mod_cast hN
    exact ⟨M * 2 ^ T, hN2⟩
  · exfalso
    obtain ⟨J, hJ⟩ : ∃ J : Nat, E - e = -((J : Int) + 1) := ⟨(-(E - e) - 1).toNat, by omega⟩
    rw [hJ, zpow_neg, zpow_add_one₀ h2, zpow_natCast] at hq
    have hMq : (M : ℚ) < 2 ^ 53 := by exact_mod_cast hM
    have hM0 : (0 : ℚ) ≤ M := by positivity
    have hJ1 : (1 : ℚ) ≤ (2 : ℚ) ^ J := one_le_pow₀ (by norm_num)
    have hle : (M : ℚ) * ((2 : ℚ) ^ J * 2)⁻¹ ≤ (M : ℚ) / 2 := by
      rw [div_eq_mul_inv]
      apply mul_le_mul_of_nonneg_left _ hM0
      apply inv_anti₀ (by norm_num)
      linarith
    linarith

theorem roundLoop_spec (fuel : Nat) :
    ∀ (N D : Nat) (e : Int), 0 < D → 2 ^ 52 * D ≤ N * 2 ^ fuel → N < 2 ^ 53 * D * 2 ^ fuel →
      2 ^ 52 ≤ (roundLoop (fuel + 1) N D e).1 ∧ (roundLoop (fuel + 1) N D e).1 ≤ 2 ^ 53 ∧
      |((roundLoop (fuel + 1) N D e).1 : ℚ) * (2 : ℚ) ^ (roundLoop (fuel + 1) N D e).2
          - (N : ℚ) / D * (2 : ℚ) ^ e| ≤ (2 : ℚ) ^ (roundLoop (fuel + 1) N D e).2 / 2 ∧
      (∀ (M : Nat) (E : Int), M < 2 ^ 53 → (N : ℚ) / D * (2 : ℚ) ^ e = (M : ℚ) * (2 : ℚ) ^ E →
        ((roundLoop (fuel + 1) N D e).1 : ℚ) * (2 : ℚ) ^ (roundLoop (fuel + 1) N D e).2
          = (N : ℚ) / D * (2 : ℚ) ^ e) := by
  induction fuel with
  | zero =>
    intro N D e hD h1 h2
    simp only [pow_zero, Nat.mul_one] at h1 h2
    have hf := roundLoop_final N D e hD h1 h2 (roundLoop 1 N D e) (by
      simp only [roundLoop, Nat.not_lt.2 h1, if_false, Nat.not_le.2 h2])
    exact ⟨hf.1, hf.2.1, hf.2.2.1, fun M E hM hv =>
      hf.2.2.2 (dvd_of_representable N D e hD h1 M E hM hv)⟩
  | succ f ih =>
    intro N D e hD h1 h2
    by_cases ha : N < 2 ^ 52 * D
    · have hstep : roundLoop (f + 1 + 1) N D e = roundLoop (f + 1) (2 * N) D (e - 1) := by
        simp only [roundLoop, ha, if_true]
      rw [hstep]
      have hp : (2 : Nat) ^ (f + 1) = 2 * 2 ^ f := by ring
      rw [hp] at h1 h2
      have hih := ih (2 * N) D (e - 1) hD (by linarith)
        (by
          have : 1 ≤ 2 ^ f := Nat.one_le_two_pow
          calc 2 * N < 2 * (2 ^ 52 * D) := by omega
            _ = 2 ^ 53 * D * 1 := by ring
            _ ≤ 2 ^ 53 * D * 2 ^ f := Nat.mul_le_mul_left _ this)
      have hv : ((2 * N : Nat) : ℚ) / D * (2 : ℚ) ^ (e - 1) = (N : ℚ) / D * (2 : ℚ) ^ e := by
        rw [zpow_sub_one₀ (by norm_num : (2 : ℚ) ≠ 0)]
        push_cast
        ring
      rw [hv] at hih
      exact hih
    · by_cases hb : 2 ^ 53 * D ≤ N
      · have hstep : roundLoop (f + 1 + 1) N D e = roundLoop (f + 1) N (2 * D) (e + 1) := by
          simp only [roundLoop, ha, if_false, hb, if_true]
        rw [hstep]
        have hp : (2 : Nat) ^ (f + 1) = 2 * 2 ^ f := by ring
        rw [hp] at h1 h2
        have hih := ih N (2 * D) (e + 1) (by omega)
          (by
            have : 1 ≤ 2 ^ f := Nat.one_le_two_pow
            calc 2 ^ 52 * (2 * D) = 2 ^ 53 * D * 1 := by ring
              _ ≤ N * 1 := by omega
              _ ≤ N * 2 ^ f := Nat.mul_le_mul_left _ this)
          (by linarith)
        have hv : (N : ℚ) / ((2 * D : Nat) : ℚ) * (2 : ℚ) ^ (e + 1)
            = (N : ℚ) / D * (2 : ℚ) ^ e := by
          rw [zpow_add_one₀ (by norm_num : (2 : ℚ) ≠ 0)]
          have hDq : (D : ℚ) ≠ 0 := by exact_mod_cast (Nat.pos_iff_ne_zero.1 hD)
          push_cast
          field_simp
          ring
        rw [hv] at hih
        exact hih
      · have hf := roundLoop_final N D e hD (by omega) (by omega) (roundLoop (f + 1 + 1) N D e)
          (by simp only [roundLoop, ha, if_false, hb])
        exact ⟨hf.1, hf.2.1, hf.2.2.1, fun M E hM hv =>
          hf.2.2.2 (dvd_of_representable N D e hD (by omega) M E hM hv)⟩

theorem scaleUp_spec (D : Nat) (ks : List Nat) :
    ∀ (N : Nat) (e : Int), 0 < N →
      0 < (scaleUp D ks N e).1 ∧
        ((scaleUp D ks N e).1 : ℚ) * (2 : ℚ) ^ (scaleUp D ks N e).2 = (N : ℚ) * (2 : ℚ) ^ e := by
  induction ks with
  | nil => intro N e hN; exact ⟨hN, rfl⟩
  | cons k ks ih =>
    intro N e hN
    unfold scaleUp
    split_ifs
    · obtain ⟨h1, h2⟩ := ih (N * 2 ^ k) (e - k) (by positivity)
      refine ⟨h1, ?_⟩
      rw [h2, zpow_sub₀ (by norm_num : (2 : ℚ) ≠ 0), zpow_natCast]
      push_cast
      field_simp
      ring
    · exact ih N e hN

theorem scaleDown_spec (N : Nat) (ks : List Nat) :
    ∀ (D : Nat) (e : Int), 0 < D →
      0 < (scaleDown N ks D e).1 ∧
        (2 : ℚ) ^ (scaleDown N ks D e).2 / ((scaleDown N ks D e).1 : ℚ) = (2 : ℚ) ^ e / (D : ℚ) := by
  induction ks with
  | nil => intro D e hD; exact ⟨hD, rfl⟩
  | cons k ks ih =>
    intro D e hD
    unfold scaleDown
    split_ifs
    · obtain ⟨h1, h2⟩ := ih (D * 2 ^ k) (e + k) (by positivity)
      refine ⟨h1, ?_⟩
      rw [h2, zpow_add₀ (by norm_num : (2 : ℚ) ≠ 0), zpow_natCast]
      have hDq : (D : ℚ) ≠ 0 := by exact_mod_cast (Nat.pos_iff_ne_zero.1 hD)
      push_cast
      field_simp
      ring
    · exact ih D e hD

theorem roundLoop_fuel (N D : Nat) (hN : 0 < N) (hD : 0 < D) :
    2 ^ 52 * D ≤ N * 2 ^ (N + D + 52) ∧ N < 2 ^ 53 * D * 2 ^ (N + D + 52) := by
  constructor
  · have hp : (2 : Nat) ^ (N + D + 52) = 2 ^ 52 * (2 ^ N * 2 ^ D) := by ring
    rw [hp]
    have hd2 : D ≤ 2 ^ D := le_of_lt (Nat.lt_two_pow D)
    have hN2 : 1 ≤ 2 ^ N := Nat.one_le_two_pow
    calc 2 ^ 52 * D ≤ 2 ^ 52 * (1 * 2 ^ D) := by omega
      _ ≤ 2 ^ 52 * (2 ^ N * 2 ^ D) :=
          Nat.mul_le_mul_left _ (Nat.mul_le_mul_right _ hN2)
      _ = 1 * (2 ^ 52 * (2 ^ N * 2 ^ D)) := by ring
      _ ≤ N * (2 ^ 52 * (2 ^ N * 2 ^ D)) := Nat.mul_le_mul_right _ hN
  · have hp : (2 : Nat) ^ (N + D + 52) = 2 ^ N * 2 ^ (D + 52) := by ring
    rw [hp]
    have hN2 : N < 2 ^ N := Nat.lt_two_pow N
    have h3 : 1 ≤ 2 ^ 53 * D := Nat.one_le_iff_ne_zero.2 (by positivity)
    have h4 : 1 ≤ 2 ^ (D + 52) := Nat.one_le_two_pow
    calc N < 2 ^ N := hN2
      _ = 1 * (2 ^ N * 1) := by ring
      _ ≤ 2 ^ 53 * D * (2 ^ N * 2 ^ (D + 52)) :=
          Nat.mul_le_mul h3 (Nat.mul_le_mul_left _ h4)

theorem round_spec (n : Int) (d : Nat) (e : Int) (hn : 0 < n) (hd : 0 < d) :
    2 ^ 52 ≤ (Dbl.round n d e).m ∧ (Dbl.round n d e).m ≤ 2 ^ 53 ∧
    |(Dbl.round n d e).val - (n : ℚ) / d * (2 : ℚ) ^ e| ≤ (2 : ℚ) ^ (Dbl.round n d e).e / 2 ∧
    ((d : Int) ∣ n → n < 2 ^ 53 * d → (Dbl.round n d e).val = (n : ℚ) / d * (2 : ℚ) ^ e) := by
  obtain ⟨N, rfl⟩ : ∃ N : Nat, n = (N : Int) := ⟨n.toNat, by omega⟩
  have hN : 0 < N := by exact_mod_cast hn
  set ks : List Nat := [128, 64, 32, 16, 8, 4, 2, 1] with hks
  obtain ⟨hu1, hu2⟩ := scaleUp_spec d ks N e hN
  obtain ⟨hd1, hd2⟩ := scaleDown_spec (scaleUp d ks N e).1 ks d (scaleUp d ks N e).2 hd
  set N1 := (scaleUp d ks N e).1 with hN1
  set e1 := (scaleUp d ks N e).2 with he1
  set D1 := (scaleDown N1 ks d e1).1 with hD1
  set e2 := (scaleDown N1 ks d e1).2 with he2
  obtain ⟨hf1, hf2⟩ := roundLoop_fuel N1 D1 hu1 hd1
  have hs := roundLoop_spec (N1 + D1 + 52) N1 D1 e2 hd1 hf1 hf2
  have hdq : (d : ℚ) ≠ 0 := by exact_mod_cast (Nat.pos_iff_ne_zero.1 hd)
  have hD1q : (D1 : ℚ) ≠ 0 := by exact_mod_cast (Nat.pos_iff_ne_zero.1 hd1)
  have hv : (N1 : ℚ) / D1 * (2 : ℚ) ^ e2 = ((N : Int) : ℚ) / d * (2 : ℚ) ^ e := by
    have e3 : (N1 : ℚ) / D1 * (2 : ℚ) ^ e2 = (N1 : ℚ) * ((2 : ℚ) ^ e2 / D1) := by ring
    rw [e3, hd2]
    have e4 : (N1 : ℚ) * ((2 : ℚ) ^ e1 / d) = (N1 : ℚ) * (2 : ℚ) ^ e1 / d := by ring
    rw [e4, hu2]
    push_cast
    ring
  rw [hv] at hs
  have hr : Dbl.round (N : Int) d e
      = ⟨((roundLoop (N1 + D1 + 52 + 1) N1 D1 e2).1 : Int),
          (roundLoop (N1 + D1 + 52 + 1) N1 D1 e2).2⟩ := by
    unfold Dbl.round
    have h0 : ¬ ((N : Int) = 0 ∨ d = 0) := by
      intro h
      rcases h with h | h <;> omega
    have hneg : ¬ ((N : Int) < 0) := by omega
    simp only [h0, if_false, Int.natAbs_ofNat, hneg]
  rw [hr]
  unfold Dbl.val
  simp only
  refine ⟨by exact_mod_cast hs.1, by exact_mod_cast hs.2.1, ?_, ?_⟩
  · simpa using hs.2.2.1
  · intro hdvd hlt
    obtain ⟨c, hc⟩ := hdvd
    have hc0 : 0 ≤ c := by
      by_contra hneg
      push_neg at hneg
      have : (d : Int) * c < 0 := Int.mul_neg_of_pos_of_neg (by exact_mod_cast hd) hneg
      omega
    obtain ⟨C, rfl⟩ : ∃ C : Nat, c = (C : Int) := ⟨c.toNat, by omega⟩
    have hC : C < 2 ^ 53 := by
      have h1 : (d : Int) * C < 2 ^ 53 * d := by omega
      have h2 : (d : Int) * C < (d : Int) * 2 ^ 53 := by linarith
      have h3 : (C : Int) < 2 ^ 53 := lt_of_mul_lt_mul_left h2 (by positivity)
      exact_mod_cast h3
    have hx : ((N : Int) : ℚ) / d * (2 : ℚ) ^ e = (C : ℚ) * (2 : ℚ) ^ e := by
      have : ((N : Int) : ℚ) = (d : ℚ) * C := by exact_mod_cast hc
      rw [this]
      field_simp
    have := hs.2.2.2 C e hC hx
    simpa using this

theorem round_neg (n : Int) (d : Nat) (e : Int) :
    Dbl.round (-n) d e = ⟨-(Dbl.round n d e).m, (Dbl.round n d e).e⟩ := by
  unfold Dbl.round
  by_cases h0 : n = 0 ∨ d = 0
  · have : -n = 0 ∨ d = 0 := by
      rcases h0 with h | h
      · exact Or.inl (by omega)
      · exact Or.inr h
    simp [h0, this]
  · have : ¬ (-n = 0 ∨ d = 0) := by
      intro h
      apply h0
      rcases h with h | h
      · exact Or.inl (by omega)
      · exact Or.inr h
    simp only [h0, this, if_false, Int.natAbs_neg]
    have hn : n ≠ 0 := fun h => h0 (Or.inl h)
    by_cases hneg : n < 0
    · have : ¬ (-n < 0) := by omega
      simp [hneg, this]
    · have : -n < 0 := by omega
      simp [hneg, this]

theorem round_zero (d : Nat) (e : Int) : Dbl.round 0 d e = ⟨0, 0⟩ := by
  simp [Dbl.round]

theorem toInt_neg (m e : Int) : (Dbl.mk (-m) e).toInt = -(Dbl.mk m e).toInt := by
  unfold Dbl.toInt
  simp only
  split_ifs
  · ring
  · rw [Int.neg_tdiv]

theorem toInt_floor (r : Dbl) (hm : 0 ≤ r.m) : r.toInt = ⌊r.val⌋ := by
  obtain ⟨m, e⟩ := r
  simp only at hm
  obtain ⟨M, rfl⟩ : ∃ M : Nat, m = (M : Int) := ⟨m.toNat, by omega⟩
  unfold Dbl.toInt Dbl.val
  simp only
  by_cases he : 0 ≤ e
  · obtain ⟨E, rfl⟩ : ∃ E : Nat, e = (E : Int) := ⟨e.toNat, by omega⟩
    simp only [he, if_true, Int.toNat_ofNat]
    symm
    rw [Int.floor_eq_iff]
    push_cast
    simp only [zpow_natCast]
    constructor <;> linarith
  · obtain ⟨J, hJ⟩ : ∃ J : Nat, -e = (J : Int) := ⟨(-e).toNat, by omega⟩
    have he2 : e = -(J : Int) := by omega
    simp only [he, if_false, hJ, Int.toNat_ofNat]
    rw [Int.tdiv_eq_ediv (by omega) (by positivity)]
    have hpos : (0 : ℚ) < (2 : ℚ) ^ J := by positivity
    symm
    rw [Int.floor_eq_iff, he2, zpow_neg, zpow_natCast]
    have hcast : (((M : Int) / ((2 ^ J : Nat) : Int) : Int) : ℚ) = ((M / 2 ^ J : Nat) : ℚ) := by
      norm_cast
    rw [hcast]
    have hdm := Nat.div_add_mod M (2 ^ J)
    have hmod := Nat.mod_lt M (by positivity : 2 ^ J > 0)
    have hM : (M : ℚ) = (2 : ℚ) ^ J * ((M / 2 ^ J : Nat) : ℚ) + ((M % 2 ^ J : Nat) : ℚ) := by
      have : ((2 ^ J * (M / 2 ^ J) + M % 2 ^ J : Nat) : ℚ) = M := by rw [hdm]
      push_cast at this
      linarith
    have hr0 : (0 : ℚ) ≤ ((M % 2 ^ J : Nat) : ℚ) := by positivity
    have hr1 : ((M % 2 ^ J : Nat) : ℚ) < (2 : ℚ) ^ J := by exact_mod_cast hmod
    constructor
    · rw [Int.cast_natCast, le_mul_inv_iff₀ hpos]
      nlinarith
    · rw [Int.cast_natCast, mul_inv_lt_iff₀ hpos]
      nlinarith

theorem val_ge_nat (r : Dbl) (x : ℚ) (K : Nat) (hm : 2 ^ 52 ≤ r.m)
    (herr : |r.val - x| ≤ (2 : ℚ) ^ r.e / 2) (hK : K ≤ 2 ^ 53) (hx : (K : ℚ) ≤ x) :
    (K : ℚ) ≤ r.val := by
  obtain ⟨m, e⟩ := r
  simp only at hm
  simp only [Dbl.val] at herr ⊢
  have hmq : (2 : ℚ) ^ 52 ≤ (m : ℚ) := by exact_mod_cast hm
  have hKq : (K : ℚ) ≤ (2 : ℚ) ^ 53 := by exact_mod_cast hK
  by_cases he : 1 ≤ e
  · have h2 : (2 : ℚ) ^ (1 : Int) ≤ (2 : ℚ) ^ e := zpow_le_zpow_right₀ (by norm_num) he
    rw [zpow_one] at h2
    nlinarith
  · obtain ⟨J, hJ⟩ : ∃ J : Nat, e = -(J : Int) := ⟨(-e).toNat, by omega⟩
    subst hJ
    rw [zpow_neg, zpow_natCast] at herr ⊢
    have hpos : (0 : ℚ) < (2 : ℚ) ^ J := by positivity
    by_contra hc
    push_neg at hc
    rw [mul_inv_lt_iff₀ hpos] at hc
    have hc2 : m < (K : Int) * 2 ^ J := by exact_mod_cast hc
    have hc3 : m + 1 ≤ (K : Int) * 2 ^ J := by omega
    have hc4 : (m : ℚ) + 1 ≤ (K : ℚ) * (2 : ℚ) ^ J := by exact_mod_cast hc3
    have hc5 : (m : ℚ) * ((2 : ℚ) ^ J)⁻¹ + ((2 : ℚ) ^ J)⁻¹ ≤ K := by
      have : ((m : ℚ) + 1) * ((2 : ℚ) ^ J)⁻¹ ≤ K := by
        rw [mul_inv_le_iff₀ hpos]
        exact hc4
      linarith
    have hinv : (0 : ℚ) < ((2 : ℚ) ^ J)⁻¹ := by positivity
    have := (abs_le.1 herr).1
    linarith

theorem val_pos_bound (r : Dbl) (x : ℚ) (hm : 2 ^ 52 ≤ r.m)
    (herr : |r.val - x| ≤ (2 : ℚ) ^ r.e / 2) :
    0 < r.val ∧ (2 : ℚ) ^ 52 * (2 : ℚ) ^ r.e ≤ r.val ∧
      r.val * (1 - 1 / 2 ^ 53) ≤ x := by
  obtain ⟨m, e⟩ := r
  simp only at hm
  simp only [Dbl.val] at herr ⊢
  have hmq : (2 : ℚ) ^ 52 ≤ (m : ℚ) := by exact_mod_cast hm
  have hpos : (0 : ℚ) < (2 : ℚ) ^ e := by positivity
  have h1 : (2 : ℚ) ^ 52 * (2 : ℚ) ^ e ≤ (m : ℚ) * (2 : ℚ) ^ e :=
    mul_le_mul_of_nonneg_right hmq hpos.le
  refine ⟨by nlinarith, h1, ?_⟩
  have := (abs_le.1 herr).2
  nlinarith

theorem ofInt_100000 : Dbl.ofInt 100000 = ⟨6871947673600000, -36⟩ := by decide

theorem ofInt_pos (a : Int) (ha : 0 < a) :
    2 ^ 52 ≤ (Dbl.ofInt a).m ∧ |(Dbl.ofInt a).val - (a : ℚ)| ≤ (2 : ℚ) ^ (Dbl.ofInt a).e / 2 ∧
      (a < 2 ^ 53 → (Dbl.ofInt a).val = (a : ℚ)) := by
  have h := round_spec a 1 0 ha (by norm_num)
  unfold Dbl.ofInt
  refine ⟨h.1, by simpa using h.2.2.1, ?_⟩
  intro hlt
  have := h.2.2.2 (by simp) (by simpa using hlt)
  simpa using this

theorem div_100000_pos (A : Dbl) (hA : 0 < A.m) :
    2 ^ 52 ≤ (Dbl.div A (Dbl.ofInt 100000)).m ∧
      |(Dbl.div A (Dbl.ofInt 100000)).val - A.val / 100000|
        ≤ (2 : ℚ) ^ (Dbl.div A (Dbl.ofInt 100000)).e / 2 := by
  rw [ofInt_100000]
  have hd : Dbl.div A ⟨6871947673600000, -36⟩
      = Dbl.round A.m 6871947673600000 (A.e - -36) := by
    unfold Dbl.div
    simp
  rw [hd]
  have h := round_spec A.m 6871947673600000 (A.e - -36) hA (by norm_num)
  refine ⟨h.1, ?_⟩
  have hv : (A.m : ℚ) / ((6871947673600000 : Nat) : ℚ) * (2 : ℚ) ^ (A.e - -36)
      = A.val / 100000 := by
    unfold Dbl.val
    rw [sub_neg_eq_add, zpow_add₀ (by norm_num : (2 : ℚ) ≠ 0)]
    norm_num
    ring
  rw [hv] at h
  exact h.2.2.1

theorem divPrecision_neg (v : Int) : divPrecision (-v) = -divPrecision v := by
  unfold divPrecision Dbl.ofInt
  rw [round_neg]
  have hd : ∀ m e : Int, Dbl.div ⟨-m, e⟩ (Dbl.round 100000 1 0)
      = ⟨-(Dbl.div ⟨m, e⟩ (Dbl.round 100000 1 0)).m,
          (Dbl.div ⟨m, e⟩ (Dbl.round 100000 1 0)).e⟩ := by
    intro m e
    have hc : Dbl.round 100000 1 0 = ⟨6871947673600000, -36⟩ := ofInt_100000
    rw [hc]
    unfold Dbl.div
    simp only [show ¬ ((6871947673600000 : Int) < 0) by norm_num, if_false]
    rw [round_neg]
  rw [hd, toInt_neg]

theorem divPrecision_zero : divPrecision 0 = 0 := by decide

theorem divPrecision_pos_zero_iff (a : Int) (ha : 0 < a) :
    divPrecision a = 0 ↔ a < 100000 := by
  obtain ⟨hAm, hAerr, hAex⟩ := ofInt_pos a ha
  obtain ⟨hQm, hQerr⟩ := div_100000_pos (Dbl.ofInt a) (by omega)
  obtain ⟨hQpos, -, hQrel⟩ := val_pos_bound _ _ hQm hQerr
  unfold divPrecision
  rw [toInt_floor _ (by omega), Int.floor_eq_iff]
  constructor
  · rintro ⟨-, h1⟩
    by_contra hc
    push_neg at hc
    have hA : ((100000 : Nat) : ℚ) ≤ (Dbl.ofInt a).val :=
      val_ge_nat _ _ 100000 hAm hAerr (by norm_num) (by exact_mod_cast hc)
    have hx : ((1 : Nat) : ℚ) ≤ (Dbl.ofInt a).val / 100000 := by
      rw [le_div_iff₀ (by norm_num)]
      push_cast at hA ⊢
      linarith
    have := val_ge_nat _ _ 1 hQm hQerr (by norm_num) hx
    push_cast at this h1
    linarith
  · intro hlt
    have hex := hAex (by omega)
    have haq : (a : ℚ) ≤ 99999 := by exact_mod_cast (by omega : a ≤ 99999)
    rw [hex] at hQrel
    constructor
    · push_cast
      linarith
    · push_cast
      have : (a : ℚ) / 100000 ≤ 99999 / 100000 := by
        rw [div_le_div_iff₀ (by norm_num) (by norm_num)]
        linarith
      norm_num at hQrel ⊢
      linarith

theorem divPrecision_eq_zero_iff (v : Int) : divPrecision v = 0 ↔ |v| < 100000 := by
  rcases lt_trichotomy v 0 with h | h | h
  · obtain ⟨a, rfl⟩ : ∃ a, v = -a := ⟨-v, by omega⟩
    rw [divPrecision_neg, abs_neg, abs_of_pos (by omega : 0 < a), neg_eq_zero]
    exact divPrecision_pos_zero_iff a (by omega)
  · subst h
    simp [divPrecision_zero]
  · rw [abs_of_pos h]
    exact divPrecision_pos_zero_iff v h

theorem divPrecision_pos_small (a : Int) (ha : 0 < a) (hlt : a < 2 ^ 53) :
    divPrecision a = a / 100000 := by
  obtain ⟨hAm, hAerr, hAex⟩ := ofInt_pos a ha
  obtain ⟨hQm, hQerr⟩ := div_100000_pos (Dbl.ofInt a) (by omega)
  obtain ⟨hQpos, hQlow, hQrel⟩ := val_pos_bound _ _ hQm hQerr
  rw [hAex hlt] at hQerr hQrel
  have hdm := Int.ediv_add_emod a 100000
  have hmod0 := Int.emod_nonneg a (by norm_num : (100000 : Int) ≠ 0)
  have hmod1 := Int.emod_lt_of_pos a (by norm_num : (0 : Int) < 100000)
  have hk0 : 0 ≤ a / 100000 := Int.ediv_nonneg (by omega) (by norm_num)
  have haq : (a : ℚ) = 100000 * ((a / 100000 : Int) : ℚ) + ((a % 100000 : Int) : ℚ) := by
    have : ((100000 * (a / 100000) + a % 100000 : Int) : ℚ) = a := by rw [hdm]
    push_cast at this
    linarith
  have hrq0 : (0 : ℚ) ≤ ((a % 100000 : Int) : ℚ) := by exact_mod_cast hmod0
  have hrq1 : ((a % 100000 : Int) : ℚ) ≤ 99999 := by
    exact_mod_cast (by omega : a % 100000 ≤ 99999)
  have halt : (a : ℚ) < 2 ^ 53 := by exact_mod_cast hlt
  set Q := Dbl.div (Dbl.ofInt a) (Dbl.ofInt 100000) with hQ
  unfold divPrecision
  rw [← hQ, toInt_floor _ (by omega), Int.floor_eq_iff]
  constructor
  · obtain ⟨k, hk⟩ : ∃ k : Nat, a / 100000 = (k : Int) := ⟨(a / 100000).toNat, by omega⟩
    rw [hk]
    have hkle : k ≤ 2 ^ 53 := by
      have : (k : Int) ≤ 2 ^ 53 := by omega
      exact_mod_cast this
    have hx : (k : ℚ) ≤ (a : ℚ) / 100000 := by
      rw [le_div_iff₀ (by norm_num)]
      rw [hk] at haq
      push_cast at haq
      linarith
    have := val_ge_nat Q _ k hQm hQerr hkle hx
    exact_mod_cast this
  · have hQlt : Q.val < 2 ^ 37 := by
      have h1 : Q.val * (1 - 1 / 2 ^ 53) < 2 ^ 53 / 100000 := by
        refine lt_of_le_of_lt hQrel ?_
        rw [div_lt_div_iff₀ (by norm_num) (by norm_num)]
        linarith
      norm_num at h1 ⊢
      linarith
    have he : Q.e ≤ -16 := by
      by_contra hc
      push_neg at hc
      have h2 : (2 : ℚ) ^ (-15 : Int) ≤ (2 : ℚ) ^ Q.e :=
        zpow_le_zpow_right₀ (by norm_num) (by omega)
      have h3 : (2 : ℚ) ^ (-15 : Int) = 1 / 32768 := by norm_num [zpow_neg]
      rw [h3] at h2
      norm_num at hQlt hQlow
      nlinarith
    have h4 : (2 : ℚ) ^ Q.e ≤ 1 / 65536 := by
      have h2 : (2 : ℚ) ^ Q.e ≤ (2 : ℚ) ^ (-16 : Int) :=
        zpow_le_zpow_right₀ (by norm_num) he
      have h3 : (2 : ℚ) ^ (-16 : Int) = 1 / 65536 := by norm_num [zpow_neg]
      rwa [h3] at h2
    have h5 := (abs_le.1 hQerr).2
    have h6 : (a : ℚ) / 100000 ≤ ((a / 100000 : Int) : ℚ) + 99999 / 100000 := by
      rw [div_le_iff₀ (by norm_num)]
      linarith
    linarith

theorem divPrecision_small (v : Int) (h : |v| < 2 ^ 53) : divPrecision v = Int.tdiv v 100000 := by
  rcases lt_trichotomy v 0 with hv | hv | hv
  · obtain ⟨a, rfl⟩ : ∃ a, v = -a := ⟨-v, by omega⟩
    rw [abs_neg, abs_of_pos (by omega : 0 < a)] at h
    rw [divPrecision_neg, divPrecision_pos_small a (by omega) h, Int.neg_tdiv,
      Int.tdiv_eq_ediv (by omega) (by norm_num)]
  · subst hv
    decide
  · rw [abs_of_pos hv] at h
    rw [divPrecision_pos_small v hv h, Int.tdiv_eq_ediv (by omega) (by norm_num)]

/-! ## Result validation -/

theorem eraseFirstNamed_none (n : QString) (l : List Shape) :
    eraseFirstNamed n l = none ↔ n ∉ l.map Shape.name := by
  induction l with
  | nil => simp [eraseFirstNamed]
  | cons i rest ih =>
    by_cases h : n = i.name
    · simp [eraseFirstNamed, h]
    · simp [eraseFirstNamed, h, ih]

theorem eraseFirstNamed_some (n : QString) (l l' : List Shape)
    (h : eraseFirstNamed n l = some l') :
    n ∈ l.map Shape.name ∧
      (↑(l'.map Shape.name) : Multiset QString) = (↑(l.map Shape.name) : Multiset QString).erase n := by
  induction l generalizing l' with
  | nil => simp [eraseFirstNamed] at h
  | cons i rest ih =>
    by_cases hn : n = i.name
    · simp only [eraseFirstNamed, hn, if_true, Option.some.injEq] at h
      subst h
      simp [hn]
    · simp only [eraseFirstNamed, hn, if_false, Option.map_eq_some'] at h
      obtain ⟨l0, h0, rfl⟩ := h
      obtain ⟨hm, he⟩ := ih l0 h0
      refine ⟨by simp [hm], ?_⟩
      have hne : i.name ≠ n := fun e => hn e.symm
      rw [List.map_cons, List.map_cons, ← Multiset.cons_coe, ← Multiset.cons_coe, he,
        Multiset.erase_cons_tail _ hne]

theorem matchShapes_some (shapes l l' : List Shape) (h : matchShapes shapes l = some l') :
    (↑(shapes.map Shape.name) : Multiset QString) ≤ ↑(l.map Shape.name) ∧
      (↑(l'.map Shape.name) : Multiset QString)
        = (↑(l.map Shape.name) : Multiset QString) - ↑(shapes.map Shape.name) := by
  induction shapes generalizing l with
  | nil =>
    simp only [matchShapes, Option.some.injEq] at h
    subst h
    simp
  | cons s rest ih =>
    cases he : eraseFirstNamed s.name l with
    | none => simp [matchShapes, he] at h
    | some l1 =>
      simp only [matchShapes, he] at h
      obtain ⟨hm, hl1⟩ := eraseFirstNamed_some _ _ _ he
      obtain ⟨hle, hsub⟩ := ih l1 h
      have hm' : s.name ∈ (↑(l.map Shape.name) : Multiset QString) := by simpa using hm
      constructor
      · rw [List.map_cons, ← Multiset.cons_coe, ← Multiset.cons_erase hm',
          Multiset.cons_le_cons_iff, ← hl1]
        exact hle
      · rw [hsub, hl1, List.map_cons, ← Multiset.cons_coe, Multiset.sub_cons]

theorem matchShapes_none (shapes l : List Shape) (h : matchShapes shapes l = none) :
    ¬ (↑(shapes.map Shape.name) : Multiset QString) ≤ ↑(l.map Shape.name) := by
  induction shapes generalizing l with
  | nil => simp [matchShapes] at h
  | cons s rest ih =>
    intro hle
    cases he : eraseFirstNamed s.name l with
    | none =>
      have hnot := (eraseFirstNamed_none _ _).1 he
      apply hnot
      have : s.name ∈ (↑(l.map Shape.name) : Multiset QString) :=
        Multiset.mem_of_le hle (by simp)
      simpa using this
    | some l1 =>
      simp only [matchShapes, he] at h
      obtain ⟨hm, hl1⟩ := eraseFirstNamed_some _ _ _ he
      have hm' : s.name ∈ (↑(l.map Shape.name) : Multiset QString) := by simpa using hm
      apply ih l1 h
      rw [List.map_cons, ← Multiset.cons_coe, ← Multiset.cons_erase hm',
        Multiset.cons_le_cons_iff, ← hl1] at hle
      exact hle

theorem placedNames_cons (s : Sheet) (rest : List Sheet) :
    placedNames (s :: rest) = s.shapes.map Shape.name ++ placedNames rest := by
  simp [placedNames]

theorem validLoop_iff (I : List QPoint → List QPoint → List QPoint) (input : PluginInput)
    (sheets : List Sheet) (inputList : List Shape) :
    validLoop I input sheets inputList = true ↔
      (∀ s ∈ sheets, s.isValid I = true) ∧
      (∀ s ∈ sheets, s.width = input.sheetWidth ∧ s.height = input.sheetHeight) ∧
      (↑(placedNames sheets) : Multiset QString) = ↑(inputList.map Shape.name) := by
  induction sheets generalizing inputList with
  | nil =>
    cases inputList with
    | nil => simp [validLoop, placedNames]
    | cons a l =>
      simp only [validLoop, placedNames, List.isEmpty_cons, List.map_nil, List.flatten_nil,
        List.map_cons, false_iff, not_and]
      constructor
      · intro h; exact absurd h (by simp)
      · rintro ⟨-, -, h⟩
        exact absurd (congrArg Multiset.card h) (by simp)
  | cons s rest ih =>
    rw [placedNames_cons]
    by_cases hv : s.isValid I = true
    swap
    · simp [validLoop, hv]
    by_cases hw : s.width = input.sheetWidth
    swap
    · simp [validLoop, hv, hw]
    by_cases hh : s.height = input.sheetHeight
    swap
    · simp [validLoop, hv, hw, hh]
    cases hm : matchShapes s.shapes inputList with
    | none =>
      have hnot := matchShapes_none _ _ hm
      simp only [validLoop, hv, hw, hh, hm]
      constructor
      · intro h; simp at h
      · rintro ⟨-, -, he⟩
        exfalso
        apply hnot
        rw [← he, ← Multiset.coe_add]
        exact Multiset.le_add_right _ _
    | some l =>
      obtain ⟨hle, hsub⟩ := matchShapes_some _ _ _ hm
      have hstep : validLoop I input (s :: rest) inputList = validLoop I input rest l := by
        simp [validLoop, hv, hw, hh, hm]
      rw [hstep, ih l, hsub, ← Multiset.coe_add]
      constructor
      · rintro ⟨h1, h2, h3⟩
        refine ⟨?_, ?_, ?_⟩
        · intro t ht
          rcases List.mem_cons.1 ht with rfl | ht
          · exact hv
          · exact h1 t ht
        · intro t ht
          rcases List.mem_cons.1 ht with rfl | ht
          · exact ⟨hw, hh⟩
          · exact h2 t ht
        · rw [h3, add_comm]
          exact tsub_add_cancel_of_le hle
      · rintro ⟨h1, h2, h3⟩
        refine ⟨fun t ht => h1 t (List.mem_cons_of_mem _ ht),
          fun t ht => h2 t (List.mem_cons_of_mem _ ht), ?_⟩
        rw [← h3]
        exact (add_tsub_cancel_left _ _).symm

/-- C1: `Bakery::isOutputValidForInput` returns true exactly when every sheet of the result
is valid, every sheet has the width and height of the job, and the shape names placed on the
sheets form the same multiset as the shape names of the job. A result that places two shapes
of a job holding three shapes of one name is rejected. -/
theorem isOutputValidForInput_iff (I : List QPoint → List QPoint → List QPoint)
    (input : PluginInput) (output : PluginOutput) :
    (isOutputValidForInput I input output = true ↔
      (∀ s ∈ output.sheets, s.isValid I = true) ∧
      (∀ s ∈ output.sheets, s.width = input.sheetWidth ∧ s.height = input.sheetHeight) ∧
      (↑(placedNames output.sheets) : Multiset QString) = ↑(input.shapes.map Shape.name)) ∧
    (∀ (n : QString) (p1 p2 p3 q1 q2 : List QPoint) (w h : Int),
      isOutputValidForInput I ⟨w, h, [⟨n, p1⟩, ⟨n, p2⟩, ⟨n, p3⟩]⟩ ⟨[⟨w, h, [⟨n, q1⟩, ⟨n, q2⟩]⟩]⟩
        = false) := by
  refine ⟨validLoop_iff I input output.sheets input.shapes, ?_⟩
  intro n p1 p2 p3 q1 q2 w h
  rw [Bool.eq_false_iff]
  intro hv
  have h3 := ((validLoop_iff I _ _ _).1 hv).2.2
  have hc := congrArg Multiset.card h3
  simp [placedNames] at hc

/-! ## Sheet validity -/

theorem spansCoords_step (seen : List QPoint) (acc : Int × Int × Int × Int) (p : QPoint)
    (h : SpansCoords seen acc) : SpansCoords (seen ++ [p]) (boundsStep acc p) := by
  obtain ⟨minx, maxx, miny, maxy⟩ := acc
  obtain ⟨hall, ⟨a, ha, hax⟩, ⟨b, hb, hbx⟩, ⟨c, hc, hcy⟩, ⟨d, hd, hdy⟩⟩ := h
  have hxle : minx ≤ maxx := by have := hall a ha; simp only at this hax; omega
  have hyle : miny ≤ maxy := by have := hall c hc; simp only at this hcy; omega
  simp only at hax hbx hcy hdy
  have hp : p ∈ seen ++ [p] := by simp
  have hm : ∀ q, q ∈ seen → q ∈ seen ++ [p] := fun q hq => List.mem_append_left _ hq
  unfold boundsStep SpansCoords
  dsimp only
  refine ⟨?_, ?_, ?_, ?_, ?_⟩
  · intro q hq
    rcases List.mem_append.1 hq with hq | hq
    · have := hall q hq
      simp only at this
      split_ifs <;> omega
    · have : q = p := by simpa using hq
      subst this
      split_ifs <;> omega
  · split_ifs
    all_goals first | exact ⟨p, hp, rfl⟩ | exact ⟨a, hm a ha, hax⟩
  · split_ifs
    all_goals first | exact ⟨p, hp, rfl⟩ | exact ⟨b, hm b hb, hbx⟩
  · split_ifs
    all_goals first | exact ⟨p, hp, rfl⟩ | exact ⟨c, hm c hc, hcy⟩
  · split_ifs
    all_goals first | exact ⟨p, hp, rfl⟩ | exact ⟨d, hm d hd, hdy⟩

theorem spansCoords_foldl (rest : List QPoint) :
    ∀ (seen : List QPoint) (acc : Int × Int × Int × Int), SpansCoords seen acc →
      SpansCoords (seen ++ rest) (rest.foldl boundsStep acc) := by
  induction rest with
  | nil => intro seen acc h; simpa using h
  | cons p rest ih =>
    intro seen acc h
    have := ih (seen ++ [p]) (boundsStep acc p) (spansCoords_step seen acc p h)
    simpa using this

theorem spansCoords_boundingRect (p : QPoint) (rest : List QPoint) :
    SpansCoords (p :: rest) (rest.foldl boundsStep (p.x, p.x, p.y, p.y)) := by
  have h0 : SpansCoords [p] (p.x, p.x, p.y, p.y) := by
    refine ⟨?_, ⟨p, by simp, rfl⟩, ⟨p, by simp, rfl⟩, ⟨p, by simp, rfl⟩, ⟨p, by simp, rfl⟩⟩
    intro q hq
    have : q = p := by simpa using hq
    subst this
    simp
  simpa using spansCoords_foldl rest [p] _ h0

theorem wrap32_eq (v : Int) (h : -2147483648 ≤ v ∧ v ≤ 2147483647) : wrap32 v = v := by
  unfold wrap32; omega

theorem bounds_contains_iff (w h : Int) (pts : List QPoint)
    (hw : 0 ≤ w ∧ w < 2147483647) (hh : 0 ≤ h ∧ h < 2147483647)
    (hc : ∀ p ∈ pts, smallCoord p) :
    (QRect.ofPoints ⟨0, 0⟩ ⟨w, h⟩).contains (boundingRect pts) = true ↔
      pts ≠ [] ∧ ∀ p ∈ pts, inSheetRange w h p := by
  cases pts with
  | nil =>
    simp [QRect.contains, boundingRect, QRect.ofXYWH, QRect.isNull, wrap32]
  | cons p rest =>
    have hs := spansCoords_boundingRect p rest
    simp only [boundingRect]
    generalize rest.foldl boundsStep (p.x, p.x, p.y, p.y) = acc at hs ⊢
    obtain ⟨minx, maxx, miny, maxy⟩ := acc
    obtain ⟨hall, ⟨a, ha, hax⟩, ⟨b, hb, hbx⟩, ⟨c, hcm, hcy⟩, ⟨d, hd, hdy⟩⟩ := hs
    simp only at hax hbx hcy hdy hall
    have sa := hc a ha
    have sb := hc b hb
    have sc := hc c hcm
    have sd := hc d hd
    have ab := hall a ha
    have cd := hall c hcm
    unfold smallCoord at sa sb sc sd
    have key : (QRect.ofPoints ⟨0, 0⟩ ⟨w, h⟩).contains
          (QRect.ofPoints ⟨minx, miny⟩ ⟨maxx, maxy⟩) = true ↔
        (0 ≤ minx ∧ maxx ≤ w ∧ 0 ≤ miny ∧ maxy ≤ h) := by
      simp only [QRect.contains, QRect.ofPoints, QRect.isNull, QRect.widthOf, QRect.heightOf]
      have e1 : wrap32 (0 - 1) = 0 - 1 := wrap32_eq _ (by omega)
      have e2 : wrap32 (minx - 1) = minx - 1 := wrap32_eq _ (by omega)
      have e3 : wrap32 (w - 0 + 1) = w - 0 + 1 := wrap32_eq _ (by omega)
      have e4 : wrap32 (h - 0 + 1) = h - 0 + 1 := wrap32_eq _ (by omega)
      have e5 : wrap32 (maxx - minx + 1) = maxx - minx + 1 := wrap32_eq _ (by omega)
      have e6 : wrap32 (maxy - miny + 1) = maxy - miny + 1 := wrap32_eq _ (by omega)
      simp only [e1, e2, e3, e4, e5, e6]
      have n1 : ¬ (w - 0 + 1 < 0) := by omega
      have n2 : ¬ (h - 0 + 1 < 0) := by omega
      have n3 : ¬ (maxx - minx + 1 < 0) := by omega
      have n4 : ¬ (maxy - miny + 1 < 0) := by omega
      have n5 : ¬ (w = 0 - 1) := by omega
      have n6 : ¬ (maxx = minx - 1) := by omega
      simp only [n1, n2, n3, n4, n5, n6, if_false, decide_False, Bool.false_and, Bool.or_false,
        Bool.false_eq_true]
      by_cases c1 : minx < 0
      · simp [c1]
      by_cases c2 : maxx > w
      · simp [c1, c2]
      by_cases c3 : miny < 0
      · simp [c1, c2, c3]
      by_cases c4 : maxy > h
      · simp [c1, c2, c3, c4]
      simp [c1, c2, c3, c4]
      omega
    rw [key]
    constructor
    · intro hk
      refine ⟨by simp, ?_⟩
      intro q hq
      have := hall q hq
      unfold inSheetRange
      omega
    · rintro ⟨-, hr⟩
      have ra := hr a ha
      have rb := hr b hb
      have rc := hr c hcm
      have rd := hr d hd
      unfold inSheetRange at ra rb rc rd
      omega

theorem isValidFrom_iff (I : List QPoint → List QPoint → List QPoint) (b : QRect)
    (l : List Shape) :
    isValidFrom I b l = true ↔
      (∀ s ∈ l, b.contains (boundingRect s.points) = true) ∧
      l.Pairwise (fun this other => this.intersects I other = false) := by
  induction l with
  | nil => simp [isValidFrom]
  | cons s rest ih =>
    by_cases hb : b.contains (boundingRect s.points) = true
    swap
    · simp [isValidFrom, hb]
    by_cases ha : rest.any (fun other => s.intersects I other) = true
    · simp only [isValidFrom, hb, ha]
      simp only [List.any_eq_true] at ha
      obtain ⟨o, ho, hi⟩ := ha
      simp only [Bool.not_true, Bool.false_eq_true, if_false, if_true, List.pairwise_cons,
        false_iff, not_and]
      intro _ hp
      rw [hp o ho] at hi
      exact absurd hi (by simp)
    · have ha' : ∀ o ∈ rest, s.intersects I o = false := by
        intro o ho
        by_contra hne
        apply ha
        simp only [List.any_eq_true]
        exact ⟨o, ho, by simpa using hne⟩
      have hstep : isValidFrom I b (s :: rest) = isValidFrom I b rest := by
        simp [isValidFrom, hb, ha]
      rw [hstep, ih, List.pairwise_cons]
      constructor
      · rintro ⟨h1, h2⟩
        refine ⟨?_, ha', h2⟩
        intro t ht
        rcases List.mem_cons.1 ht with rfl | ht
        · exact hb
        · exact h1 t ht
      · rintro ⟨h1, -, h2⟩
        exact ⟨fun t ht => h1 t (List.mem_cons_of_mem _ ht), h2⟩

theorem Sheet_isValid_general (I : List QPoint → List QPoint → List QPoint) (s : Sheet) :
    s.isValid I = true ↔
      (∀ sh ∈ s.shapes, s.bounds.contains (boundingRect sh.points) = true) ∧
      s.shapes.Pairwise (fun earlier later => later.intersects I earlier = false) := by
  unfold Sheet.isValid
  rw [isValidFrom_iff, List.pairwise_reverse]
  simp


/-- C2 (as amended): for a sheet of non-negative width and height below `2^31 - 1` whose
shapes have coordinates of magnitude below `2^30`, `Sheet::isValid()` is true exactly when
every placed shape has at least one point and all its vertices lie in
`[0, width] x [0, height]`, and `Shape::intersects` is false for every pair of placed shapes
(the later shape tested against the earlier one). A sheet without shapes is valid, and a sheet
holding one shape is valid exactly when that shape has at least one point and all its vertices
lie in `[0, width] x [0, height]`. -/
theorem Sheet_isValid_iff (I : List QPoint → List QPoint → List QPoint) (s : Sheet)
    (hw : 0 ≤ s.width ∧ s.width < 2147483647) (hh : 0 ≤ s.height ∧ s.height < 2147483647)
    (hc : ∀ sh ∈ s.shapes, ∀ p ∈ sh.points, smallCoord p) :
    (s.isValid I = true ↔
      (∀ sh ∈ s.shapes, sh.points ≠ [] ∧ ∀ p ∈ sh.points, inSheetRange s.width s.height p) ∧
      s.shapes.Pairwise (fun earlier later => later.intersects I earlier = false)) ∧
    (s.shapes = [] → s.isValid I = true) ∧
    (∀ sh, s.shapes = [sh] →
      (s.isValid I = true ↔
        sh.points ≠ [] ∧ ∀ p ∈ sh.points, inSheetRange s.width s.height p)) := by
  have main : s.isValid I = true ↔
      (∀ sh ∈ s.shapes, sh.points ≠ [] ∧ ∀ p ∈ sh.points, inSheetRange s.width s.height p) ∧
      s.shapes.Pairwise (fun earlier later => later.intersects I earlier = false) := by
    rw [Sheet_isValid_general]
    have hb : ∀ sh ∈ s.shapes, (s.bounds.contains (boundingRect sh.points) = true ↔
        sh.points ≠ [] ∧ ∀ p ∈ sh.points, inSheetRange s.width s.height p) :=
      fun sh hsh => bounds_contains_iff s.width s.height sh.points hw hh (hc sh hsh)
    constructor
    · rintro ⟨h1, h2⟩
      exact ⟨fun sh hsh => (hb sh hsh).1 (h1 sh hsh), h2⟩
    · rintro ⟨h1, h2⟩
      exact ⟨fun sh hsh => (hb sh hsh).2 (h1 sh hsh), h2⟩
  refine ⟨main, ?_, ?_⟩
  · intro he
    rw [main, he]
    simp
  · intro sh he
    rw [main, he]
    simp

/-- Witness for `Sheet_isValid_iff`: the unit sheet holding the closed unit square is valid. -/
theorem Sheet_isValid_iff_witness :
    Sheet.isValid noOverlap ⟨100000, 100000, [unitSquare]⟩ = true :=
  ((Sheet_isValid_iff noOverlap ⟨100000, 100000, [unitSquare]⟩ (by decide) (by decide)
      (by decide)).2.2 unitSquare rfl).2 (by decide)

/-- C2, counterexample to the claim as stated: a sheet of 100000 x 100000 holding a single
shape without points is not valid, although all vertex coordinates of that shape (there are
none) lie in `[0, width] x [0, height]`. -/
theorem Sheet_isValid_empty_shape_counterexample :
    ¬ (Sheet.isValid noOverlap ⟨100000, 100000, [⟨['s'], []⟩]⟩ = true ↔
        ∀ p ∈ (⟨['s'], []⟩ : Shape).points, inSheetRange 100000 100000 p) := by
  decide

/-! ## Characters, numbers and tokens -/

theorem isSpace_blank : isSpace ' ' = true := by decide

theorem spacesOnly_nil : SpacesOnly [] := by
  intro c hc; simp at hc

theorem spacesOnly_blank : SpacesOnly [' '] := by
  intro c hc
  have : c = ' ' := by simpa using hc
  subst this
  decide

theorem isDigit_digitChar (d : Nat) (h : d < 10) : isDigit (digitChar d) = true := by
  interval_cases d <;> decide

theorem digitChar_toNat (d : Nat) (h : d < 10) : (digitChar d).toNat - 48 = d := by
  interval_cases d <;> decide

theorem isSpace_of_isDigit (c : Char) (h : isDigit c = true) : isSpace c = false := by
  unfold isDigit at h
  unfold isSpace
  simp only [Bool.and_eq_true, decide_eq_true_eq] at h
  simp only [Bool.or_eq_false_iff, Bool.and_eq_false_iff, decide_eq_false_iff_not,
    beq_eq_false_iff_ne, ne_eq]
  omega

theorem natStrFuel_digits (fuel n : Nat) : ∀ c ∈ natStrFuel fuel n, isDigit c = true := by
  induction fuel generalizing n with
  | zero => intro c hc; simp [natStrFuel] at hc
  | succ f ih =>
    intro c hc
    unfold natStrFuel at hc
    split_ifs at hc with h
    · have : c = digitChar n := by simpa using hc
      subst this
      exact isDigit_digitChar n h
    · rcases List.mem_append.1 hc with hc | hc
      · exact ih _ c hc
      · have : c = digitChar (n % 10) := by simpa using hc
        subst this
        exact isDigit_digitChar _ (Nat.mod_lt _ (by decide))

theorem natStrFuel_ne_nil (fuel n : Nat) : natStrFuel (fuel + 1) n ≠ [] := by
  unfold natStrFuel
  split_ifs <;> simp

theorem foldl_parseStep_natStrFuel (fuel n : Nat) (h : n < fuel) :
    (natStrFuel fuel n).foldl parseStep (some 0) = some n := by
  induction fuel generalizing n with
  | zero => omega
  | succ f ih =>
    unfold natStrFuel
    split_ifs with h10
    · simp [parseStep, isDigit_digitChar n h10, digitChar_toNat n h10]
    · have hlt : n / 10 < f := by omega
      rw [List.foldl_append, ih _ hlt]
      have hm : n % 10 < 10 := Nat.mod_lt _ (by decide)
      simp only [List.foldl_cons, List.foldl_nil, parseStep, isDigit_digitChar _ hm,
        digitChar_toNat _ hm, if_true, Option.some.injEq]
      omega

theorem parseNat_natStr (n : Nat) : parseNat (natStr n) = some n := by
  unfold parseNat natStr
  have hne := natStrFuel_ne_nil n n
  cases hl : natStrFuel (n + 1) n with
  | nil => exact absurd hl hne
  | cons c cs =>
    rw [← hl]
    simp only [hl, List.isEmpty_cons, Bool.false_eq_true, if_false]
    rw [← hl]
    exact foldl_parseStep_natStrFuel (n + 1) n (by omega)

theorem natStr_head_digit (n : Nat) : ∃ c cs, natStr n = c :: cs ∧ isDigit c = true := by
  unfold natStr
  have hne := natStrFuel_ne_nil n n
  cases hl : natStrFuel (n + 1) n with
  | nil => exact absurd hl hne
  | cons c cs =>
    refine ⟨c, cs, rfl, ?_⟩
    apply natStrFuel_digits (n + 1) n
    rw [hl]
    simp

theorem toInt_intStr (i : Int) (h : inInt32 i = true) : toInt (intStr i) = some i := by
  unfold intStr
  by_cases hneg : i < 0
  · simp only [hneg, if_true, toInt, parseNat_natStr]
    have : -(Int.ofNat i.natAbs) = i := by simp only [Int.ofNat_eq_coe]; omega
    rw [this]
    simp [h]
  · simp only [hneg, if_false]
    obtain ⟨c, cs, hcs, hd⟩ := natStr_head_digit i.natAbs
    have hp := parseNat_natStr i.natAbs
    rw [hcs] at hp ⊢
    have hm : c ≠ '-' := by
      intro e; subst e; exact absurd hd (by decide)
    have hpl : c ≠ '+' := by
      intro e; subst e; exact absurd hd (by decide)
    simp only [toInt, hm, hpl, if_false, hp]
    have : Int.ofNat i.natAbs = i := by simp only [Int.ofNat_eq_coe]; omega
    rw [this]
    simp [h]

theorem intStr_isToken (i : Int) : IsToken (intStr i) := by
  unfold intStr IsToken
  have hd : ∀ c ∈ natStr i.natAbs, isSpace c = false :=
    fun c hc => isSpace_of_isDigit c (natStrFuel_digits _ _ c hc)
  obtain ⟨c, cs, hcs, -⟩ := natStr_head_digit i.natAbs
  split_ifs
  · refine ⟨by simp, ?_⟩
    intro c hc
    rcases List.mem_cons.1 hc with rfl | hc
    · decide
    · exact hd c hc
  · exact ⟨by rw [hcs]; simp, hd⟩

theorem dropWhile_spaces_append (sp b : List Char) (h : SpacesOnly sp) :
    (sp ++ b).dropWhile isSpace = b.dropWhile isSpace := by
  induction sp with
  | nil => rfl
  | cons c cs ih =>
    have hc : isSpace c = true := h c (by simp)
    simp only [List.cons_append, List.dropWhile_cons, hc, if_true]
    exact ih (fun d hd => h d (List.mem_cons_of_mem _ hd))

theorem readWord_skip (sp b : List Char) (s : Status) (h : SpacesOnly sp) :
    QTextStream.readWord ⟨sp ++ b, s⟩ = QTextStream.readWord ⟨b, s⟩ := by
  unfold QTextStream.readWord
  simp only [dropWhile_spaces_append sp b h]

theorem takeWhile_token (tok rest : List Char) (h : ∀ c ∈ tok, isSpace c = false) :
    (tok ++ ' ' :: rest).takeWhile (fun ch => !isSpace ch) = tok := by
  induction tok with
  | nil => simp [List.takeWhile, isSpace_blank]
  | cons c cs ih =>
    have hc : isSpace c = false := h c (by simp)
    simp only [List.cons_append, List.takeWhile_cons, hc, Bool.not_false, if_true]
    rw [ih (fun d hd => h d (List.mem_cons_of_mem _ hd))]

theorem dropWhile_token (tok rest : List Char) (h : ∀ c ∈ tok, isSpace c = false) :
    (tok ++ ' ' :: rest).dropWhile (fun ch => !isSpace ch) = ' ' :: rest := by
  induction tok with
  | nil => simp [List.dropWhile, isSpace_blank]
  | cons c cs ih =>
    have hc : isSpace c = false := h c (by simp)
    simp only [List.cons_append, List.dropWhile_cons, hc, Bool.not_false, if_true]
    rw [ih (fun d hd => h d (List.mem_cons_of_mem _ hd))]

theorem readWord_token (sp tok rest : List Char) (s : Status) (hsp : SpacesOnly sp)
    (ht : IsToken tok) :
    QTextStream.readWord ⟨sp ++ (tok ++ ' ' :: rest), s⟩ = (tok, ⟨' ' :: rest, s⟩) := by
  rw [readWord_skip sp _ s hsp]
  obtain ⟨hne, hns⟩ := ht
  cases tok with
  | nil => exact absurd rfl hne
  | cons c cs =>
    have hc : isSpace c = false := hns c (by simp)
    have hd : (c :: cs ++ ' ' :: rest).dropWhile isSpace = c :: (cs ++ ' ' :: rest) := by
      simp [List.dropWhile, hc]
    unfold QTextStream.readWord
    simp only [hd]
    have h1 := takeWhile_token (c :: cs) rest hns
    have h2 := dropWhile_token (c :: cs) rest hns
    simp only [List.cons_append] at h1 h2
    rw [h1, h2]

/-! ## Text fields -/

theorem dropWhile_isSpace_head (s : List Char) (c : Char) (cs : List Char)
    (h : s.dropWhile isSpace = c :: cs) : isSpace c = false := by
  induction s with
  | nil => simp at h
  | cons d ds ih =>
    rw [List.dropWhile_cons] at h
    split_ifs at h with hd
    · exact ih h
    · simp only [List.cons.injEq] at h
      rw [← h.1]
      simpa using hd

theorem takeWhile_notSpace_all (s : List Char) :
    ∀ c ∈ s.takeWhile (fun ch => !isSpace ch), isSpace c = false := by
  intro c hc
  have := List.mem_takeWhile_imp hc
  simpa using this

theorem readWord_buf_length (st : QTextStream) (h : st.buf ≠ []) :
    st.readWord.2.buf.length < st.buf.length := by
  unfold QTextStream.readWord
  cases hd : st.buf.dropWhile isSpace with
  | nil =>
    have hpos : 0 < st.buf.length := List.length_pos.2 h
    simp only [QTextStream.setStatus]
    split_ifs <;> simpa using hpos
  | cons c cs =>
    have hc := dropWhile_isSpace_head st.buf c cs hd
    have h1 : ((c :: cs).dropWhile (fun ch => !isSpace ch)).length ≤ cs.length := by
      rw [List.dropWhile_cons, if_pos (by simp [hc])]
      exact (List.dropWhile_sublist _).length_le
    have h2 : (c :: cs).length ≤ st.buf.length := by
      rw [← hd]
      exact (List.dropWhile_sublist _).length_le
    simp only [List.length_cons] at h2
    simp only
    omega

theorem readTextLoop_fuel (n : Nat) :
    ∀ (m : Nat) (st : QTextStream) (acc : QString), st.buf.length ≤ n → st.buf.length ≤ m →
      readTextLoop n st acc = readTextLoop m st acc := by
  induction n with
  | zero =>
    intro m st acc hn _
    have hb : st.buf = [] := List.length_eq_zero.1 (Nat.le_zero.1 hn)
    cases m with
    | zero => rfl
    | succ k => simp [readTextLoop, QTextStream.atEnd, hb]
  | succ n ih =>
    intro m st acc hn hm
    cases m with
    | zero =>
      have hb : st.buf = [] := List.length_eq_zero.1 (Nat.le_zero.1 hm)
      simp [readTextLoop, QTextStream.atEnd, hb]
    | succ k =>
      unfold readTextLoop
      by_cases he : st.buf = []
      · simp [QTextStream.atEnd, he]
      · have hlt := readWord_buf_length st he
        simp only [QTextStream.atEnd, List.isEmpty_iff, he, if_false]
        split_ifs
        · rfl
        · exact ih k _ _ (by omega) (by omega)

theorem splitWordsFuel_tokens (fuel : Nat) (s : List Char) :
    ∀ w ∈ splitWordsFuel fuel s, IsToken w := by
  induction fuel generalizing s with
  | zero => intro w hw; simp [splitWordsFuel] at hw
  | succ f ih =>
    intro w hw
    unfold splitWordsFuel at hw
    cases hd : s.dropWhile isSpace with
    | nil => simp [hd] at hw
    | cons c cs =>
      simp only [hd, List.mem_cons] at hw
      have hc := dropWhile_isSpace_head s c cs hd
      rcases hw with rfl | hw
      · refine ⟨?_, takeWhile_notSpace_all _⟩
        simp [List.takeWhile, hc]
      · exact ih _ w hw

theorem joinWords_append_blank (ws : List QString) (h : ws ≠ []) :
    joinWords ws ++ [' '] = (ws.map (fun w => w ++ [' '])).flatten := by
  induction ws with
  | nil => exact absurd rfl h
  | cons w ws ih =>
    cases ws with
    | nil => simp [joinWords]
    | cons v vs =>
      have := ih (by simp)
      simp only [joinWords, List.map_cons, List.flatten_cons, List.append_assoc,
        List.cons_append] at this ⊢
      rw [this]
      simp

theorem flatten_blank_words (ws : List QString) (h : ws ≠ []) :
    (ws.map (fun w => ' ' :: w)).flatten = ' ' :: joinWords ws := by
  induction ws with
  | nil => exact absurd rfl h
  | cons w ws ih =>
    cases ws with
    | nil => simp [joinWords]
    | cons v vs =>
      have := ih (by simp)
      simp only [joinWords, List.map_cons, List.flatten_cons, List.cons_append] at this ⊢
      rw [this]

theorem joinWords_head (ws : List QString) (h : ws ≠ []) (ht : ∀ w ∈ ws, IsToken w) :
    ∃ c cs, joinWords ws = c :: cs ∧ isSpace c = false := by
  cases ws with
  | nil => exact absurd rfl h
  | cons w ws =>
    obtain ⟨hne, hns⟩ := ht w (by simp)
    cases w with
    | nil => exact absurd rfl hne
    | cons c cs =>
      have hc := hns c (by simp)
      cases ws with
      | nil => exact ⟨c, cs, rfl, hc⟩
      | cons v vs => exact ⟨c, _, rfl, hc⟩

theorem joinWords_last (ws : List QString) (h : ws ≠ []) (ht : ∀ w ∈ ws, IsToken w) :
    ∃ d tl, (joinWords ws).reverse = d :: tl ∧ isSpace d = false := by
  induction ws with
  | nil => exact absurd rfl h
  | cons w ws ih =>
    cases ws with
    | nil =>
      obtain ⟨hne, hns⟩ := ht w (by simp)
      cases hr : w.reverse with
      | nil => exact absurd (List.reverse_eq_nil_iff.1 hr) hne
      | cons d tl =>
        refine ⟨d, tl, by simpa [joinWords] using hr, ?_⟩
        apply hns
        have : d ∈ w.reverse := by rw [hr]; simp
        simpa using this
    | cons v vs =>
      obtain ⟨d, tl, hd, hsp⟩ := ih (by simp) (fun u hu => ht u (List.mem_cons_of_mem _ hu))
      refine ⟨d, tl ++ ' ' :: w.reverse, ?_, hsp⟩
      simp only [joinWords, List.reverse_append, List.reverse_cons, List.append_assoc] at hd ⊢
      rw [hd]
      simp

theorem trimmed_blank_cons (t : List Char) (c d : Char) (cs tl : List Char)
    (h1 : t = c :: cs) (hc : isSpace c = false) (h2 : t.reverse = d :: tl)
    (hd : isSpace d = false) : trimmed (' ' :: t) = t := by
  unfold trimmed
  have e1 : (' ' :: t).dropWhile isSpace = t := by
    rw [List.dropWhile_cons, if_pos isSpace_blank, h1, List.dropWhile_cons, if_neg (by simp [hc])]
  rw [e1, h2, List.dropWhile_cons, if_neg (by simp [hd]), ← h2, List.reverse_reverse]

theorem word_occurs_in_joinWords (ws : List QString) (w : QString) (h : w ∈ ws) :
    w <:+: joinWords ws := by
  induction ws with
  | nil => simp at h
  | cons u us ih =>
    cases us with
    | nil =>
      have : w = u := by simpa using h
      subst this
      simp [joinWords]
    | cons v vs =>
      rcases List.mem_cons.1 h with rfl | h
      · exact (List.prefix_append _ _).isInfix
      · have hi := ih h
        simp only [joinWords] at hi ⊢
        have hs : joinWords (v :: vs) <:+ u ++ ' ' :: joinWords (v :: vs) :=
          ⟨u ++ [' '], by simp⟩
        exact hi.trans hs.isInfix

theorem containsStr_of_occurs (t pat : QString) (h : pat <:+: t) : containsStr t pat = true := by
  unfold containsStr
  rw [List.any_eq_true]
  obtain ⟨s, hp, hs⟩ := List.infix_iff_prefix_suffix.1 h
  exact ⟨s, (List.mem_tails _ _).2 hs, List.isPrefixOf_iff_prefix.2 hp⟩

theorem readTextLoop_words (ws : List QString)
    (hw : ∀ w ∈ ws, IsToken w ∧ w ≠ "text_end".toList) :
    ∀ (fuel : Nat) (acc sp rest : List Char) (s : Status), SpacesOnly sp → ws.length < fuel →
      readTextLoop fuel
          ⟨sp ++ ((ws.map (fun w => w ++ [' '])).flatten ++ ("text_end".toList ++ ' ' :: rest)), s⟩
          acc
        = (acc ++ (ws.map (fun w => ' ' :: w)).flatten, true, ⟨' ' :: rest, s⟩) := by
  induction ws with
  | nil =>
    intro fuel acc sp rest s hsp hf
    cases fuel with
    | zero => simp at hf
    | succ f =>
      have ht : IsToken "text_end".toList := ⟨by decide, by decide⟩
      have hne : (sp ++ ("text_end".toList ++ ' ' :: rest)) ≠ [] := by
        simp [show "text_end".toList ≠ [] from by decide]
      simp only [List.map_nil, List.flatten_nil, List.nil_append, List.append_nil]
      unfold readTextLoop
      simp only [QTextStream.atEnd, List.isEmpty_iff, hne, if_false,
        readWord_token sp _ rest s hsp ht, if_true]
  | cons w ws ih =>
    intro fuel acc sp rest s hsp hf
    cases fuel with
    | zero => simp at hf
    | succ f =>
      obtain ⟨htok, hnte⟩ := hw w (by simp)
      have hbuf : sp ++ (((w :: ws).map (fun w => w ++ [' '])).flatten ++
            ("text_end".toList ++ ' ' :: rest))
          = sp ++ (w ++ ' ' :: ((ws.map (fun w => w ++ [' '])).flatten ++
            ("text_end".toList ++ ' ' :: rest))) := by
        simp
      have hne : sp ++ (w ++ ' ' :: ((ws.map (fun w => w ++ [' '])).flatten ++
            ("text_end".toList ++ ' ' :: rest))) ≠ [] := by simp
      rw [hbuf]
      unfold readTextLoop
      simp only [QTextStream.atEnd, List.isEmpty_iff, hne, if_false,
        readWord_token sp w _ s hsp htok, hnte]
      have := ih (fun u hu => hw u (List.mem_cons_of_mem _ hu)) f (acc ++ ' ' :: w) [' '] rest s
        spacesOnly_blank (by simpa using hf)
      simp only [List.singleton_append] at this
      rw [this]
      simp

theorem wireSafe_words (n : QString) (h : wireSafe n = true) :
    ∃ ws : List QString, ws ≠ [] ∧ joinWords ws = n ∧
      (∀ w ∈ ws, IsToken w ∧ w ≠ "text_end".toList) ∧
      writeText n = "text_begin".toList ++ ' ' :: (n ++ ' ' :: ("text_end".toList ++ [' '])) := by
  unfold wireSafe at h
  simp only [Bool.and_eq_true, Bool.not_eq_true', decide_eq_true_eq, List.isEmpty_eq_false] at h
  obtain ⟨⟨⟨hb, he⟩, hne⟩, hj⟩ := h
  refine ⟨splitWords n, ?_, hj, ?_, ?_⟩
  · intro e
    rw [e] at hj
    exact hne hj.symm
  · intro w hw
    refine ⟨splitWordsFuel_tokens _ _ w hw, ?_⟩
    intro e
    have hi := word_occurs_in_joinWords _ w hw
    rw [hj, e] at hi
    rw [containsStr_of_occurs _ _ hi] at he
    exact absurd he (by simp)
  · unfold writeText
    simp only [hb, he, Bool.or_false, Bool.false_eq_true, if_false]
    have e1 : "text_begin ".toList = "text_begin".toList ++ [' '] := by decide
    have e2 : " text_end ".toList = ' ' :: ("text_end".toList ++ [' ']) := by decide
    rw [e1, e2]
    simp

theorem readText_writeText (n sp rest : List Char) (hsp : SpacesOnly sp)
    (h : wireSafe n = true) :
    readText ⟨sp ++ (writeText n ++ rest), Status.Ok⟩ = (n, true, ⟨' ' :: rest, Status.Ok⟩) := by
  obtain ⟨ws, hne, hj, hw, hwt⟩ := wireSafe_words n h
  have htb : IsToken "text_begin".toList := ⟨by decide, by decide⟩
  have hbuf : sp ++ (writeText n ++ rest)
      = sp ++ ("text_begin".toList ++ ' ' ::
          ((ws.map (fun w => w ++ [' '])).flatten ++ ("text_end".toList ++ ' ' :: rest))) := by
    rw [hwt, ← joinWords_append_blank ws hne, hj]
    simp
  rw [hbuf]
  unfold readText
  simp only [ne_eq, not_true_eq_false, if_false, readWord_token sp _ _ Status.Ok hsp htb]
  have hl := readTextLoop_words ws hw
    ((ws.map (fun w => w ++ [' '])).flatten ++ ("text_end".toList ++ ' ' :: rest)).length.succ
    [] [' '] rest Status.Ok spacesOnly_blank (by
      have : ws.length ≤ ((ws.map (fun w => w ++ [' '])).flatten).length := by
        clear hne hj hw hwt hbuf
        induction ws with
        | nil => simp
        | cons w ws ih => simp only [List.map_cons, List.flatten_cons, List.length_append,
            List.length_cons, List.length_nil]; omega
      simp only [List.length_append]
      omega)
  simp only [List.singleton_append, List.nil_append] at hl
  simp only [List.length_cons]
  rw [hl, flatten_blank_words ws hne, hj]
  obtain ⟨c, cs, h1, hc⟩ := joinWords_head ws hne (fun w hw' => (hw w hw').1)
  obtain ⟨d, tl, h2, hd⟩ := joinWords_last ws hne (fun w hw' => (hw w hw').1)
  rw [hj] at h1 h2
  rw [trimmed_blank_cons n c d cs tl h1 hc h2 hd]
  simp [h1]

/-! ## Shape codec -/

theorem readWord_token_blank (tok rest : List Char) (s : Status) (ht : IsToken tok) :
    QTextStream.readWord ⟨' ' :: (tok ++ ' ' :: rest), s⟩ = (tok, ⟨' ' :: rest, s⟩) :=
  readWord_token [' '] tok rest s spacesOnly_blank ht

theorem toDoubleDec_readsIntegers : ReadsIntegers toDoubleDec := by
  intro i hi
  have hnd : ∀ c ∈ intStr i, c ≠ '.' := by
    intro c hc
    unfold intStr at hc
    have hd : ∀ c ∈ natStr i.natAbs, c ≠ '.' := by
      intro c hc e
      subst e
      exact absurd (natStrFuel_digits _ _ _ hc) (by decide)
    split_ifs at hc
    · rcases List.mem_cons.1 hc with rfl | hc
      · decide
      · exact hd c hc
    · exact hd c hc
  have ht : (intStr i).takeWhile (fun c => c ≠ '.') = intStr i := by
    rw [List.takeWhile_eq_self_iff]
    intro c hc
    simpa using hnd c hc
  have hdw : (intStr i).dropWhile (fun c => c ≠ '.') = [] := by
    rw [List.dropWhile_eq_nil_iff]
    intro c hc
    simpa using hnd c hc
  unfold toDoubleDec
  rw [ht, hdw]
  simpa using toInt_intStr i hi

theorem toInt_precision : toInt "100000".toList = some 100000 := by decide

theorem readWord_status (st : QTextStream) (h : st.readWord.1 ≠ []) :
    st.readWord.2.status = st.status := by
  unfold QTextStream.readWord at h ⊢
  cases hd : st.buf.dropWhile isSpace with
  | nil => simp [hd] at h
  | cons c cs => simp [hd]

theorem toInt_nil : toInt [] = none := rfl

theorem readWord_nil_buf (st : QTextStream) (h : st.readWord.1 = []) : st.readWord.2.buf = [] := by
  unfold QTextStream.readWord at h ⊢
  cases hd : st.buf.dropWhile isSpace with
  | nil =>
    simp only [QTextStream.setStatus]
    split_ifs <;> rfl
  | cons c cs =>
    have hc := dropWhile_isSpace_head _ _ _ hd
    simp [hd, List.takeWhile, hc] at h

theorem readTextLoop_ok_status (fuel : Nat) :
    ∀ (st : QTextStream) (acc : QString), (readTextLoop fuel st acc).2.1 = true →
      (readTextLoop fuel st acc).2.2.status = st.status := by
  induction fuel with
  | zero => intro st acc h; simp [readTextLoop] at h
  | succ f ih =>
    intro st acc h
    unfold readTextLoop at h ⊢
    by_cases he : st.atEnd = true
    · simp [he] at h
    · simp only [he, Bool.false_eq_true, if_false] at h ⊢
      by_cases hw : st.readWord.1 = "text_end".toList
      · simp only [hw, if_true]
        exact readWord_status st (by rw [hw]; decide)
      · simp only [hw, if_false] at h ⊢
        rw [ih _ _ h]
        by_cases hn : st.readWord.1 = []
        · exfalso
          have hb := readWord_nil_buf st hn
          cases f with
          | zero => simp [readTextLoop] at h
          | succ g =>
            unfold readTextLoop at h
            simp [QTextStream.atEnd, hb] at h
        · exact readWord_status st hn

theorem readText_ok_status (st : QTextStream) (h : (readText st).2.1 = true) :
    (readText st).2.2.status = Status.Ok := by
  unfold readText at h ⊢
  by_cases hs : st.status = Status.Ok
  · simp only [hs, ne_eq, not_true_eq_false, if_false] at h ⊢
    by_cases hb : st.readWord.1 = "text_begin".toList
    · simp only [hb, not_true_eq_false, if_false] at h ⊢
      have h1 : st.readWord.2.status = Status.Ok := by
        rw [readWord_status st (by rw [hb]; decide), hs]
      cases hl : (readTextLoop st.readWord.2.buf.length st.readWord.2 []).2.1 with
      | false => simp [hl] at h
      | true =>
        simp only [hl, Bool.not_true, Bool.false_eq_true, if_false]
        rw [readTextLoop_ok_status _ _ _ hl, h1]
    · simp only [hb, not_false_eq_true, if_true] at h
      exact absurd h (by simp)
  · simp only [hs, ne_eq, not_false_eq_true, if_true] at h
    exact absurd h (by simp)

section Codec

attribute [local irreducible] QTextStream.readWord readText readTextLoop writeText containsStr
  intStr natStr toInt encodePoints encodeShape encodeShapes encodeSheet encodeSheets decodeShape
  readPoints readShapes decodeSheet readSheets wireSafe

theorem readPoints_encode (toDouble : QString → Option Int) (hD : ReadsIntegers toDouble)
    (pts : List QPoint) (hr : ∀ p ∈ pts, inInt32 p.x = true ∧ inInt32 p.y = true) :
    ∀ (acc : List QPoint) (sp rest : List Char), SpacesOnly sp →
      ∃ sp', SpacesOnly sp' ∧
        readPoints toDouble pts.length ⟨sp ++ (encodePoints pts ++ rest), Status.Ok⟩ acc
          = (⟨sp' ++ rest, Status.Ok⟩, acc ++ pts, true) := by
  induction pts with
  | nil =>
    intro acc sp rest hsp
    exact ⟨sp, hsp, by simp [readPoints, encodePoints]⟩
  | cons p ps ih =>
    intro acc sp rest hsp
    obtain ⟨hx, hy⟩ := hr p (by simp)
    obtain ⟨sp', hsp', he⟩ := ih (fun q hq => hr q (List.mem_cons_of_mem _ hq))
      (acc ++ [p]) [' '] rest spacesOnly_blank
    refine ⟨sp', hsp', ?_⟩
    have hbuf : sp ++ (encodePoints (p :: ps) ++ rest)
        = sp ++ (intStr p.x ++ ' ' :: (intStr p.y ++ ' ' :: (encodePoints ps ++ rest))) := by
      simp [encodePoints]
    rw [hbuf]
    simp only [List.length_cons, readPoints, readWord_token sp _ _ _ hsp (intStr_isToken p.x),
      hD p.x hx, readWord_token_blank _ _ _ (intStr_isToken p.y), hD p.y hy]
    simp only [List.singleton_append] at he
    rw [he]
    simp

theorem wireSize_inInt32 (s : Shape) (h : pointsInRange s.points = true) :
    inInt32 s.wireSize = true := by
  unfold pointsInRange at h
  simp only [Bool.and_eq_true, decide_eq_true_eq] at h
  unfold Shape.wireSize inInt32
  split_ifs <;> simp <;> omega

theorem wirePoints_length (s : Shape) : s.wirePoints.length = s.wireSize.toNat := by
  unfold Shape.wirePoints Shape.wireSize
  split_ifs <;> simp

theorem wirePoints_inRange (s : Shape) (h : pointsInRange s.points = true) :
    ∀ p ∈ s.wirePoints, inInt32 p.x = true ∧ inInt32 p.y = true := by
  intro p hp
  unfold pointsInRange at h
  simp only [Bool.and_eq_true, decide_eq_true_eq, List.all_eq_true] at h
  exact h.2 p (List.mem_of_mem_take hp)

theorem decodeShape_encodeShape (toDouble : QString → Option Int) (hD : ReadsIntegers toDouble)
    (s init : Shape) (sp rest : List Char) (hsp : SpacesOnly sp)
    (hn : wireSafe s.name = true) (hr : pointsInRange s.points = true) :
    decodeShape toDouble ⟨sp ++ (encodeShape s ++ rest), Status.Ok⟩ init
      = (⟨' ' :: rest, Status.Ok⟩, (Shape.mk s.name s.wirePoints).ensureClosed true) := by
  have hsb : IsToken "shape_begin".toList := ⟨by decide, by decide⟩
  have hse : IsToken "shape_end".toList := ⟨by decide, by decide⟩
  have e1 : "shape_begin ".toList = "shape_begin".toList ++ [' '] := by decide
  have e2 : "shape_end ".toList = "shape_end".toList ++ [' '] := by decide
  have hbuf : sp ++ (encodeShape s ++ rest)
      = sp ++ ("shape_begin".toList ++ ' ' :: (writeText s.name ++
          (intStr s.wireSize ++ ' ' :: (encodePoints s.wirePoints ++
            ("shape_end".toList ++ ' ' :: rest))))) := by
    unfold encodeShape Shape.wirePoints
    rw [e1, e2]
    simp
  obtain ⟨sp', hsp', hp⟩ := readPoints_encode toDouble hD s.wirePoints (wirePoints_inRange s hr)
    [] [' '] ("shape_end".toList ++ ' ' :: rest) spacesOnly_blank
  rw [wirePoints_length] at hp
  simp only [List.singleton_append, List.nil_append] at hp
  have ht := readText_writeText s.name [' ']
    (intStr s.wireSize ++ ' ' :: (encodePoints s.wirePoints ++
      ("shape_end".toList ++ ' ' :: rest))) spacesOnly_blank hn
  simp only [List.singleton_append] at ht
  rw [hbuf]
  unfold decodeShape
  simp only [ne_eq, not_true_eq_false, if_false, readWord_token sp _ _ _ hsp hsb, ht,
    Bool.not_true, Bool.false_eq_true, readWord_token_blank _ _ _ (intStr_isToken s.wireSize),
    toInt_intStr _ (wireSize_inInt32 s hr), hp, readWord_token sp' _ _ _ hsp' hse]

theorem wirePoints_eq (s : Shape) :
    s.wirePoints = if s.isClosed then s.points.dropLast else s.points := by
  unfold Shape.wirePoints Shape.wireSize
  split_ifs with h
  · rw [List.dropLast_eq_take]
    congr 1
    omega
  · simp

theorem ensureClosed_wirePoints_open (s : Shape) (h : s.isClosed = false) :
    (Shape.mk s.name s.wirePoints).ensureClosed true = s.ensureClosed true := by
  rw [wirePoints_eq, h]
  rfl

theorem ensureClosed_wirePoints_exact (s : Shape) (h : s.wireExact = true) :
    (Shape.mk s.name s.wirePoints).ensureClosed true = s := by
  obtain ⟨name, pts⟩ := s
  unfold Shape.wireExact at h
  simp only [Bool.or_eq_true, List.isEmpty_iff, Bool.and_eq_true, Bool.not_eq_true'] at h
  rcases h with h | ⟨hc, hd⟩
  · subst h
    rfl
  · rw [wirePoints_eq, hc]
    simp only [if_true]
    unfold Shape.isClosed isClosedPts at hc
    simp only [Bool.or_eq_true, beq_iff_eq, Bool.and_eq_true, decide_eq_true_eq] at hc
    rcases hc with hc | ⟨hlen, hfl⟩
    · have : pts = [] := List.length_eq_zero.1 hc
      subst this
      rfl
    · match pts, hlen, hfl, hd with
      | a :: b :: rest, _, hfl, hd =>
        have hlast : (a :: b :: rest).getLast? = some a := by
          rw [← hfl]; rfl
        have hdl := List.dropLast_append_getLast? a hlast
        unfold Shape.ensureClosed Shape.isClosed
        simp only [if_true, hd, Bool.not_false, Bool.true_and]
        have hpos : (a :: b :: rest).dropLast.length > 0 := by simp
        simp only [hpos, decide_True, if_true]
        have hh : (a :: b :: rest).dropLast.head? = some a := by simp [List.dropLast]
        rw [hh]
        simp only [Option.toList_some]
        rw [hdl]

/-- C9 (as amended): for every shape whose name is transported unchanged by the `Text`
encoding and whose coordinates are `qint32` values, the Shape encoder writes the vertex
sequence without its final point when the shape is closed and all points when it is open, and
decoding the written characters leaves the status `Ok` and yields the shape with the same name
whose vertices are the written points after `ensureClosed()`. For an open shape this is the
shape after `ensureClosed()`; for an empty shape and for a closed shape whose sequence without
the final point is not closed on its own it is the shape itself. -/
theorem shape_wire_roundtrip (toDouble : QString → Option Int) (hD : ReadsIntegers toDouble)
    (s init : Shape) (hn : wireSafe s.name = true) (hr : pointsInRange s.points = true) :
    (s.wirePoints = if s.isClosed then s.points.dropLast else s.points) ∧
    (encodeShape s = "shape_begin ".toList ++ writeText s.name ++ intStr s.wireSize ++ ' ' ::
      encodePoints s.wirePoints ++ "shape_end ".toList) ∧
    (decodeShape toDouble ⟨encodeShape s, Status.Ok⟩ init).1.status = Status.Ok ∧
    (decodeShape toDouble ⟨encodeShape s, Status.Ok⟩ init).2
      = (Shape.mk s.name s.wirePoints).ensureClosed true ∧
    (s.isClosed = false →
      (decodeShape toDouble ⟨encodeShape s, Status.Ok⟩ init).2 = s.ensureClosed true) ∧
    (s.wireExact = true →
      (decodeShape toDouble ⟨encodeShape s, Status.Ok⟩ init).2 = s) := by
  have h := decodeShape_encodeShape toDouble hD s init [] [] spacesOnly_nil hn hr
  simp only [List.nil_append, List.append_nil] at h
  rw [h]
  refine ⟨wirePoints_eq s, ?_, rfl, rfl, ensureClosed_wirePoints_open s,
    ensureClosed_wirePoints_exact s⟩
  unfold encodeShape Shape.wirePoints
  rfl

/-! ## Sheet, job, result and metadata codecs -/

theorem decodeShape_encodeShape_decoded (toDouble : QString → Option Int)
    (hD : ReadsIntegers toDouble) (s init : Shape) (sp rest : List Char) (hsp : SpacesOnly sp)
    (hs : s.wireOk = true) :
    decodeShape toDouble ⟨sp ++ (encodeShape s ++ rest), Status.Ok⟩ init
      = (⟨' ' :: rest, Status.Ok⟩, s.decoded) := by
  unfold Shape.wireOk at hs
  simp only [Bool.and_eq_true] at hs
  exact decodeShape_encodeShape toDouble hD s init sp rest hsp hs.1 hs.2

theorem readShapes_encode (toDouble : QString → Option Int) (hD : ReadsIntegers toDouble)
    (shapes : List Shape) (hs : ∀ s ∈ shapes, s.wireOk = true) :
    ∀ (acc : List Shape) (sp rest : List Char), SpacesOnly sp →
      ∃ sp', SpacesOnly sp' ∧
        readShapes toDouble shapes.length ⟨sp ++ (encodeShapes shapes ++ rest), Status.Ok⟩ acc
          = (⟨sp' ++ rest, Status.Ok⟩, acc ++ shapes.map Shape.decoded, true) := by
  induction shapes with
  | nil =>
    intro acc sp rest hsp
    exact ⟨sp, hsp, by simp [readShapes, encodeShapes]⟩
  | cons s ss ih =>
    intro acc sp rest hsp
    obtain ⟨sp', hsp', he⟩ := ih (fun q hq => hs q (List.mem_cons_of_mem _ hq))
      (acc ++ [s.decoded]) [' '] rest spacesOnly_blank
    refine ⟨sp', hsp', ?_⟩
    have hbuf : sp ++ (encodeShapes (s :: ss) ++ rest)
        = sp ++ (encodeShape s ++ (encodeShapes ss ++ rest)) := by
      simp [encodeShapes]
    rw [hbuf]
    simp only [List.length_cons, readShapes,
      decodeShape_encodeShape_decoded toDouble hD s Shape.default sp _ hsp (hs s (by simp)),
      ne_eq, not_true_eq_false, if_false]
    simp only [List.singleton_append] at he
    rw [he]
    simp

theorem length_inInt32 (n : Nat) (h : n ≤ 2147483647) : inInt32 (n : Int) = true := by
  unfold inInt32
  simp
  omega

theorem decodeSheet_encodeSheet (toDouble : QString → Option Int) (hD : ReadsIntegers toDouble)
    (s init : Sheet) (sp rest : List Char) (hsp : SpacesOnly sp) (hs : s.wireOk = true) :
    decodeSheet toDouble ⟨sp ++ (encodeSheet s ++ rest), Status.Ok⟩ init
      = (⟨' ' :: rest, Status.Ok⟩, s.decoded) := by
  unfold Sheet.wireOk at hs
  simp only [Bool.and_eq_true, decide_eq_true_eq, List.all_eq_true] at hs
  obtain ⟨⟨⟨hw, hh⟩, hl⟩, hall⟩ := hs
  have hsb : IsToken "sheet_begin".toList := ⟨by decide, by decide⟩
  have hse : IsToken "sheet_end".toList := ⟨by decide, by decide⟩
  have e1 : "sheet_begin ".toList = "sheet_begin".toList ++ [' '] := by decide
  have e2 : "sheet_end ".toList = "sheet_end".toList ++ [' '] := by decide
  have hbuf : sp ++ (encodeSheet s ++ rest)
      = sp ++ ("sheet_begin".toList ++ ' ' :: (intStr s.width ++ ' ' :: (intStr s.height ++
          ' ' :: (intStr (s.shapes.length : Int) ++ ' ' :: (encodeShapes s.shapes ++
            ("sheet_end".toList ++ ' ' :: rest)))))) := by
    unfold encodeSheet
    rw [e1, e2]
    simp
  obtain ⟨sp', hsp', hp⟩ := readShapes_encode toDouble hD s.shapes hall
    [] [' '] ("sheet_end".toList ++ ' ' :: rest) spacesOnly_blank
  simp only [List.singleton_append, List.nil_append] at hp
  rw [hbuf]
  unfold decodeSheet
  simp only [ne_eq, not_true_eq_false, if_false, readWord_token sp _ _ _ hsp hsb,
    readWord_token_blank _ _ _ (intStr_isToken _), toInt_intStr _ hw, toInt_intStr _ hh,
    toInt_intStr _ (length_inInt32 _ hl), Int.toNat_ofNat, hp, Bool.not_true,
    Bool.false_eq_true, readWord_token sp' _ _ _ hsp' hse]
  rfl

theorem readSheets_encode (toDouble : QString → Option Int) (hD : ReadsIntegers toDouble)
    (sheets : List Sheet) (hs : ∀ s ∈ sheets, s.wireOk = true) :
    ∀ (acc : List Sheet) (sp rest : List Char), SpacesOnly sp →
      ∃ sp', SpacesOnly sp' ∧
        readSheets toDouble sheets.length ⟨sp ++ (encodeSheets sheets ++ rest), Status.Ok⟩ acc
          = (⟨sp' ++ rest, Status.Ok⟩, acc ++ sheets.map Sheet.decoded, true) := by
  induction sheets with
  | nil =>
    intro acc sp rest hsp
    exact ⟨sp, hsp, by simp [readSheets, encodeSheets]⟩
  | cons s ss ih =>
    intro acc sp rest hsp
    obtain ⟨sp', hsp', he⟩ := ih (fun q hq => hs q (List.mem_cons_of_mem _ hq))
      (acc ++ [s.decoded]) [' '] rest spacesOnly_blank
    refine ⟨sp', hsp', ?_⟩
    have hbuf : sp ++ (encodeSheets (s :: ss) ++ rest)
        = sp ++ (encodeSheet s ++ (encodeSheets ss ++ rest)) := by
      simp [encodeSheets]
    rw [hbuf]
    simp only [List.length_cons, readSheets,
      decodeSheet_encodeSheet toDouble hD s Sheet.default sp _ hsp (hs s (by simp)),
      ne_eq, not_true_eq_false, if_false]
    simp only [List.singleton_append] at he
    rw [he]
    simp

theorem map_decoded_exact (shapes : List Shape) (h : ∀ s ∈ shapes, s.wireExact = true) :
    shapes.map Shape.decoded = shapes := by
  induction shapes with
  | nil => rfl
  | cons s ss ih =>
    rw [List.map_cons, ih (fun q hq => h q (List.mem_cons_of_mem _ hq))]
    congr 1
    exact ensureClosed_wirePoints_exact s (h s (by simp))

theorem decodePluginInput_encode (toDouble : QString → Option Int)
    (hD : ReadsIntegers toDouble) (input init : PluginInput) (h : input.wireOk = true) :
    decodePluginInput toDouble ⟨encodePluginInput input, Status.Ok⟩ init
      = (⟨[' '], Status.Ok⟩,
          ⟨input.sheetWidth, input.sheetHeight, input.shapes.map Shape.decoded⟩) := by
  unfold PluginInput.wireOk at h
  simp only [Bool.and_eq_true, decide_eq_true_eq, List.all_eq_true] at h
  obtain ⟨⟨⟨hw, hh⟩, hl⟩, hall⟩ := h
  have t0 : IsToken "plugininput_begin".toList := ⟨by decide, by decide⟩
  have t1 : IsToken "100000".toList := ⟨by decide, by decide⟩
  have t2 : IsToken "shapelist_begin".toList := ⟨by decide, by decide⟩
  have t3 : IsToken "shapelist_end".toList := ⟨by decide, by decide⟩
  have t4 : IsToken "plugininput_end".toList := ⟨by decide, by decide⟩
  have e0 : "plugininput_begin ".toList = "plugininput_begin".toList ++ [' '] := by decide
  have e2 : "shapelist_begin ".toList = "shapelist_begin".toList ++ [' '] := by decide
  have e3 : "shapelist_end ".toList = "shapelist_end".toList ++ [' '] := by decide
  have e4 : "plugininput_end ".toList = "plugininput_end".toList ++ [' '] := by decide
  have hprec := toInt_precision
  have hbuf : encodePluginInput input
      = [] ++ ("plugininput_begin".toList ++ ' ' :: ("100000".toList ++ ' ' ::
          (intStr input.sheetWidth ++ ' ' :: (intStr input.sheetHeight ++ ' ' ::
          (intStr (input.shapes.length : Int) ++ ' ' :: ("shapelist_begin".toList ++ ' ' ::
          (encodeShapes input.shapes ++ ("shapelist_end".toList ++ ' ' ::
          ("plugininput_end".toList ++ ' ' :: []))))))))) := by
    unfold encodePluginInput
    rw [e0, e2, e3, e4]
    simp
  obtain ⟨sp', hsp', hp⟩ := readShapes_encode toDouble hD input.shapes hall
    [] [' '] ("shapelist_end".toList ++ ' ' :: ("plugininput_end".toList ++ ' ' :: []))
    spacesOnly_blank
  simp only [List.singleton_append, List.nil_append] at hp
  rw [hbuf]
  unfold decodePluginInput
  simp only [ne_eq, not_true_eq_false, if_false, readWord_token [] _ _ _ spacesOnly_nil t0,
    readWord_token_blank _ _ _ t1, hprec, BAKERY_PRECISION,
    readWord_token_blank _ _ _ (intStr_isToken _), toInt_intStr _ hw, hD _ hh,
    toInt_intStr _ (length_inInt32 _ hl), Int.toNat_ofNat, readWord_token_blank _ _ _ t2, hp,
    Bool.not_true, Bool.false_eq_true, readWord_token sp' _ _ _ hsp' t3,
    readWord_token_blank _ _ _ t4]

theorem decodePluginOutput_encode (toDouble : QString → Option Int)
    (hD : ReadsIntegers toDouble) (output init : PluginOutput) (h : output.wireOk = true) :
    decodePluginOutput toDouble ⟨encodePluginOutput output, Status.Ok⟩ init
      = (⟨[' '], Status.Ok⟩, ⟨output.sheets.map Sheet.decoded⟩) := by
  unfold PluginOutput.wireOk at h
  simp only [Bool.and_eq_true, decide_eq_true_eq, List.all_eq_true] at h
  obtain ⟨hl, hall⟩ := h
  have t0 : IsToken "pluginoutput_begin".toList := ⟨by decide, by decide⟩
  have t2 : IsToken "sheetlist_begin".toList := ⟨by decide, by decide⟩
  have t3 : IsToken "sheetlist_end".toList := ⟨by decide, by decide⟩
  have t4 : IsToken "pluginoutput_end".toList := ⟨by decide, by decide⟩
  have e0 : "pluginoutput_begin ".toList = "pluginoutput_begin".toList ++ [' '] := by decide
  have e2 : "sheetlist_begin ".toList = "sheetlist_begin".toList ++ [' '] := by decide
  have e3 : "sheetlist_end ".toList = "sheetlist_end".toList ++ [' '] := by decide
  have e4 : "pluginoutput_end ".toList = "pluginoutput_end".toList ++ [' '] := by decide
  have hbuf : encodePluginOutput output
      = [] ++ ("pluginoutput_begin".toList ++ ' ' ::
          (intStr (output.sheets.length : Int) ++ ' ' :: ("sheetlist_begin".toList ++ ' ' ::
          (encodeSheets output.sheets ++ ("sheetlist_end".toList ++ ' ' ::
          ("pluginoutput_end".toList ++ ' ' :: [])))))) := by
    unfold encodePluginOutput
    rw [e0, e2, e3, e4]
    simp
  obtain ⟨sp', hsp', hp⟩ := readSheets_encode toDouble hD output.sheets hall
    [] [' '] ("sheetlist_end".toList ++ ' ' :: ("pluginoutput_end".toList ++ ' ' :: []))
    spacesOnly_blank
  simp only [List.singleton_append, List.nil_append] at hp
  rw [hbuf]
  unfold decodePluginOutput
  simp only [ne_eq, not_true_eq_false, if_false, readWord_token [] _ _ _ spacesOnly_nil t0,
    readWord_token_blank _ _ _ (intStr_isToken _),
    toInt_intStr _ (length_inInt32 _ hl), Int.toNat_ofNat, readWord_token_blank _ _ _ t2, hp,
    Bool.not_true, Bool.false_eq_true, readWord_token sp' _ _ _ hsp' t3,
    readWord_token_blank _ _ _ t4]

theorem readText_writeText_blank (n rest : List Char) (h : wireSafe n = true) :
    readText ⟨' ' :: (writeText n ++ rest), Status.Ok⟩ = (n, true, ⟨' ' :: rest, Status.Ok⟩) :=
  readText_writeText n [' '] rest spacesOnly_blank h

theorem decodePluginMetadata_encode (m init : PluginMetadata)
    (h1 : wireSafe m.uniqueName = true) (h2 : wireSafe m.type = true)
    (h3 : wireSafe m.author = true) (h4 : wireSafe m.license = true) :
    decodePluginMetadata ⟨encodePluginMetadata m, Status.Ok⟩ init = (⟨[' '], Status.Ok⟩, m) := by
  have t0 : IsToken "pluginmetadata_begin".toList := ⟨by decide, by decide⟩
  have t4 : IsToken "pluginmetadata_end".toList := ⟨by decide, by decide⟩
  have e0 : "pluginmetadata_begin ".toList = "pluginmetadata_begin".toList ++ [' '] := by
    decide
  have e4 : "pluginmetadata_end ".toList = "pluginmetadata_end".toList ++ [' '] := by decide
  have hbuf : encodePluginMetadata m
      = [] ++ ("pluginmetadata_begin".toList ++ ' ' :: (writeText m.uniqueName ++
          (writeText m.type ++ (writeText m.author ++ (writeText m.license ++
          ("pluginmetadata_end".toList ++ ' ' :: [])))))) := by
    unfold encodePluginMetadata
    rw [e0, e4]
    simp
  rw [hbuf]
  unfold decodePluginMetadata
  simp only [ne_eq, not_true_eq_false, if_false, readWord_token [] _ _ _ spacesOnly_nil t0,
    readText_writeText_blank _ _ h1, readText_writeText_blank _ _ h2,
    readText_writeText_blank _ _ h3, readText_writeText_blank _ _ h4,
    Bool.not_true, Bool.false_eq_true, readWord_token_blank _ _ _ t4]

/-- C6 (as amended): for every job whose width, height and coordinates are `qint32` values
and whose shape names are transported unchanged by the `Text` encoding, decoding the characters
written by the PluginInput encoder leaves the status `Ok` and yields a job with the same
sheetWidth and sheetHeight and, in the same order, the shapes with their names and their
written points closed again. The decoded job equals the original when every shape is empty or
is closed with a vertex sequence that is not closed without its final point. -/
theorem pluginInput_wire_roundtrip (toDouble : QString → Option Int)
    (hD : ReadsIntegers toDouble) (input init : PluginInput) (h : input.wireOk = true) :
    (decodePluginInput toDouble ⟨encodePluginInput input, Status.Ok⟩ init).1.status
      = Status.Ok ∧
    (decodePluginInput toDouble ⟨encodePluginInput input, Status.Ok⟩ init).2
      = ⟨input.sheetWidth, input.sheetHeight, input.shapes.map Shape.decoded⟩ ∧
    ((∀ s ∈ input.shapes, s.wireExact = true) →
      (decodePluginInput toDouble ⟨encodePluginInput input, Status.Ok⟩ init).2 = input) := by
  rw [decodePluginInput_encode toDouble hD input init h]
  refine ⟨rfl, rfl, ?_⟩
  intro hx
  simp only [map_decoded_exact input.shapes hx]

theorem map_sheet_decoded_exact (sheets : List Sheet)
    (h : ∀ sh ∈ sheets, ∀ s ∈ sh.shapes, s.wireExact = true) :
    sheets.map Sheet.decoded = sheets := by
  induction sheets with
  | nil => rfl
  | cons sh ss ih =>
    rw [List.map_cons, ih (fun q hq => h q (List.mem_cons_of_mem _ hq))]
    congr 1
    unfold Sheet.decoded
    rw [map_decoded_exact sh.shapes (h sh (by simp))]

/-- C7 (as amended): for every result whose widths, heights and coordinates are `qint32`
values and whose shape names are transported unchanged by the `Text` encoding, decoding the
characters written by the PluginOutput encoder leaves the status `Ok` and yields a result with
the same number of sheets, each decoded sheet having the width and height of the original
sheet and, in the same order, its shapes with their names and their written points closed
again. The decoded result equals the original when every shape is empty or is closed with a
vertex sequence that is not closed without its final point. -/
theorem pluginOutput_wire_roundtrip (toDouble : QString → Option Int)
    (hD : ReadsIntegers toDouble) (output init : PluginOutput) (h : output.wireOk = true) :
    (decodePluginOutput toDouble ⟨encodePluginOutput output, Status.Ok⟩ init).1.status
      = Status.Ok ∧
    (decodePluginOutput toDouble ⟨encodePluginOutput output, Status.Ok⟩ init).2.sheets.length
      = output.sheets.length ∧
    (decodePluginOutput toDouble ⟨encodePluginOutput output, Status.Ok⟩ init).2.sheets
      = output.sheets.map
          (fun sh => (⟨sh.width, sh.height, sh.shapes.map Shape.decoded⟩ : Sheet)) ∧
    ((∀ sh ∈ output.sheets, ∀ s ∈ sh.shapes, s.wireExact = true) →
      (decodePluginOutput toDouble ⟨encodePluginOutput output, Status.Ok⟩ init).2 = output) := by
  rw [decodePluginOutput_encode toDouble hD output init h]
  refine ⟨rfl, by simp, rfl, ?_⟩
  intro hx
  simp only [map_sheet_decoded_exact output.sheets hx]

/-- C8 (as amended): for every PluginMetadata whose four strings are transported unchanged by
the `Text` encoding (not empty, no white space at either end, words separated by single
blanks, neither `text_begin` nor `text_end` inside), decoding the characters written by the
PluginMetadata encoder leaves the status `Ok` and yields the four original fields. -/
theorem pluginMetadata_wire_roundtrip (m init : PluginMetadata)
    (h1 : wireSafe m.uniqueName = true) (h2 : wireSafe m.type = true)
    (h3 : wireSafe m.author = true) (h4 : wireSafe m.license = true) :
    (decodePluginMetadata ⟨encodePluginMetadata m, Status.Ok⟩ init).1.status = Status.Ok ∧
    (decodePluginMetadata ⟨encodePluginMetadata m, Status.Ok⟩ init).2 = m := by
  rw [decodePluginMetadata_encode m init h1 h2 h3 h4]
  exact ⟨rfl, rfl⟩

/-- C10: when the first word of the stream is `plugininput_begin` and the word after it, the
precision token, is not read by `toInt` as 100000, the PluginInput decoder ends with status
`ReadCorruptData`, whatever follows. -/
theorem pluginInput_precision_rejected (toDouble : QString → Option Int) (st : QTextStream)
    (init : PluginInput) (h0 : st.status = Status.Ok)
    (h1 : st.readWord.1 = "plugininput_begin".toList)
    (h2 : st.readWord.2.readWord.1 ≠ [])
    (h3 : toInt st.readWord.2.readWord.1 ≠ some BAKERY_PRECISION) :
    (decodePluginInput toDouble st init).1.status = Status.ReadCorruptData := by
  have hne : st.readWord.1 ≠ [] := by
    rw [h1]; decide
  have hs1 : st.readWord.2.status = Status.Ok := by
    rw [readWord_status st hne, h0]
  have hs2 : st.readWord.2.readWord.2.status = Status.Ok := by
    rw [readWord_status _ h2, hs1]
  unfold decodePluginInput
  simp only [h0, ne_eq, not_true_eq_false, if_false, h1]
  cases ht : toInt st.readWord.2.readWord.1 with
  | none =>
    simp only [QTextStream.setStatus, hs2, if_true]
  | some p =>
    have hp : p ≠ BAKERY_PRECISION := by
      intro e
      rw [ht, e] at h3
      exact h3 rfl
    simp only [hp, not_false_eq_true, if_true, QTextStream.setStatus, hs2]

theorem setStatus_corrupt (st : QTextStream) (h : st.status = Status.Ok) :
    (st.setStatus Status.ReadCorruptData).status = Status.ReadCorruptData := by
  simp only [QTextStream.setStatus, h, if_true]

theorem toInt_some_ne_nil (tok : QString) (v : Int) (h : toInt tok = some v) : tok ≠ [] := by
  intro e
  rw [e, toInt_nil] at h
  exact absurd h (by simp)

theorem skipPairs_succ (toDouble : QString → Option Int) (n : Nat) (st st2 : QTextStream)
    (h : skipPairs toDouble (n + 1) st = some st2) :
    st.readWord.1 ≠ [] ∧ toDouble st.readWord.1 ≠ none ∧ st.readWord.2.readWord.1 ≠ [] ∧
      toDouble st.readWord.2.readWord.1 ≠ none ∧
      skipPairs toDouble n st.readWord.2.readWord.2 = some st2 := by
  unfold skipPairs at h
  split_ifs at h with hc
  exact ⟨hc.1, hc.2.1, hc.2.2.1, hc.2.2.2, h⟩

theorem skipPairs_add (toDouble : QString → Option Int) (a b : Nat) :
    ∀ (st st2 : QTextStream), skipPairs toDouble (a + b) st = some st2 →
      ∃ st1, skipPairs toDouble a st = some st1 ∧ skipPairs toDouble b st1 = some st2 := by
  induction a with
  | zero =>
    intro st st2 h
    rw [Nat.zero_add] at h
    exact ⟨st, rfl, h⟩
  | succ a ih =>
    intro st st2 h
    rw [Nat.succ_add] at h
    obtain ⟨h1, h2, h3, h4, h5⟩ := skipPairs_succ toDouble (a + b) st st2 h
    obtain ⟨st1, e1, e2⟩ := ih _ _ h5
    refine ⟨st1, ?_, e2⟩
    unfold skipPairs
    rw [if_pos ⟨h1, h2, h3, h4⟩]
    exact e1

theorem readPoints_add (toDouble : QString → Option Int) (a b : Nat) :
    ∀ (st : QTextStream) (acc : List QPoint) (st2 : QTextStream) (acc2 : List QPoint),
      readPoints toDouble a st acc = (st2, acc2, true) →
      readPoints toDouble (a + b) st acc = readPoints toDouble b st2 acc2 := by
  induction a with
  | zero =>
    intro st acc st2 acc2 h
    simp only [readPoints, Prod.mk.injEq, and_true] at h
    rw [Nat.zero_add, h.1, h.2]
  | succ a ih =>
    intro st acc st2 acc2 h
    rw [Nat.succ_add]
    simp only [readPoints] at h ⊢
    cases hx : toDouble st.readWord.1 with
    | none => simp [hx] at h
    | some x =>
      simp only [hx] at h ⊢
      cases hy : toDouble st.readWord.2.readWord.1 with
      | none => simp [hy] at h
      | some y =>
        simp only [hy] at h ⊢
        exact ih _ _ _ _ h

theorem readPoints_skipPairs (toDouble : QString → Option Int) (n : Nat) :
    ∀ (st st2 : QTextStream) (acc : List QPoint), st.status = Status.Ok →
      skipPairs toDouble n st = some st2 →
      st2.status = Status.Ok ∧
        ∃ pts, readPoints toDouble n st acc = (st2, acc ++ pts, true) := by
  induction n with
  | zero =>
    intro st st2 acc hs h
    simp only [skipPairs, Option.some.injEq] at h
    subst h
    exact ⟨hs, [], by simp [readPoints]⟩
  | succ n ih =>
    intro st st2 acc hs h
    obtain ⟨h1, h2, h3, h4, h5⟩ := skipPairs_succ toDouble n st st2 h
    have s1 : st.readWord.2.status = Status.Ok := by rw [readWord_status st h1, hs]
    have s2 : st.readWord.2.readWord.2.status = Status.Ok := by
      rw [readWord_status _ h3, s1]
    cases hx : toDouble st.readWord.1 with
    | none => exact absurd hx h2
    | some x =>
      cases hy : toDouble st.readWord.2.readWord.1 with
      | none => exact absurd hy h4
      | some y =>
        obtain ⟨hs2, pts, hp⟩ := ih _ st2 (acc ++ [⟨x, y⟩]) s2 h5
        refine ⟨hs2, ⟨x, y⟩ :: pts, ?_⟩
        simp only [readPoints, hx, hy]
        rw [hp]
        simp

theorem readPoints_bad_x (toDouble : QString → Option Int) (st : QTextStream)
    (hs : st.status = Status.Ok) (h1 : st.readWord.1 ≠ []) (h2 : toDouble st.readWord.1 = none)
    (n : Nat) (acc : List QPoint) :
    (readPoints toDouble (n + 1) st acc).1.status = Status.ReadCorruptData ∧
      (readPoints toDouble (n + 1) st acc).2.2 = false := by
  have s1 : st.readWord.2.status = Status.Ok := by rw [readWord_status st h1, hs]
  simp only [readPoints, h2]
  exact ⟨setStatus_corrupt _ s1, trivial⟩

theorem readPoints_bad_y (toDouble : QString → Option Int) (st : QTextStream)
    (hs : st.status = Status.Ok) (h1 : st.readWord.1 ≠ []) (h2 : toDouble st.readWord.1 ≠ none)
    (h3 : st.readWord.2.readWord.1 ≠ []) (h4 : toDouble st.readWord.2.readWord.1 = none)
    (n : Nat) (acc : List QPoint) :
    (readPoints toDouble (n + 1) st acc).1.status = Status.ReadCorruptData ∧
      (readPoints toDouble (n + 1) st acc).2.2 = false := by
  have s1 : st.readWord.2.status = Status.Ok := by rw [readWord_status st h1, hs]
  have s2 : st.readWord.2.readWord.2.status = Status.Ok := by
    rw [readWord_status _ h3, s1]
  cases hx : toDouble st.readWord.1 with
  | none => exact absurd hx h2
  | some x =>
    simp only [readPoints, hx, h4]
    exact ⟨setStatus_corrupt _ s2, trivial⟩

theorem decodeShape_reaches_count (toDouble : QString → Option Int) (st : QTextStream)
    (init : Shape) (k : Int) (h0 : st.status = Status.Ok)
    (h1 : st.readWord.1 = "shape_begin".toList)
    (h2 : (readText st.readWord.2).2.1 = true)
    (h3 : toInt (readText st.readWord.2).2.2.readWord.1 = some k) :
    (readText st.readWord.2).2.2.readWord.2.status = Status.Ok ∧
    decodeShape toDouble st init =
      (let p := readPoints toDouble k.toNat (readText st.readWord.2).2.2.readWord.2 []
       if !p.2.2 then (p.1, ⟨(readText st.readWord.2).1, p.2.1⟩)
       else
         let shape2 := (Shape.mk (readText st.readWord.2).1 p.2.1).ensureClosed true
         let r2 := p.1.readWord
         if r2.1 ≠ "shape_end".toList then (r2.2.setStatus Status.ReadCorruptData, shape2)
         else (r2.2, shape2)) := by
  refine ⟨by rw [readWord_status _ (toInt_some_ne_nil _ _ h3), readText_ok_status _ h2], ?_⟩
  unfold decodeShape
  simp only [h0, ne_eq, not_true_eq_false, if_false, h1, h2, Bool.not_true, Bool.false_eq_true,
    h3]

theorem decodeShape_status_ok_iff (toDouble : QString → Option Int)
    (hEnd : toDouble "shape_end".toList = none) (st : QTextStream) (init : Shape) (k : Int)
    (m : Nat) (st2 : QTextStream)
    (h0 : st.status = Status.Ok)
    (h1 : st.readWord.1 = "shape_begin".toList)
    (h2 : (readText st.readWord.2).2.1 = true)
    (h3 : toInt (readText st.readWord.2).2.2.readWord.1 = some k)
    (h4 : skipPairs toDouble m (readText st.readWord.2).2.2.readWord.2 = some st2)
    (h5 : st2.readWord.1 = "shape_end".toList) :
    ((decodeShape toDouble st init).1.status = Status.Ok ↔ k.toNat = m) := by
  have hse : "shape_end".toList ≠ [] := by decide
  obtain ⟨hs, hd⟩ := decodeShape_reaches_count toDouble st init k h0 h1 h2 h3
  rw [hd]
  rcases Nat.lt_or_ge m k.toNat with hlt | hge
  · obtain ⟨hs2, pts, hp⟩ := readPoints_skipPairs toDouble m _ st2 [] hs h4
    obtain ⟨e, he⟩ : ∃ e, k.toNat = m + (e + 1) := ⟨k.toNat - m - 1, by omega⟩
    obtain ⟨e1, e2⟩ := readPoints_bad_x toDouble st2 hs2 (by rw [h5]; exact hse)
      (by rw [h5]; exact hEnd) e ([] ++ pts)
    rw [he, readPoints_add toDouble m (e + 1) _ _ _ _ hp]
    simp only [e2, Bool.not_false, if_true, e1]
    constructor
    · intro h; exact absurd h (by decide)
    · intro h; omega
  · obtain ⟨d, hdm⟩ : ∃ d, m = k.toNat + d := ⟨m - k.toNat, by omega⟩
    rw [hdm] at h4
    obtain ⟨st1, a1, a2⟩ := skipPairs_add toDouble k.toNat d _ _ h4
    obtain ⟨hs1, pts, hp⟩ := readPoints_skipPairs toDouble k.toNat _ st1 [] hs a1
    simp only [hp, Bool.not_true, Bool.false_eq_true, if_false]
    cases d with
    | zero =>
      simp only [skipPairs, Option.some.injEq] at a2
      subst a2
      have hs3 : st1.readWord.2.status = Status.Ok := by
        rw [readWord_status st1 (by rw [h5]; exact hse), hs1]
      simp only [h5, ne_eq, not_true_eq_false, if_false, hs3, true_iff]
      omega
    | succ d =>
      obtain ⟨b1, b2, -, -, -⟩ := skipPairs_succ toDouble d st1 st2 a2
      have hne : st1.readWord.1 ≠ "shape_end".toList := by
        intro e
        rw [e] at b2
        exact b2 hEnd
      have hs3 : st1.readWord.2.status = Status.Ok := by
        rw [readWord_status st1 b1, hs1]
      simp only [ne_eq, hne, not_false_eq_true, if_true, setStatus_corrupt _ hs3]
      constructor
      · intro h; exact absurd h (by decide)
      · intro h; omega

theorem decodeShape_bad_count (toDouble : QString → Option Int) (st : QTextStream)
    (init : Shape) (h0 : st.status = Status.Ok)
    (h1 : st.readWord.1 = "shape_begin".toList)
    (h2 : (readText st.readWord.2).2.1 = true)
    (h3 : (readText st.readWord.2).2.2.readWord.1 ≠ [])
    (h4 : toInt (readText st.readWord.2).2.2.readWord.1 = none) :
    (decodeShape toDouble st init).1.status = Status.ReadCorruptData := by
  have hs : (readText st.readWord.2).2.2.readWord.2.status = Status.Ok := by
    rw [readWord_status _ h3, readText_ok_status _ h2]
  unfold decodeShape
  simp only [h0, ne_eq, not_true_eq_false, if_false, h1, h2, Bool.not_true, Bool.false_eq_true,
    h4]
  exact setStatus_corrupt _ hs

theorem decodeShape_bad_x (toDouble : QString → Option Int) (st : QTextStream) (init : Shape)
    (k : Int) (j : Nat) (st2 : QTextStream)
    (h0 : st.status = Status.Ok)
    (h1 : st.readWord.1 = "shape_begin".toList)
    (h2 : (readText st.readWord.2).2.1 = true)
    (h3 : toInt (readText st.readWord.2).2.2.readWord.1 = some k)
    (h4 : skipPairs toDouble j (readText st.readWord.2).2.2.readWord.2 = some st2)
    (hk : j < k.toNat) (h5 : st2.readWord.1 ≠ []) (h6 : toDouble st2.readWord.1 = none) :
    (decodeShape toDouble st init).1.status = Status.ReadCorruptData := by
  obtain ⟨hs, hd⟩ := decodeShape_reaches_count toDouble st init k h0 h1 h2 h3
  obtain ⟨hs2, pts, hp⟩ := readPoints_skipPairs toDouble j _ st2 [] hs h4
  obtain ⟨e, he⟩ : ∃ e, k.toNat = j + (e + 1) := ⟨k.toNat - j - 1, by omega⟩
  obtain ⟨e1, e2⟩ := readPoints_bad_x toDouble st2 hs2 h5 h6 e ([] ++ pts)
  rw [hd, he, readPoints_add toDouble j (e + 1) _ _ _ _ hp]
  simp only [e2, Bool.not_false, if_true, e1]

theorem decodeShape_bad_y (toDouble : QString → Option Int) (st : QTextStream) (init : Shape)
    (k : Int) (j : Nat) (st2 : QTextStream)
    (h0 : st.status = Status.Ok)
    (h1 : st.readWord.1 = "shape_begin".toList)
    (h2 : (readText st.readWord.2).2.1 = true)
    (h3 : toInt (readText st.readWord.2).2.2.readWord.1 = some k)
    (h4 : skipPairs toDouble j (readText st.readWord.2).2.2.readWord.2 = some st2)
    (hk : j < k.toNat) (h5 : st2.readWord.1 ≠ []) (h6 : toDouble st2.readWord.1 ≠ none)
    (h7 : st2.readWord.2.readWord.1 ≠ []) (h8 : toDouble st2.readWord.2.readWord.1 = none) :
    (decodeShape toDouble st init).1.status = Status.ReadCorruptData := by
  obtain ⟨hs, hd⟩ := decodeShape_reaches_count toDouble st init k h0 h1 h2 h3
  obtain ⟨hs2, pts, hp⟩ := readPoints_skipPairs toDouble j _ st2 [] hs h4
  obtain ⟨e, he⟩ : ∃ e, k.toNat = j + (e + 1) := ⟨k.toNat - j - 1, by omega⟩
  obtain ⟨e1, e2⟩ := readPoints_bad_y toDouble st2 hs2 h5 h6 h7 h8 e ([] ++ pts)
  rw [hd, he, readPoints_add toDouble j (e + 1) _ _ _ _ hp]
  simp only [e2, Bool.not_false, if_true, e1]

theorem decodeSheet_bad_width (toDouble : QString → Option Int) (st : QTextStream)
    (init : Sheet) (h0 : st.status = Status.Ok)
    (h1 : st.readWord.1 = "sheet_begin".toList)
    (h2 : st.readWord.2.readWord.1 ≠ [])
    (h3 : toInt st.readWord.2.readWord.1 = none) :
    (decodeSheet toDouble st init).1.status = Status.ReadCorruptData := by
  have hs1 : st.readWord.2.status = Status.Ok := by
    rw [readWord_status st (by rw [h1]; decide), h0]
  have hs2 : st.readWord.2.readWord.2.status = Status.Ok := by
    rw [readWord_status _ h2, hs1]
  unfold decodeSheet
  simp only [h0, ne_eq, not_true_eq_false, if_false, h1, h3]
  exact setStatus_corrupt _ hs2

theorem decodeSheet_bad_height (toDouble : QString → Option Int) (st : QTextStream)
    (init : Sheet) (w : Int) (h0 : st.status = Status.Ok)
    (h1 : st.readWord.1 = "sheet_begin".toList)
    (h2 : toInt st.readWord.2.readWord.1 = some w)
    (h3 : st.readWord.2.readWord.2.readWord.1 ≠ [])
    (h4 : toInt st.readWord.2.readWord.2.readWord.1 = none) :
    (decodeSheet toDouble st init).1.status = Status.ReadCorruptData := by
  have hs1 : st.readWord.2.status = Status.Ok := by
    rw [readWord_status st (by rw [h1]; decide), h0]
  have hs2 : st.readWord.2.readWord.2.status = Status.Ok := by
    rw [readWord_status _ (toInt_some_ne_nil _ _ h2), hs1]
  have hs3 : st.readWord.2.readWord.2.readWord.2.status = Status.Ok := by
    rw [readWord_status _ h3, hs2]
  unfold decodeSheet
  simp only [h0, ne_eq, not_true_eq_false, if_false, h1, h2, h4]
  exact setStatus_corrupt _ hs3

theorem decodeSheet_bad_count (toDouble : QString → Option Int) (st : QTextStream)
    (init : Sheet) (w h : Int) (h0 : st.status = Status.Ok)
    (h1 : st.readWord.1 = "sheet_begin".toList)
    (h2 : toInt st.readWord.2.readWord.1 = some w)
    (h3 : toInt st.readWord.2.readWord.2.readWord.1 = some h)
    (h4 : st.readWord.2.readWord.2.readWord.2.readWord.1 ≠ [])
    (h5 : toInt st.readWord.2.readWord.2.readWord.2.readWord.1 = none) :
    (decodeSheet toDouble st init).1.status = Status.ReadCorruptData := by
  have hs1 : st.readWord.2.status = Status.Ok := by
    rw [readWord_status st (by rw [h1]; decide), h0]
  have hs2 : st.readWord.2.readWord.2.status = Status.Ok := by
    rw [readWord_status _ (toInt_some_ne_nil _ _ h2), hs1]
  have hs3 : st.readWord.2.readWord.2.readWord.2.status = Status.Ok := by
    rw [readWord_status _ (toInt_some_ne_nil _ _ h3), hs2]
  have hs4 : st.readWord.2.readWord.2.readWord.2.readWord.2.status = Status.Ok := by
    rw [readWord_status _ h4, hs3]
  unfold decodeSheet
  simp only [h0, ne_eq, not_true_eq_false, if_false, h1, h2, h3, h5]
  exact setStatus_corrupt _ hs4

theorem decodePluginInput_bad_width (toDouble : QString → Option Int) (st : QTextStream)
    (init : PluginInput) (h0 : st.status = Status.Ok)
    (h1 : st.readWord.1 = "plugininput_begin".toList)
    (h2 : toInt st.readWord.2.readWord.1 = some BAKERY_PRECISION)
    (h3 : st.readWord.2.readWord.2.readWord.1 ≠ [])
    (h4 : toInt st.readWord.2.readWord.2.readWord.1 = none) :
    (decodePluginInput toDouble st init).1.status = Status.ReadCorruptData := by
  have hs1 : st.readWord.2.status = Status.Ok := by
    rw [readWord_status st (by rw [h1]; decide), h0]
  have hs2 : st.readWord.2.readWord.2.status = Status.Ok := by
    rw [readWord_status _ (toInt_some_ne_nil _ _ h2), hs1]
  have hs3 : st.readWord.2.readWord.2.readWord.2.status = Status.Ok := by
    rw [readWord_status _ h3, hs2]
  unfold decodePluginInput
  simp only [h0, ne_eq, not_true_eq_false, if_false, h1, h2, h4]
  exact setStatus_corrupt _ hs3

theorem decodePluginInput_bad_count (toDouble : QString → Option Int) (st : QTextStream)
    (init : PluginInput) (w h : Int) (h0 : st.status = Status.Ok)
    (h1 : st.readWord.1 = "plugininput_begin".toList)
    (h2 : toInt st.readWord.2.readWord.1 = some BAKERY_PRECISION)
    (h3 : toInt st.readWord.2.readWord.2.readWord.1 = some w)
    (h4 : st.readWord.2.readWord.2.readWord.2.readWord.1 ≠ [])
    (h5 : toDouble st.readWord.2.readWord.2.readWord.2.readWord.1 = some h)
    (h6 : st.readWord.2.readWord.2.readWord.2.readWord.2.readWord.1 ≠ [])
    (h7 : toInt st.readWord.2.readWord.2.readWord.2.readWord.2.readWord.1 = none) :
    (decodePluginInput toDouble st init).1.status = Status.ReadCorruptData := by
  have hs1 : st.readWord.2.status = Status.Ok := by
    rw [readWord_status st (by rw [h1]; decide), h0]
  have hs2 : st.readWord.2.readWord.2.status = Status.Ok := by
    rw [readWord_status _ (toInt_some_ne_nil _ _ h2), hs1]
  have hs3 : st.readWord.2.readWord.2.readWord.2.status = Status.Ok := by
    rw [readWord_status _ (toInt_some_ne_nil _ _ h3), hs2]
  have hs4 : st.readWord.2.readWord.2.readWord.2.readWord.2.status = Status.Ok := by
    rw [readWord_status _ h4, hs3]
  have hs5 : st.readWord.2.readWord.2.readWord.2.readWord.2.readWord.2.status = Status.Ok := by
    rw [readWord_status _ h6, hs4]
  unfold decodePluginInput
  simp only [h0, ne_eq, not_true_eq_false, if_false, h1, h2, h3, h5, h7]
  exact setStatus_corrupt _ hs5

/-- C11 (as amended): take a stream on which the Shape decoder reads `shape_begin`, a text and
a point count `k`, and on which `m` coordinate pairs (pairs of words that `toDouble` reads)
follow before the word `shape_end`. The decoder reads `max(k, 0)` pairs, so it ends with a
status other than `Ok` when `0 ≤ k` and `k ≠ m`, and when `k < 0` and `m ≠ 0`; when `k < 0` and
no pair precedes `shape_end`, and when `k = m`, it ends with status `Ok`. -/
theorem decodeShape_count_mismatch (toDouble : QString → Option Int)
    (hEnd : toDouble "shape_end".toList = none) (st : QTextStream) (init : Shape) (k : Int)
    (m : Nat) (st2 : QTextStream)
    (h0 : st.status = Status.Ok)
    (h1 : st.readWord.1 = "shape_begin".toList)
    (h2 : (readText st.readWord.2).2.1 = true)
    (h3 : toInt (readText st.readWord.2).2.2.readWord.1 = some k)
    (h4 : skipPairs toDouble m (readText st.readWord.2).2.2.readWord.2 = some st2)
    (h5 : st2.readWord.1 = "shape_end".toList) :
    (0 ≤ k → k ≠ (m : Int) → (decodeShape toDouble st init).1.status ≠ Status.Ok) ∧
    (k < 0 → m ≠ 0 → (decodeShape toDouble st init).1.status ≠ Status.Ok) ∧
    (k < 0 → m = 0 → (decodeShape toDouble st init).1.status = Status.Ok) ∧
    (k = (m : Int) → (decodeShape toDouble st init).1.status = Status.Ok) := by
  have hiff := decodeShape_status_ok_iff toDouble hEnd st init k m st2 h0 h1 h2 h3 h4 h5
  refine ⟨?_, ?_, ?_, ?_⟩
  · intro hk hne hs
    have := hiff.1 hs
    omega
  · intro hk hne hs
    have h := hiff.1 hs
    omega
  · intro hk he
    apply hiff.2
    omega
  · intro hk
    apply hiff.2
    omega

/-- C12 (as amended): a point count, a sheet width of either decoder, a Sheet height and a
shape count that `toInt` does not read, and a point coordinate that `toDouble` does not read,
make the Shape, Sheet and PluginInput decoders end with status `ReadCorruptData`. Each part
takes a stream on which the decoder reaches the field with the fields before it read, and a
field token that is not empty. -/
theorem decoders_reject_unparsable_number (toDouble : QString → Option Int) :
    (∀ (st : QTextStream) (init : Shape), st.status = Status.Ok →
      st.readWord.1 = "shape_begin".toList → (readText st.readWord.2).2.1 = true →
      (readText st.readWord.2).2.2.readWord.1 ≠ [] →
      toInt (readText st.readWord.2).2.2.readWord.1 = none →
      (decodeShape toDouble st init).1.status = Status.ReadCorruptData) ∧
    (∀ (st : QTextStream) (init : Shape) (k : Int) (j : Nat) (st2 : QTextStream),
      st.status = Status.Ok →
      st.readWord.1 = "shape_begin".toList → (readText st.readWord.2).2.1 = true →
      toInt (readText st.readWord.2).2.2.readWord.1 = some k →
      skipPairs toDouble j (readText st.readWord.2).2.2.readWord.2 = some st2 →
      j < k.toNat → st2.readWord.1 ≠ [] → toDouble st2.readWord.1 = none →
      (decodeShape toDouble st init).1.status = Status.ReadCorruptData) ∧
    (∀ (st : QTextStream) (init : Shape) (k : Int) (j : Nat) (st2 : QTextStream),
      st.status = Status.Ok →
      st.readWord.1 = "shape_begin".toList → (readText st.readWord.2).2.1 = true →
      toInt (readText st.readWord.2).2.2.readWord.1 = some k →
      skipPairs toDouble j (readText st.readWord.2).2.2.readWord.2 = some st2 →
      j < k.toNat → st2.readWord.1 ≠ [] → toDouble st2.readWord.1 ≠ none →
      st2.readWord.2.readWord.1 ≠ [] → toDouble st2.readWord.2.readWord.1 = none →
      (decodeShape toDouble st init).1.status = Status.ReadCorruptData) ∧
    (∀ (st : QTextStream) (init : Sheet), st.status = Status.Ok →
      st.readWord.1 = "sheet_begin".toList → st.readWord.2.readWord.1 ≠ [] →
      toInt st.readWord.2.readWord.1 = none →
      (decodeSheet toDouble st init).1.status = Status.ReadCorruptData) ∧
    (∀ (st : QTextStream) (init : Sheet) (w : Int), st.status = Status.Ok →
      st.readWord.1 = "sheet_begin".toList → toInt st.readWord.2.readWord.1 = some w →
      st.readWord.2.readWord.2.readWord.1 ≠ [] →
      toInt st.readWord.2.readWord.2.readWord.1 = none →
      (decodeSheet toDouble st init).1.status = Status.ReadCorruptData) ∧
    (∀ (st : QTextStream) (init : Sheet) (w h : Int), st.status = Status.Ok →
      st.readWord.1 = "sheet_begin".toList → toInt st.readWord.2.readWord.1 = some w →
      toInt st.readWord.2.readWord.2.readWord.1 = some h →
      st.readWord.2.readWord.2.readWord.2.readWord.1 ≠ [] →
      toInt st.readWord.2.readWord.2.readWord.2.readWord.1 = none →
      (decodeSheet toDouble st init).1.status = Status.ReadCorruptData) ∧
    (∀ (st : QTextStream) (init : PluginInput), st.status = Status.Ok →
      st.readWord.1 = "plugininput_begin".toList →
      toInt st.readWord.2.readWord.1 = some BAKERY_PRECISION →
      st.readWord.2.readWord.2.readWord.1 ≠ [] →
      toInt st.readWord.2.readWord.2.readWord.1 = none →
      (decodePluginInput toDouble st init).1.status = Status.ReadCorruptData) ∧
    (∀ (st : QTextStream) (init : PluginInput) (w h : Int), st.status = Status.Ok →
      st.readWord.1 = "plugininput_begin".toList →
      toInt st.readWord.2.readWord.1 = some BAKERY_PRECISION →
      toInt st.readWord.2.readWord.2.readWord.1 = some w →
      st.readWord.2.readWord.2.readWord.2.readWord.1 ≠ [] →
      toDouble st.readWord.2.readWord.2.readWord.2.readWord.1 = some h →
      st.readWord.2.readWord.2.readWord.2.readWord.2.readWord.1 ≠ [] →
      toInt st.readWord.2.readWord.2.readWord.2.readWord.2.readWord.1 = none →
      (decodePluginInput toDouble st init).1.status = Status.ReadCorruptData) :=
  ⟨fun st init => decodeShape_bad_count toDouble st init,
    fun st init k j st2 => decodeShape_bad_x toDouble st init k j st2,
    fun st init k j st2 => decodeShape_bad_y toDouble st init k j st2,
    fun st init => decodeSheet_bad_width toDouble st init,
    fun st init w => decodeSheet_bad_height toDouble st init w,
    fun st init w h => decodeSheet_bad_count toDouble st init w h,
    fun st init => decodePluginInput_bad_width toDouble st init,
    fun st init w h => decodePluginInput_bad_count toDouble st init w h⟩

end Codec

/-! ## Score and best result -/

theorem utilitization_eq (s : Sheet) :
    s.utilitization
      = if s.area = 0 then none else some ((s.shapesArea : ℚ) / (s.area : ℚ)) := by
  unfold Sheet.utilitization QReal.div
  by_cases h : s.area = 0
  · simp [h]
  · have : ((s.area : Int) : ℚ) ≠ 0 := by exact_mod_cast h
    simp [h, this]

theorem foldl_utilitization (sheets : List Sheet) (a : ℚ) :
    sheets.foldl (fun u sheet => QReal.add u sheet.utilitization) (some a)
      = if sheets.all (fun s => decide (s.area ≠ 0)) then
          some (a + (sheets.map (fun s => (s.shapesArea : ℚ) / (s.area : ℚ))).sum)
        else none := by
  induction sheets generalizing a with
  | nil => simp
  | cons s ss ih =>
    rw [List.foldl_cons, utilitization_eq]
    by_cases h : s.area = 0
    · rw [if_pos h]
      have hnone : ∀ l : List Sheet,
          l.foldl (fun u sheet => QReal.add u sheet.utilitization) none = none := by
        intro l
        induction l with
        | nil => rfl
        | cons t ts iht => simpa [QReal.add] using iht
      have h1 : QReal.add (some a) none = none := rfl
      rw [h1, hnone]
      simp [h]
    · rw [if_neg h]
      have h2 : QReal.add (some a) (some ((s.shapesArea : ℚ) / (s.area : ℚ)))
          = some (a + (s.shapesArea : ℚ) / (s.area : ℚ)) := rfl
      rw [h2, ih]
      simp [h, add_assoc]

/-- C5: `BakeryPlugins::outputScore` is 0 for a result without sheets and otherwise 100 times
the arithmetic mean over the sheets of `Sheet::utilitization()`, which is
`shapesArea() / area()`; the values are taken in exact arithmetic, and the score is not finite
exactly when some sheet has area 0. -/
theorem outputScore_eq_mean (output : PluginOutput) :
    (output.sheets = [] → outputScore output = some 0) ∧
    (output.sheets ≠ [] →
      outputScore output = QReal.mul (some 100) (meanUtilization output.sheets)) ∧
    (∀ s : Sheet, s.utilitization
      = QReal.div (some (s.shapesArea : ℚ)) (some (s.area : ℚ))) ∧
    (∀ s : Sheet, s.area ≠ 0 → s.utilitization = some ((s.shapesArea : ℚ) / (s.area : ℚ))) := by
  refine ⟨?_, ?_, fun s => rfl, ?_⟩
  · intro h
    simp [outputScore, h]
  · intro h
    have hne : output.sheets.isEmpty = false := by
      cases hs : output.sheets with
      | nil => exact absurd hs h
      | cons a l => rfl
    have hlen : ((output.sheets.length : ℕ) : ℚ) ≠ 0 := by
      have : output.sheets.length ≠ 0 := fun e => h (List.length_eq_zero.1 e)
      exact_mod_cast this
    unfold outputScore meanUtilization
    rw [foldl_utilitization]
    by_cases hall : output.sheets.all (fun s => decide (s.area ≠ 0)) = true
    · simp only [hne, Bool.false_eq_true, if_false, hall, if_true, QReal.mul, QReal.div, hlen,
        zero_add, Option.some.injEq]
      ring
    · simp only [hne, Bool.false_eq_true, if_false, hall, QReal.mul, QReal.div]
  · intro s hs
    rw [utilitization_eq, if_neg hs]

theorem pairwise_le_getLast {α S : Type} [LinearOrder S] (f : α → S) (l : List α)
    (hp : l.Pairwise (fun a b => f a ≤ f b)) (d : α) :
    ∀ x ∈ l, f x ≤ f (l.getLastD d) := by
  intro x hx
  induction l generalizing d with
  | nil => simp at hx
  | cons a rest ih =>
    cases rest with
    | nil =>
      have : x = a := by simpa using hx
      subst this
      simp
    | cons b bs =>
      rw [List.pairwise_cons] at hp
      have hlast : (a :: b :: bs).getLastD d = (b :: bs).getLastD a := by
        simp [List.getLastD]
      rw [hlast]
      rcases List.mem_cons.1 hx with rfl | hx
      · have hm : (b :: bs).getLastD x ∈ b :: bs := by
          simp only [List.getLastD_cons]
          cases bs with
          | nil => simp
          | cons c cs =>
            have := List.getLast_mem (l := c :: cs) (by simp)
            simp only [List.getLastD_cons]
            rw [← List.getLast_eq_getLastD] 
            exact List.mem_cons_of_mem _ this
        exact hp.1 _ hm
      · exact ih hp.2 a hx

theorem getLastD_mem {α : Type} (l : List α) (d : α) (h : l ≠ []) : l.getLastD d ∈ l := by
  cases l with
  | nil => exact absurd rfl h
  | cons a rest =>
    rw [List.getLastD_cons, ← List.getLast_eq_getLastD a rest]
    exact List.getLast_mem (by simp)

theorem unguardedLinearInsert_perm {α : Type} (comp : α → α → Bool) (val : α) (l : List α) :
    (unguardedLinearInsert comp val l).Perm (val :: l) := by
  induction l with
  | nil => simp [unguardedLinearInsert]
  | cons next rest ih =>
    unfold unguardedLinearInsert
    split_ifs
    · exact (List.Perm.cons next ih).trans (List.Perm.swap val next rest)
    · exact List.Perm.refl _

theorem insertionStep_perm {α : Type} (comp : α → α → Bool) (sorted : List α) (val : α) :
    (insertionStep comp sorted val).Perm (val :: sorted) := by
  unfold insertionStep
  cases sorted with
  | nil => simp
  | cons first rest =>
    simp only
    split_ifs
    · exact List.Perm.refl _
    · exact (List.reverse_perm _).trans
        ((unguardedLinearInsert_perm comp val _).trans
          (List.Perm.cons val (List.reverse_perm _)))

theorem foldl_insertionStep_perm {α : Type} (comp : α → α → Bool) (l acc : List α) :
    (l.foldl (insertionStep comp) acc).Perm (acc ++ l) := by
  induction l generalizing acc with
  | nil => simp
  | cons a rest ih =>
    rw [List.foldl_cons]
    refine (ih _).trans ?_
    have h1 := insertionStep_perm comp acc a
    have h2 : (a :: acc).Perm (acc ++ [a]) := by
      simpa using (@List.perm_append_comm _ [a] acc)
    have h3 := (h1.trans h2).append_right rest
    simpa using h3

theorem unguardedLinearInsert_sorted {α S : Type} [LinearOrder S] (f : α → S) (val : α)
    (l : List α) (h : l.Pairwise (fun a b => f b ≤ f a)) :
    (unguardedLinearInsert (fun a b => decide (f a ≤ f b)) val l).Pairwise
      (fun a b => f b ≤ f a) := by
  induction l with
  | nil => simp [unguardedLinearInsert]
  | cons next rest ih =>
    rw [List.pairwise_cons] at h
    unfold unguardedLinearInsert
    by_cases hc : f val ≤ f next
    · simp only [hc, decide_True, if_true, List.pairwise_cons]
      refine ⟨?_, ih h.2⟩
      intro x hx
      have := (unguardedLinearInsert_perm (fun a b => decide (f a ≤ f b)) val rest).subset hx
      rcases List.mem_cons.1 this with rfl | hm
      · exact hc
      · exact h.1 x hm
    · simp only [hc, decide_False, Bool.false_eq_true, if_false, List.pairwise_cons]
      have hlt : f next ≤ f val := le_of_lt (lt_of_not_le hc)
      refine ⟨?_, h.1, h.2⟩
      intro x hx
      rcases List.mem_cons.1 hx with rfl | hm
      · exact hlt
      · exact le_trans (h.1 x hm) hlt

theorem insertionStep_sorted {α S : Type} [LinearOrder S] (f : α → S) (sorted : List α)
    (val : α) (h : sorted.Pairwise (fun a b => f a ≤ f b)) :
    (insertionStep (fun a b => decide (f a ≤ f b)) sorted val).Pairwise
      (fun a b => f a ≤ f b) := by
  unfold insertionStep
  cases sorted with
  | nil => simp
  | cons first rest =>
    simp only
    by_cases hc : f val ≤ f first
    · simp only [hc, decide_True, if_true, List.pairwise_cons]
      rw [List.pairwise_cons] at h
      refine ⟨?_, h.1, h.2⟩
      intro x hx
      rcases List.mem_cons.1 hx with rfl | hm
      · exact hc
      · exact le_trans hc (h.1 x hm)
    · simp only [hc, decide_False, Bool.false_eq_true, if_false]
      rw [List.pairwise_reverse]
      apply unguardedLinearInsert_sorted
      rw [List.pairwise_reverse]
      exact h

theorem foldl_insertionStep_sorted {α S : Type} [LinearOrder S] (f : α → S) (l acc : List α)
    (h : acc.Pairwise (fun a b => f a ≤ f b)) :
    (l.foldl (insertionStep (fun a b => decide (f a ≤ f b))) acc).Pairwise
      (fun a b => f a ≤ f b) := by
  induction l generalizing acc with
  | nil => simpa using h
  | cons a rest ih =>
    rw [List.foldl_cons]
    exact ih _ (insertionStep_sorted f acc a h)

theorem insertionStep_ne_nil {α : Type} (comp : α → α → Bool) (sorted : List α) (val : α) :
    insertionStep comp sorted val ≠ [] := by
  intro e
  have := insertionStep_perm comp sorted val
  rw [e] at this
  exact absurd (List.Perm.nil_eq this) (by simp)

theorem getLastD_append_singleton {α : Type} (l : List α) (x d : α) :
    (l ++ [x]).getLastD d = x := by
  induction l generalizing d with
  | nil => rfl
  | cons a l ih => rw [List.cons_append, List.getLastD_cons, ih]

theorem insertionStep_getLastD {α S : Type} [LinearOrder S] (f : α → S) (sorted : List α)
    (val d : α) (hne : sorted ≠ []) (h : sorted.Pairwise (fun a b => f a ≤ f b)) :
    (insertionStep (fun a b => decide (f a ≤ f b)) sorted val).getLastD d
      = if f (sorted.getLastD d) < f val then val else sorted.getLastD d := by
  unfold insertionStep
  cases hs : sorted with
  | nil => exact absurd hs hne
  | cons first rest =>
    simp only
    rw [← hs]
    by_cases hc : f val ≤ f first
    · have hle : f first ≤ f (sorted.getLastD d) :=
        pairwise_le_getLast f sorted h d first (by rw [hs]; simp)
      have hnot : ¬ f (sorted.getLastD d) < f val := not_lt.2 (le_trans hc hle)
      simp only [hc, decide_True, if_true, hnot, if_false]
      rw [hs]
      simp [List.getLastD]
    · simp only [hc, decide_False, Bool.false_eq_true, if_false]
      cases hr : sorted.reverse with
      | nil => exact absurd (List.reverse_eq_nil_iff.1 hr) hne
      | cons last r =>
        have hsorted : sorted = r.reverse ++ [last] := by
          have := congrArg List.reverse hr
          simpa using this
        have hlast : sorted.getLastD d = last := by
          rw [hsorted, getLastD_append_singleton]
        rw [hlast]
        unfold unguardedLinearInsert
        by_cases hv : f val ≤ f last
        · have hnot : ¬ f last < f val := not_lt.2 hv
          simp only [hv, decide_True, if_true, hnot, if_false, List.reverse_cons]
          rw [getLastD_append_singleton]
        · have hlt : f last < f val := lt_of_not_le hv
          simp only [hv, decide_False, Bool.false_eq_true, if_false, hlt, if_true,
            List.reverse_cons]
          rw [getLastD_append_singleton]

theorem foldl_insertionStep_getLastD {α S : Type} [LinearOrder S] (f : α → S)
    (firstMaxOf : α → List α → α)
    (hnil : ∀ b, firstMaxOf b [] = b)
    (hcons : ∀ b o rest, firstMaxOf b (o :: rest) = firstMaxOf (if f b < f o then o else b) rest)
    (l acc : List α) (d : α) (hne : acc ≠ []) (h : acc.Pairwise (fun a b => f a ≤ f b)) :
    (l.foldl (insertionStep (fun a b => decide (f a ≤ f b))) acc).getLastD d
      = firstMaxOf (acc.getLastD d) l := by
  induction l generalizing acc with
  | nil => simp [hnil]
  | cons a rest ih =>
    rw [List.foldl_cons, ih _ (insertionStep_ne_nil _ _ _) (insertionStep_sorted f acc a h),
      insertionStep_getLastD f acc a d hne h, hcons]

theorem firstMax_spec {S : Type} [LinearOrder S] (score : PluginOutput → S)
    (l : List PluginOutput) :
    ∀ (pre mid : List PluginOutput) (b : PluginOutput),
      (∀ x ∈ pre, score x < score b) → (∀ x ∈ mid, score x ≤ score b) →
      ∃ pre' post', pre ++ b :: mid ++ l = pre' ++ firstMax score b l :: post' ∧
        (∀ x ∈ pre', score x < score (firstMax score b l)) ∧
        (∀ x ∈ post', score x ≤ score (firstMax score b l)) := by
  induction l with
  | nil =>
    intro pre mid b h1 h2
    exact ⟨pre, mid, by simp [firstMax], h1, h2⟩
  | cons o rest ih =>
    intro pre mid b h1 h2
    unfold firstMax
    by_cases hlt : score b < score o
    · simp only [hlt, if_true]
      obtain ⟨pre', post', he, hp, hq⟩ := ih (pre ++ b :: mid) [] o (by
        intro x hx
        rcases List.mem_append.1 hx with hx | hx
        · exact lt_trans (h1 x hx) hlt
        · rcases List.mem_cons.1 hx with rfl | hx
          · exact hlt
          · exact lt_of_le_of_lt (h2 x hx) hlt) (by simp)
      exact ⟨pre', post', by simpa using he, hp, hq⟩
    · simp only [hlt, if_false]
      obtain ⟨pre', post', he, hp, hq⟩ := ih pre (mid ++ [o]) b h1 (by
        intro x hx
        rcases List.mem_append.1 hx with hx | hx
        · exact h2 x hx
        · have : x = o := by simpa using hx
          subst this
          exact not_lt.1 hlt)
      exact ⟨pre', post', by simpa using he, hp, hq⟩

theorem unguardedLinearInsert_congr {α : Type} (c1 c2 : α → α → Bool) (val : α) (l : List α)
    (h : ∀ x ∈ l, c1 val x = c2 val x) :
    unguardedLinearInsert c1 val l = unguardedLinearInsert c2 val l := by
  induction l with
  | nil => rfl
  | cons next rest ih =>
    unfold unguardedLinearInsert
    rw [h next (List.mem_cons_self _ _), ih (fun x hx => h x (List.mem_cons_of_mem _ hx))]

theorem insertionStep_congr {α : Type} (c1 c2 : α → α → Bool) (sorted : List α) (val : α)
    (h : ∀ x ∈ sorted, c1 val x = c2 val x) :
    insertionStep c1 sorted val = insertionStep c2 sorted val := by
  unfold insertionStep
  cases sorted with
  | nil => rfl
  | cons first rest =>
    simp only
    rw [h first (List.mem_cons_self _ _),
      unguardedLinearInsert_congr c1 c2 val _ (fun x hx => h x (List.mem_reverse.1 hx))]

theorem foldl_insertionStep_congr {α : Type} (c1 c2 : α → α → Bool) (l : List α) :
    ∀ acc : List α, (∀ x ∈ acc ++ l, ∀ y ∈ acc ++ l, c1 x y = c2 x y) →
      l.foldl (insertionStep c1) acc = l.foldl (insertionStep c2) acc := by
  induction l with
  | nil => intro acc _; rfl
  | cons a rest ih =>
    intro acc h
    rw [List.foldl_cons, List.foldl_cons,
      insertionStep_congr c1 c2 acc a (fun x hx => h a (by simp) x (by simp [hx]))]
    apply ih
    have hsub : ∀ x ∈ insertionStep c2 acc a ++ rest, x ∈ acc ++ a :: rest := by
      intro x hx
      rcases List.mem_append.1 hx with hx | hx
      · have := (insertionStep_perm c2 acc a).subset hx
        rcases List.mem_cons.1 this with rfl | hm
        · simp
        · simp [hm]
      · simp [hx]
    intro x hx y hy
    exact h x (hsub x hx) y (hsub y hy)

theorem operatorLess_getD {S : Type} [LinearOrder S] (score : PluginOutput → Option S) (d : S)
    (x y : PluginOutput) (hx : score x ≠ none) (hy : score y ≠ none) :
    operatorLess score x y = decide ((score x).getD d ≤ (score y).getD d) := by
  unfold operatorLess
  cases h1 : score x with
  | none => exact absurd h1 hx
  | some a =>
    cases h2 : score y with
    | none => exact absurd h2 hy
    | some b => rfl

theorem findBestOutput_insertionSort {S : Type} [LinearOrder S]
    (score : PluginOutput → Option S) (d : S) (k : QString) (o : PluginOutput)
    (rest : List (QString × PluginOutput))
    (hnan : ∀ x ∈ o :: rest.map Prod.snd, score x ≠ none) :
    findBestOutput score insertionSort ((k, o) :: rest)
      = firstMax (fun x => (score x).getD d) o (rest.map Prod.snd) := by
  unfold findBestOutput
  simp only [List.isEmpty_cons, Bool.false_eq_true, if_false, List.map_cons, List.length_cons]
  cases hr : rest.map Prod.snd with
  | nil => simp [firstMax]
  | cons c cs =>
    rw [hr] at hnan
    have hl : (c :: cs).length + 1 > 1 := by simp
    simp only [hl, if_true]
    unfold insertionSort
    rw [foldl_insertionStep_congr (operatorLess score)
      (fun a b => decide ((score a).getD d ≤ (score b).getD d)) (o :: c :: cs) []
      (fun x hx y hy => operatorLess_getD score d x y (hnan x (by simpa using hx))
        (hnan y (by simpa using hy)))]
    rw [List.foldl_cons]
    have h1 : insertionStep (fun a b => decide ((score a).getD d ≤ (score b).getD d)) [] o
        = [o] := rfl
    rw [h1]
    exact foldl_insertionStep_getLastD (fun x => (score x).getD d)
      (firstMax (fun x => (score x).getD d)) (fun b => rfl)
      (fun b o rest => rfl) (c :: cs) [o] ⟨[]⟩ (by simp) (by simp)

theorem findBestOutput_split {S : Type} [LinearOrder S] (score : PluginOutput → Option S)
    (outputs : List (QString × PluginOutput)) (hne : outputs ≠ [])
    (hnan : ∀ o ∈ outputs.map Prod.snd, score o ≠ none) :
    ∃ pre post b,
      outputs.map Prod.snd = pre ++ findBestOutput score insertionSort outputs :: post ∧
      score (findBestOutput score insertionSort outputs) = some b ∧
      (∀ x ∈ pre, ∃ a, score x = some a ∧ a < b) ∧
      (∀ x ∈ post, ∃ a, score x = some a ∧ a ≤ b) := by
  cases outputs with
  | nil => exact absurd rfl hne
  | cons e rest =>
    obtain ⟨k, o⟩ := e
    rw [List.map_cons] at hnan
    have ho : score o ≠ none := hnan o (List.mem_cons_self _ _)
    obtain ⟨d, hd⟩ := Option.ne_none_iff_exists'.1 ho
    have hsome : ∀ x ∈ o :: rest.map Prod.snd, score x = some ((score x).getD d) := by
      intro x hx
      obtain ⟨a, ha⟩ := Option.ne_none_iff_exists'.1 (hnan x hx)
      rw [ha]
      rfl
    rw [findBestOutput_insertionSort score d k o rest hnan]
    obtain ⟨pre, post, he, hp, hq⟩ :=
      firstMax_spec (fun x => (score x).getD d) (rest.map Prod.snd) [] [] o
        (fun x hx => absurd hx (List.not_mem_nil x)) (fun x hx => absurd hx (List.not_mem_nil x))
    rw [List.nil_append, List.cons_append, List.nil_append] at he
    have hmem : ∀ x, x ∈ pre ++ firstMax (fun x => (score x).getD d) o (rest.map Prod.snd)
        :: post → x ∈ o :: rest.map Prod.snd := by
      intro x hx
      rw [← he] at hx
      exact hx
    refine ⟨pre, post, (score (firstMax (fun x => (score x).getD d) o
      (rest.map Prod.snd))).getD d, ?_, hsome _ (hmem _ ?_), ?_, ?_⟩
    · rw [List.map_cons]
      exact he
    · exact List.mem_append_right _ (List.mem_cons_self _ _)
    · intro x hx
      exact ⟨_, hsome x (hmem x (List.mem_append_left _ hx)), hp x hx⟩
    · intro x hx
      exact ⟨_, hsome x (hmem x (List.mem_append_right _ (List.mem_cons_of_mem _ hx))), hq x hx⟩

theorem unguardedPartitionScan_tied {S : Type} [LinearOrder S]
    (score : PluginOutput → Option S) (pivot : PluginOutput) (range : List PluginOutput)
    (h : ∀ x ∈ range, operatorLess score x pivot = true) :
    unguardedPartitionScan (operatorLess score) pivot range = none := by
  induction range with
  | nil => rfl
  | cons x rest ih =>
    unfold unguardedPartitionScan
    rw [h x (List.mem_cons_self _ _), if_pos rfl,
      ih (fun y hy => h y (List.mem_cons_of_mem _ hy))]
    rfl

/-- C3: for a collection of at most 16 results none of which has the score NaN, where
`std::sort` of libstdc++ is its insertion sort, `Bakery::findBestOutput` returns the result
without sheets when the collection is empty and otherwise a member of the collection whose
score is greater than or equal to the score of every member. On more results `std::sort`
partitions the range, and with `operator<`, which is `<=`, the first loop of
`std::__unguarded_partition` runs past the end of a range whose elements all have the score of
the pivot: for 17 or more results with one and the same score nothing is returned, the sort
reads outside the list. And of a result `b` followed by a result `n` with the score NaN,
`findBestOutput` returns `n`. The score is any function into a linear order with NaN. -/
theorem findBestOutput_max {S : Type} [LinearOrder S] (score : PluginOutput → Option S) :
    (∀ outputs : List (QString × PluginOutput), outputs.length ≤ 16 →
      (∀ o ∈ outputs.map Prod.snd, score o ≠ none) →
      (outputs = [] → findBestOutput score insertionSort outputs = ⟨[]⟩) ∧
      (outputs ≠ [] →
        findBestOutput score insertionSort outputs ∈ outputs.map Prod.snd ∧
        ∀ o ∈ outputs.map Prod.snd, ∃ a b, score o = some a ∧
          score (findBestOutput score insertionSort outputs) = some b ∧ a ≤ b)) ∧
    (∀ (pivot : PluginOutput) (range : List PluginOutput), score pivot ≠ none →
      (∀ x ∈ range, score x = score pivot) →
      unguardedPartitionScan (operatorLess score) pivot range = none) ∧
    (∀ (k1 k2 : QString) (b n : PluginOutput), score n = none →
      findBestOutput score insertionSort [(k1, b), (k2, n)] = n) := by
  refine ⟨?_, ?_, ?_⟩
  · intro outputs _ hnan
    constructor
    · intro h
      simp [findBestOutput, h]
    · intro hne
      obtain ⟨pre, post, b, he, hb, hp, hq⟩ := findBestOutput_split score outputs hne hnan
      refine ⟨by rw [he]; simp, ?_⟩
      intro o ho
      rw [he] at ho
      rcases List.mem_append.1 ho with h1 | h1
      · obtain ⟨a, ha, hlt⟩ := hp o h1
        exact ⟨a, b, ha, hb, le_of_lt hlt⟩
      · rcases List.mem_cons.1 h1 with h2 | h2
        · exact ⟨b, b, by rw [h2]; exact hb, hb, le_refl b⟩
        · obtain ⟨a, ha, hle⟩ := hq o h2
          exact ⟨a, b, ha, hb, hle⟩
  · intro pivot range hp hr
    apply unguardedPartitionScan_tied
    intro x hx
    obtain ⟨a, ha⟩ := Option.ne_none_iff_exists'.1 hp
    unfold operatorLess
    rw [hr x hx, ha]
    simp
  · intro k1 k2 b n hn
    simp [findBestOutput, insertionSort, insertionStep, unguardedLinearInsert, operatorLess, hn]

/-- C4 (as amended): for at most 16 results none of which has the score NaN, where `std::sort`
of libstdc++ is its insertion sort, `Bakery::findBestOutput` returns the result that comes
first in iteration order among those with the maximum score: every result before it has a
strictly smaller score and every result after it has a score that is not larger. -/
theorem findBestOutput_ties_first {S : Type} [LinearOrder S] (score : PluginOutput → Option S)
    (outputs : List (QString × PluginOutput)) (hne : outputs ≠ [])
    (_hsmall : outputs.length ≤ 16)
    (hnan : ∀ o ∈ outputs.map Prod.snd, score o ≠ none) :
    ∃ pre post b,
      outputs.map Prod.snd = pre ++ findBestOutput score insertionSort outputs :: post ∧
      score (findBestOutput score insertionSort outputs) = some b ∧
      (∀ x ∈ pre, ∃ a, score x = some a ∧ a < b) ∧
      (∀ x ∈ post, ∃ a, score x = some a ∧ a ≤ b) :=
  findBestOutput_split score outputs hne hnan

/-! ## Shape metrics -/

theorem wrap64_eq (v : Int) (h1 : -9223372036854775808 ≤ v) (h2 : v ≤ 9223372036854775807) :
    wrap64 v = v := by
  unfold wrap64
  omega

theorem wrap64_range (v : Int) :
    -9223372036854775808 ≤ wrap64 v ∧ wrap64 v ≤ 9223372036854775807 := by
  unfold wrap64
  omega

theorem wrap64_zero : wrap64 0 = 0 := by decide

theorem wrap64_add_zero (v : Int) : wrap64 (wrap64 v + 0) = wrap64 v := by
  rw [Int.add_zero]
  exact wrap64_eq _ (wrap64_range v).1 (wrap64_range v).2

theorem shoelaceSum_range (pts : List QPoint) :
    ∀ acc : Int, -9223372036854775808 ≤ acc → acc ≤ 9223372036854775807 →
      -9223372036854775808 ≤ shoelaceSum acc pts ∧ shoelaceSum acc pts ≤ 9223372036854775807 := by
  induction pts with
  | nil => intro acc h1 h2; exact ⟨h1, h2⟩
  | cons p ps ih =>
    intro acc h1 h2
    cases ps with
    | nil => exact ⟨h1, h2⟩
    | cons q rest =>
      unfold shoelaceSum
      exact ih _ (wrap64_range _).1 (wrap64_range _).2

theorem shoelaceSum_append_last (pts : List QPoint) (p q : QPoint) :
    ∀ acc : Int, shoelaceSum acc (pts ++ [p, q])
      = wrap64 (shoelaceSum acc (pts ++ [p]) + wrap64 (p.x * q.y - q.x * p.y)) := by
  induction pts with
  | nil => intro acc; simp [shoelaceSum]
  | cons a as ih =>
    intro acc
    cases as with
    | nil => simp [shoelaceSum]
    | cons b bs =>
      simp only [List.cons_append, shoelaceSum]
      exact ih _

theorem shoelaceSum_repeat_last (pts : List QPoint) (p : QPoint) (acc : Int)
    (h1 : -9223372036854775808 ≤ acc) (h2 : acc ≤ 9223372036854775807) :
    shoelaceSum acc (pts ++ [p, p]) = shoelaceSum acc (pts ++ [p]) := by
  rw [shoelaceSum_append_last]
  have hz : p.x * p.y - p.x * p.y = 0 := by omega
  rw [hz, wrap64_zero, Int.add_zero]
  exact wrap64_eq _ (shoelaceSum_range _ acc h1 h2).1 (shoelaceSum_range _ acc h1 h2).2

theorem metricsLoop_fst (pts : List QPoint) :
    ∀ acc : Int × Int × Int, (metricsLoop acc pts).1 = shoelaceSum acc.1 pts := by
  induction pts with
  | nil => intro acc; rfl
  | cons p ps ih =>
    intro acc
    cases ps with
    | nil => rfl
    | cons q rest =>
      unfold metricsLoop shoelaceSum
      exact ih _

theorem metricsLoop_zero_terms (pts : List QPoint) (h : ∀ z ∈ crossTerms pts, z = 0) :
    metricsLoop (0, 0, 0) pts = (0, 0, 0) := by
  induction pts with
  | nil => rfl
  | cons p ps ih =>
    cases ps with
    | nil => rfl
    | cons q rest =>
      have hz : p.x * q.y - q.x * p.y = 0 := h _ (by simp [crossTerms])
      unfold metricsLoop
      simp only [hz, wrap64_zero, Int.mul_zero, Int.add_zero]
      exact ih (fun z hm => h z (by simp [crossTerms, hm]))

theorem crossTerms_short (pts : List QPoint) (h : pts.length < 2) : crossTerms pts = [] := by
  match pts, h with
  | [], _ => rfl
  | [_], _ => rfl

/-- C14 (as amended): `centroid()` returns (0,0) for every shape with fewer than two points
and, more generally, for every shape in which each pair of consecutive vertices has the cross
term `x1 * y2 - x2 * y1 = 0`. For a shape whose halved shoelace sum is 0 the sums `cx` and `cy`
are not divided, and `centroid()` returns them narrowed to `int`. -/
theorem centroid_zero_terms (s : Shape) :
    (s.points.length < 2 → s.centroid = ⟨0, 0⟩) ∧
    ((∀ z ∈ crossTerms s.points, z = 0) → s.centroid = ⟨0, 0⟩) ∧
    (Int.tdiv (shoelaceSum 0 s.points) 2 = 0 →
      s.centroid = ⟨wrap32 (metricsLoop (0, 0, 0) s.points).2.1,
        wrap32 (metricsLoop (0, 0, 0) s.points).2.2⟩) := by
  have h2 : (∀ z ∈ crossTerms s.points, z = 0) → s.centroid = ⟨0, 0⟩ := by
    intro h
    unfold Shape.centroid
    rw [metricsLoop_zero_terms s.points h]
    rfl
  refine ⟨?_, h2, ?_⟩
  · intro h
    apply h2
    rw [crossTerms_short s.points h]
    intro z hz
    simp at hz
  · intro h
    unfold Shape.centroid
    simp only [metricsLoop_fst, h, ne_eq, not_true_eq_false, if_false]

theorem abs_mul_le_mul (x y A B : Int) (hx : |x| ≤ A) (hy : |y| ≤ B) : |x * y| ≤ A * B := by
  rw [abs_mul]
  exact mul_le_mul hx hy (abs_nonneg _) (le_trans (abs_nonneg _) hx)

theorem wrap64_of_abs (v : Int) (h : |v| ≤ 9223372036854775807) : wrap64 v = v := by
  have := abs_le.1 h
  exact wrap64_eq v (by omega) this.2

theorem metricsLoop_exact (pts : List QPoint) :
    ∀ (acc : Int × Int × Int) (k : Nat),
      (∀ p ∈ pts, |p.x| ≤ 500000 ∧ |p.y| ≤ 500000) →
      |acc.1| ≤ k * 500000000000 → |acc.2.1| ≤ k * 500000000000000000 →
      |acc.2.2| ≤ k * 500000000000000000 → k + pts.length ≤ 18 →
      metricsLoop acc pts = metricsSums acc pts := by
  induction pts with
  | nil => intro acc k _ _ _ _ _; rfl
  | cons p ps ih =>
    intro acc k hp h1 h2 h3 hk
    cases ps with
    | nil => rfl
    | cons q rest =>
      obtain ⟨hpx, hpy⟩ := hp p (by simp)
      obtain ⟨hqx, hqy⟩ := hp q (by simp)
      have hz1 := abs_mul_le_mul p.x q.y 500000 500000 hpx hqy
      have hz2 := abs_mul_le_mul q.x p.y 500000 500000 hqx hpy
      have hz : |p.x * q.y - q.x * p.y| ≤ 500000000000 := by
        have := abs_sub (p.x * q.y) (q.x * p.y)
        norm_num at hz1 hz2
        omega
      have hsx : |p.x + q.x| ≤ 1000000 := by
        have := abs_add p.x q.x
        omega
      have hsy : |p.y + q.y| ≤ 1000000 := by
        have := abs_add p.y q.y
        omega
      have hcx := abs_mul_le_mul _ _ 1000000 500000000000 hsx hz
      have hcy := abs_mul_le_mul _ _ 1000000 500000000000 hsy hz
      norm_num at hcx hcy
      have hk' : (k : Int) + 1 ≤ 18 := by
        simp only [List.length_cons] at hk
        omega
      have a1 : |acc.1 + (p.x * q.y - q.x * p.y)| ≤ ((k + 1 : Nat) : Int) * 500000000000 := by
        have := abs_add acc.1 (p.x * q.y - q.x * p.y)
        push_cast
        omega
      have a2 : |acc.2.1 + (p.x + q.x) * (p.x * q.y - q.x * p.y)|
          ≤ ((k + 1 : Nat) : Int) * 500000000000000000 := by
        have := abs_add acc.2.1 ((p.x + q.x) * (p.x * q.y - q.x * p.y))
        push_cast
        omega
      have a3 : |acc.2.2 + (p.y + q.y) * (p.x * q.y - q.x * p.y)|
          ≤ ((k + 1 : Nat) : Int) * 500000000000000000 := by
        have := abs_add acc.2.2 ((p.y + q.y) * (p.x * q.y - q.x * p.y))
        push_cast
        omega
      have w0 : wrap64 (p.x * q.y - q.x * p.y) = p.x * q.y - q.x * p.y :=
        wrap64_of_abs _ (by omega)
      have wx : wrap64 ((p.x + q.x) * (p.x * q.y - q.x * p.y))
          = (p.x + q.x) * (p.x * q.y - q.x * p.y) := wrap64_of_abs _ (by omega)
      have wy : wrap64 ((p.y + q.y) * (p.x * q.y - q.x * p.y))
          = (p.y + q.y) * (p.x * q.y - q.x * p.y) := wrap64_of_abs _ (by omega)
      have w1 : wrap64 (acc.1 + (p.x * q.y - q.x * p.y)) = acc.1 + (p.x * q.y - q.x * p.y) :=
        wrap64_of_abs _ (by push_cast at a1; omega)
      have w2 : wrap64 (acc.2.1 + (p.x + q.x) * (p.x * q.y - q.x * p.y))
          = acc.2.1 + (p.x + q.x) * (p.x * q.y - q.x * p.y) :=
        wrap64_of_abs _ (by push_cast at a2; omega)
      have w3 : wrap64 (acc.2.2 + (p.y + q.y) * (p.x * q.y - q.x * p.y))
          = acc.2.2 + (p.y + q.y) * (p.x * q.y - q.x * p.y) :=
        wrap64_of_abs _ (by push_cast at a3; omega)
      unfold metricsLoop metricsSums
      rw [w0, wx, wy, w1, w2, w3]
      exact ih _ (k + 1) (fun r hr => hp r (List.mem_cons_of_mem _ hr)) a1 a2 a3
        (by simp only [List.length_cons] at hk ⊢; omega)

theorem tdiv_scale_pos (s K : Int) (hs : 0 ≤ s) (hK : 0 < K) :
    Int.tdiv (3 * s * K) (6 * K) = Int.tdiv s 2 := by
  rw [Int.tdiv_eq_ediv (by positivity) (by positivity), Int.tdiv_eq_ediv hs (by decide)]
  have e1 : 3 * s * K = K * (3 * s) := by ring
  have e2 : 6 * K = K * 6 := by ring
  rw [e1, e2, Int.mul_ediv_mul_of_pos _ _ hK]
  have e3 : (6 : Int) = 3 * 2 := by norm_num
  rw [e3, Int.mul_ediv_mul_of_pos _ _ (by decide)]

theorem tdiv_scale (s K : Int) (hK : K ≠ 0) :
    Int.tdiv (3 * s * K) (6 * K) = Int.tdiv s 2 := by
  rcases lt_or_gt_of_ne hK with hneg | hpos
  · rcases le_or_lt 0 s with hs | hs
    · have h := tdiv_scale_pos s (-K) hs (by omega)
      have e1 : 3 * s * K = -(3 * s * -K) := by ring
      have e2 : 6 * K = -(6 * -K) := by ring
      rw [e1, e2, Int.neg_tdiv_neg, h]
    · have h := tdiv_scale_pos (-s) (-K) (by omega) (by omega)
      have e1 : 3 * s * K = 3 * -s * -K := by ring
      have e2 : 6 * K = -(6 * -K) := by ring
      rw [e1, e2, Int.tdiv_neg, h, Int.neg_tdiv, Int.neg_neg]
  · rcases le_or_lt 0 s with hs | hs
    · exact tdiv_scale_pos s K hs hpos
    · have h := tdiv_scale_pos (-s) K (by omega) hpos
      have e1 : 3 * s * K = -(3 * -s * K) := by ring
      rw [e1, Int.neg_tdiv, h, Int.neg_tdiv, Int.neg_neg]

theorem tdiv_two_cases (s : Int) :
    (0 ≤ s ∧ Int.tdiv s 2 = s / 2) ∨ (s < 0 ∧ Int.tdiv s 2 = -(-s / 2)) := by
  rcases le_or_lt 0 s with hs | hs
  · exact Or.inl ⟨hs, Int.tdiv_eq_ediv hs (by decide)⟩
  · refine Or.inr ⟨hs, ?_⟩
    have h := Int.tdiv_eq_ediv (show (0 : Int) ≤ -s by omega) (show (0 : Int) ≤ 2 by decide)
    rw [Int.neg_tdiv] at h
    omega

theorem abs_tdiv_two_le (s : Int) (h : |s| ≤ 1000000) : |Int.tdiv s 2| ≤ 500000 := by
  have := abs_le.1 h
  rw [abs_le]
  rcases tdiv_two_cases s with ⟨h1, h2⟩ | ⟨h1, h2⟩ <;> omega

theorem centroid_of_sums (s : Shape) (K sx sy : Int) (hK : K ≠ 0) (hKb : |K| ≤ 1000000000000)
    (hsx : |sx| ≤ 1000000) (hsy : |sy| ≤ 1000000)
    (hm : metricsLoop (0, 0, 0) s.points = (2 * K, 3 * sx * K, 3 * sy * K)) :
    s.centroid = ⟨Int.tdiv sx 2, Int.tdiv sy 2⟩ := by
  have hhalf : Int.tdiv (2 * K) 2 = K := Int.mul_tdiv_cancel_left K (by decide)
  have hw : wrap64 (K * 6) = 6 * K := by
    have := abs_le.1 hKb
    rw [wrap64_eq _ (by omega) (by omega)]
    ring
  have hx := abs_le.1 (abs_tdiv_two_le sx hsx)
  have hy := abs_le.1 (abs_tdiv_two_le sy hsy)
  unfold Shape.centroid
  simp only [hm, hhalf, ne_eq, hK, not_false_eq_true, if_true, hw, tdiv_scale _ K hK]
  rw [wrap32_eq _ (by omega), wrap32_eq _ (by omega)]

/-- C15: for every closed axis-aligned rectangle with opposite corners `(a, b)` and `(c, d)`,
`a ≠ c` and `b ≠ d`, coordinates of magnitude at most 500000, listed from `(a, b)` in either
orientation, `centroid()` is `((a + c) / 2, (b + d) / 2)` with the division cut off toward
zero. -/
theorem centroid_rectangle (name : QString) (a b c d : Int)
    (ha : |a| ≤ 500000) (hb : |b| ≤ 500000) (hc : |c| ≤ 500000) (hd : |d| ≤ 500000)
    (hac : a ≠ c) (hbd : b ≠ d) :
    (rectangle name a b c d).centroid = ⟨Int.tdiv (a + c) 2, Int.tdiv (b + d) 2⟩ ∧
    (rectangleRev name a b c d).centroid = ⟨Int.tdiv (a + c) 2, Int.tdiv (b + d) 2⟩ := by
  have hsx : |a + c| ≤ 1000000 := by
    have := abs_add a c
    omega
  have hsy : |b + d| ≤ 1000000 := by
    have := abs_add b d
    omega
  have h1 : |a - c| ≤ 1000000 := by
    have := abs_sub a c
    omega
  have h2 : |d - b| ≤ 1000000 := by
    have := abs_sub d b
    omega
  have h3 : |c - a| ≤ 1000000 := by
    have := abs_sub c a
    omega
  have hK1 := abs_mul_le_mul _ _ 1000000 1000000 h1 h2
  have hK2 := abs_mul_le_mul _ _ 1000000 1000000 h3 h2
  norm_num at hK1 hK2
  have n1 : (a - c) * (d - b) ≠ 0 := mul_ne_zero (sub_ne_zero.2 hac) (sub_ne_zero.2 (Ne.symm hbd))
  have n2 : (c - a) * (d - b) ≠ 0 :=
    mul_ne_zero (sub_ne_zero.2 (Ne.symm hac)) (sub_ne_zero.2 (Ne.symm hbd))
  constructor
  · apply centroid_of_sums _ ((a - c) * (d - b)) (a + c) (b + d) n1 hK1 hsx hsy
    rw [metricsLoop_exact _ (0, 0, 0) 0 (by
      intro p hp
      simp only [rectangle, List.mem_cons, List.mem_singleton, List.not_mem_nil, or_false] at hp
      rcases hp with rfl | rfl | rfl | rfl | rfl <;> exact ⟨by assumption, by assumption⟩)
      (by simp) (by simp) (by simp) (by simp [rectangle])]
    simp only [rectangle, metricsSums, Prod.mk.injEq]
    refine ⟨by ring, by ring, by ring⟩
  · apply centroid_of_sums _ ((c - a) * (d - b)) (a + c) (b + d) n2 hK2 hsx hsy
    rw [metricsLoop_exact _ (0, 0, 0) 0 (by
      intro p hp
      simp only [rectangleRev, List.mem_cons, List.mem_singleton, List.not_mem_nil,
        or_false] at hp
      rcases hp with rfl | rfl | rfl | rfl | rfl <;> exact ⟨by assumption, by assumption⟩)
      (by simp) (by simp) (by simp) (by simp [rectangleRev])]
    simp only [rectangleRev, metricsSums, Prod.mk.injEq]
    refine ⟨by ring, by ring, by ring⟩

/-! ## Transformations -/

theorem toInt32_intCast (n : Int) (h1 : -2147483648 ≤ n) (h2 : n ≤ 2147483647) :
    toInt32 (n : ℚ) = n := by
  unfold toInt32
  have c1 : (-2147483649 : ℚ) < (n : ℚ) := by
    have : ((-2147483649 : Int) : ℚ) < (n : ℚ) := by exact_mod_cast (by omega : -2147483649 < n)
    simpa using this
  have c2 : (n : ℚ) < 2147483648 := by
    have : (n : ℚ) < ((2147483648 : Int) : ℚ) := by exact_mod_cast (by omega : n < 2147483648)
    simpa using this
  rw [if_pos ⟨c1, c2⟩]
  split
  · exact Int.floor_intCast n
  · exact Int.ceil_intCast n

theorem toInt32_intCast_add_half (n : Int) (h1 : 0 ≤ n) (h2 : n ≤ 2147483647) :
    toInt32 ((n : ℚ) + 1 / 2) = n := by
  unfold toInt32
  have c0 : (0 : ℚ) ≤ (n : ℚ) := by exact_mod_cast h1
  have c2 : (n : ℚ) ≤ 2147483647 := by
    have : (n : ℚ) ≤ ((2147483647 : Int) : ℚ) := by exact_mod_cast h2
    simpa using this
  rw [if_pos ⟨by linarith, by linarith⟩, if_pos (by linarith)]
  rw [Int.floor_eq_iff]
  constructor <;> linarith

theorem qRound_intCast (n : Int) (h : symInt32 n = true) : qRound (n : ℚ) = n := by
  unfold symInt32 at h
  simp only [Bool.and_eq_true, decide_eq_true_eq] at h
  unfold qRound
  by_cases h0 : 0 ≤ n
  · have c0 : (0 : ℚ) ≤ (n : ℚ) := by exact_mod_cast h0
    rw [if_pos c0]
    exact toInt32_intCast_add_half n h0 h.2
  · have c0 : ¬ (0 : ℚ) ≤ (n : ℚ) := by
      intro hc
      exact h0 (by exact_mod_cast hc)
    rw [if_neg c0]
    have e1 : (n : ℚ) - 1 = ((n - 1 : Int) : ℚ) := by push_cast; ring
    rw [e1, toInt32_intCast (n - 1) (by omega) (by omega)]
    have e2 : (n : ℚ) - ((n - 1 : Int) : ℚ) + 1 / 2 = ((1 : Int) : ℚ) + 1 / 2 := by
      push_cast; ring
    rw [e2, toInt32_intCast_add_half 1 (by decide) (by decide)]
    unfold wrap32
    omega

theorem mapPoint_fromTranslate (dx dy : Int) (p : QPoint) (hx : symInt32 dx = true)
    (hy : symInt32 dy = true) :
    (QTransform.fromTranslate dx dy).mapPoint p = ⟨wrap32 (p.x + dx), wrap32 (p.y + dy)⟩ := by
  unfold QTransform.mapPoint QTransform.fromTranslate
  simp only [and_self, if_true, qRound_intCast dx hx, qRound_intCast dy hy]

/-- C17: `isCongruent` is reflexive and symmetric: `p.isCongruent(p)` is true, and
`a.isCongruent(b)` equals `b.isCongruent(a)`. -/
theorem isCongruent_refl_symm (a b : ShapeT) :
    a.isCongruent a = true ∧ a.isCongruent b = b.isCongruent a := by
  unfold ShapeT.isCongruent
  refine ⟨by simp, ?_⟩
  rw [decide_eq_decide]
  exact eq_comm

/-! ## Convex hull -/

theorem uniquePoints_foldl (pts : List QPoint) :
    ∀ acc : List QPoint, acc.Nodup →
      (pts.foldl (fun ps p => if ps.contains p then ps else ps ++ [p]) acc).Nodup ∧
      (pts.foldl (fun ps p => if ps.contains p then ps else ps ++ [p]) acc).toFinset
        = acc.toFinset ∪ pts.toFinset := by
  induction pts with
  | nil => intro acc h; simp [h]
  | cons p ps ih =>
    intro acc h
    rw [List.foldl_cons]
    by_cases hp : p ∈ acc
    · have hc : acc.contains p = true := by simpa using hp
      simp only [hc, if_true]
      obtain ⟨h1, h2⟩ := ih acc h
      refine ⟨h1, ?_⟩
      rw [h2]
      ext x
      simp only [Finset.mem_union, List.mem_toFinset, List.mem_cons]
      constructor
      · rintro (hx | hx)
        · exact Or.inl hx
        · exact Or.inr (Or.inr hx)
      · rintro (hx | rfl | hx)
        · exact Or.inl hx
        · exact Or.inl hp
        · exact Or.inr hx
    · have hc : acc.contains p = false := by simpa using hp
      simp only [hc, Bool.false_eq_true, if_false]
      have hn : (acc ++ [p]).Nodup := by
        rw [List.nodup_append]
        refine ⟨h, List.nodup_singleton p, ?_⟩
        intro a ha hb
        have : a = p := by simpa using hb
        subst this
        exact hp ha
      obtain ⟨h1, h2⟩ := ih (acc ++ [p]) hn
      refine ⟨h1, ?_⟩
      rw [h2]
      ext x
      simp only [Finset.mem_union, List.mem_toFinset, List.mem_append, List.mem_singleton,
        List.mem_cons]
      tauto

theorem uniquePoints_length (pts : List QPoint) :
    (uniquePoints pts).length = pts.toFinset.card := by
  obtain ⟨h1, h2⟩ := uniquePoints_foldl pts [] List.nodup_nil
  unfold uniquePoints
  rw [← List.toFinset_card_of_nodup h1, h2]
  simp

theorem hullLoop_isSome (ps : List QPoint) (l : Nat) (fuel : Nat) :
    ∀ (p : Nat) (hull : List QPoint), hull.length ≤ ps.length →
      ps.length + 1 ≤ fuel + hull.length → (hullLoop ps l fuel p hull).isSome = true := by
  induction fuel with
  | zero => intro p hull h1 h2; omega
  | succ f ih =>
    intro p hull h1 h2
    unfold hullLoop
    split_ifs with ha hb
    · rfl
    · apply ih
      · simpa using ha
      · simp only [List.length_append, List.length_cons, List.length_nil]
        omega
    · rfl

theorem hullLoop_fuel (ps : List QPoint) (l p : Nat) :
    (hullLoop ps l (ps.length + 1) p []).isSome = true :=
  hullLoop_isSome ps l (ps.length + 1) p [] (by simp) (by simp)

/-- C18: for every shape whose vertex sequence has fewer than three distinct points,
`convexHull()` returns `Shape()`, the shape without points. -/
theorem convexHull_few_points (s : Shape) (h : s.points.toFinset.card < 3) :
    s.convexHull = Shape.default ∧ s.convexHull.points = [] := by
  have e : s.convexHull = Shape.default := by
    unfold Shape.convexHull
    simp only [uniquePoints_length, h, if_true]
  rw [e]
  exact ⟨rfl, rfl⟩

/-! ## `ensureClosed` -/

theorem isClosedPts_append_head (p : QPoint) (rest : List QPoint) (h : rest ≠ []) :
    isClosedPts ((p :: rest) ++ [p]) = true := by
  obtain ⟨q, rest2, rfl⟩ := List.exists_cons_of_ne_nil h
  have hl : (p :: q :: rest2 ++ [p]).getLast? = some p := List.getLast?_concat _
  simp only [List.cons_append] at hl ⊢
  simp [isClosedPts, hl]

/-- C21 (as amended): `ensureClosed(true)` on a shape of at least two points gives a closed
shape and a second call changes nothing; a closed shape is left unchanged by
`ensureClosed(true)`; `ensureClosed(false)` on a non-empty shape that is open, or that is closed
and whose vertex sequence without its last point is not closed on its own, gives a shape that
is not closed, and a second call changes nothing. -/
theorem ensureClosed_establishes (s : Shape) :
    (2 ≤ s.points.length →
      (s.ensureClosed true).isClosed = true ∧
        (s.ensureClosed true).ensureClosed true = s.ensureClosed true) ∧
    (s.isClosed = true → s.ensureClosed true = s) ∧
    (s.points ≠ [] → (s.isClosed = true → isClosedPts s.points.dropLast = false) →
      (s.ensureClosed false).isClosed = false ∧
        (s.ensureClosed false).ensureClosed false = s.ensureClosed false) := by
  obtain ⟨name, pts⟩ := s
  refine ⟨?_, ?_, ?_⟩
  · intro hlen
    have key : (Shape.ensureClosed ⟨name, pts⟩ true).isClosed = true := by
      cases hc : isClosedPts pts with
      | true => simp [Shape.ensureClosed, Shape.isClosed, hc]
      | false =>
        match pts, hlen, hc with
        | p :: q :: rest, _, hc =>
          have := isClosedPts_append_head p (q :: rest) (by simp)
          simpa [Shape.ensureClosed, Shape.isClosed, hc] using this
    refine ⟨key, ?_⟩
    generalize Shape.ensureClosed ⟨name, pts⟩ true = t at key
    simp [Shape.ensureClosed, key]
  · intro hc
    simp [Shape.ensureClosed, hc]
  · intro hne hdrop
    have key : (Shape.ensureClosed ⟨name, pts⟩ false).isClosed = false := by
      cases hc : isClosedPts pts with
      | false => simp [Shape.ensureClosed, Shape.isClosed, hc]
      | true =>
        have hd := hdrop hc
        by_cases h1 : 1 < pts.length
        · simpa [Shape.ensureClosed, Shape.isClosed, hc, h1] using hd
        · simp only [Shape.isClosed] at hd
          match pts, hne, h1, hc with
          | [p], _, _, hc => simp [isClosedPts] at hc
          | p :: q :: rest, _, h1, _ => simp at h1
    refine ⟨key, ?_⟩
    generalize Shape.ensureClosed ⟨name, pts⟩ false = t at key
    simp [Shape.ensureClosed, key]

/-! ## Utilization of a sheet without shapes -/

theorem tdiv_eq_zero_iff_abs (x : Int) : Int.tdiv x 100000 = 0 ↔ |x| < 100000 := by
  rcases Int.le_total 0 x with h | h
  · rw [Int.tdiv_eq_ediv h (by decide), abs_of_nonneg h]
    omega
  · obtain ⟨y, rfl⟩ : ∃ y, x = -y := ⟨-x, by omega⟩
    have hy : 0 ≤ y := by omega
    rw [Int.neg_tdiv, Int.tdiv_eq_ediv hy (by decide), abs_neg, abs_of_nonneg hy]
    omega

/-- C27 (as amended): `area()` of a sheet is not zero exactly when the product of width and
height is at least 100000 in magnitude; for every such sheet `utilitization()` is the finite
value `shapesArea() / area()`, and it is 0 when the sheet holds no shapes; for a sheet whose
`area()` is zero the quotient is not a finite value. -/
theorem utilitization_defined (s : Sheet) :
    (s.area ≠ 0 ↔ 100000 ≤ |s.width * s.height|) ∧
    (s.area ≠ 0 →
      s.utilitization = some ((s.shapesArea : ℚ) / (s.area : ℚ)) ∧
        (s.shapes = [] → s.utilitization = some 0)) ∧
    (s.area = 0 → s.utilitization = none) := by
  refine ⟨?_, ?_, ?_⟩
  · unfold Sheet.area
    rw [Ne, divPrecision_eq_zero_iff]
    omega
  · intro h
    have e := utilitization_eq s
    rw [if_neg h] at e
    refine ⟨e, ?_⟩
    intro hs
    rw [e]
    have h0 : s.shapesArea = 0 := by
      unfold Sheet.shapesArea
      rw [hs]
      rfl
    rw [h0]
    simp
  · intro h
    rw [utilitization_eq, if_pos h]

/-! ## Validation by names -/

theorem matchShapes_names (a b : List Shape) (h : a.map Shape.name = b.map Shape.name) :
    ∀ l : List Shape, matchShapes a l = matchShapes b l := by
  induction a generalizing b with
  | nil =>
    intro l
    cases b with
    | nil => rfl
    | cons y ys => simp at h
  | cons x xs ih =>
    intro l
    cases b with
    | nil => simp at h
    | cons y ys =>
      simp only [List.map_cons, List.cons.injEq] at h
      simp only [matchShapes, h.1]
      cases eraseFirstNamed y.name l with
      | none => rfl
      | some l2 => exact ih ys h.2 l2

theorem validLoop_names (I : List QPoint → List QPoint → List QPoint) (input : PluginInput)
    (a b : List Sheet)
    (h : a.map (fun s => (s.width, s.height, s.shapes.map Shape.name))
      = b.map (fun s => (s.width, s.height, s.shapes.map Shape.name)))
    (ha : ∀ s ∈ a, s.isValid I = true) (hb : ∀ s ∈ b, s.isValid I = true) :
    ∀ l : List Shape, validLoop I input a l = validLoop I input b l := by
  induction a generalizing b with
  | nil =>
    intro l
    cases b with
    | nil => rfl
    | cons y ys => simp at h
  | cons x xs ih =>
    intro l
    cases b with
    | nil => simp at h
    | cons y ys =>
      simp only [List.map_cons, List.cons.injEq, Prod.mk.injEq] at h
      obtain ⟨⟨hw, hh, hn⟩, hrest⟩ := h
      have hx := ha x (by simp)
      have hy := hb y (by simp)
      have ih2 := ih ys hrest (fun s hs => ha s (by simp [hs])) (fun s hs => hb s (by simp [hs]))
      cases hm : matchShapes y.shapes l with
      | none => simp only [validLoop, hx, hy, hw, hh, matchShapes_names _ _ hn l, hm]
      | some l2 =>
        simp only [validLoop, hx, hy, hw, hh, matchShapes_names _ _ hn l, hm]
        rw [ih2 l2]

/-- C28: for every job and every two results that have, sheet by sheet, the same width, the
same height and the same sequence of shape names, and whose sheets all satisfy `isValid()`,
`isOutputValidForInput` gives the same answer; the vertices of the placed shapes do not enter
the comparison. -/
theorem isOutputValidForInput_names_only (I : List QPoint → List QPoint → List QPoint)
    (j : PluginInput) (r1 r2 : PluginOutput)
    (hsame : r1.sheets.map (fun s => (s.width, s.height, s.shapes.map Shape.name))
      = r2.sheets.map (fun s => (s.width, s.height, s.shapes.map Shape.name)))
    (h1 : ∀ s ∈ r1.sheets, s.isValid I = true) (h2 : ∀ s ∈ r2.sheets, s.isValid I = true) :
    isOutputValidForInput I j r1 = isOutputValidForInput I j r2 :=
  validLoop_names I j r1.sheets r2.sheets hsame h1 h2 j.shapes

/-! ## The point count written by the Shape encoder -/

/-- C29: the point count written by the Shape encoder for a shape with at least one point is
not negative and is the number of coordinate pairs written after it; for the shape without
points the count written is -1, followed by no pair. -/
theorem encodeShape_point_count :
    (∀ s : Shape, s.points ≠ [] →
      0 ≤ s.wireSize ∧ (s.wirePoints.length : Int) = s.wireSize ∧
        encodeShape s = "shape_begin ".toList ++ writeText s.name ++ intStr s.wireSize ++
          ' ' :: encodePoints s.wirePoints ++ "shape_end ".toList) ∧
    (∀ name : QString, (Shape.mk name []).wireSize = -1 ∧
      (Shape.mk name []).wirePoints = [] ∧
      encodeShape ⟨name, []⟩
        = "shape_begin ".toList ++ writeText name ++ "-1 shape_end ".toList) := by
  constructor
  · intro s hne
    have hlen : 0 < s.points.length := List.length_pos.2 hne
    have h0 : 0 ≤ s.wireSize := by
      unfold Shape.wireSize
      split_ifs <;> omega
    have hle : s.wireSize ≤ (s.points.length : Int) := by
      unfold Shape.wireSize
      split_ifs <;> omega
    refine ⟨h0, ?_, rfl⟩
    unfold Shape.wirePoints
    rw [List.length_take]
    omega
  · intro name
    have hw : (Shape.mk name []).wireSize = -1 := by
      simp [Shape.wireSize, Shape.isClosed, isClosedPts]
    refine ⟨hw, by simp [Shape.wirePoints], ?_⟩
    unfold encodeShape
    rw [hw]
    have : intStr (-1) = ['-', '1'] := by decide
    rw [this]
    simp [encodePoints]

/-! ## Area of a moved shape -/

theorem wrap64_mod (v : Int) : ∃ k : Int, wrap64 v = v + k * 18446744073709551616 := by
  refine ⟨-((v + 9223372036854775808) / 18446744073709551616), ?_⟩
  unfold wrap64
  omega

theorem shoelaceSum_mod (pts : List QPoint) :
    ∀ acc : Int, ∃ k : Int,
      shoelaceSum acc pts = acc + (crossTerms pts).sum + k * 18446744073709551616 := by
  induction pts with
  | nil => intro acc; exact ⟨0, by simp [shoelaceSum, crossTerms]⟩
  | cons p ps ih =>
    intro acc
    cases ps with
    | nil => exact ⟨0, by simp [shoelaceSum, crossTerms]⟩
    | cons q rest =>
      obtain ⟨k1, h1⟩ := ih (wrap64 (acc + wrap64 (p.x * q.y - q.x * p.y)))
      obtain ⟨k2, h2⟩ := wrap64_mod (acc + wrap64 (p.x * q.y - q.x * p.y))
      obtain ⟨k3, h3⟩ := wrap64_mod (p.x * q.y - q.x * p.y)
      refine ⟨k1 + k2 + k3, ?_⟩
      simp only [shoelaceSum, crossTerms, List.sum_cons]
      rw [h1, h2, h3]
      ring

theorem crossTerms_shifted (d : QPoint) (rest : List QPoint) :
    ∀ p : QPoint, (crossTerms ((p :: rest).map (QPoint.shifted d))).sum
      = (crossTerms (p :: rest)).sum + d.x * ((lastFrom p rest).y - p.y)
        - d.y * ((lastFrom p rest).x - p.x) := by
  induction rest with
  | nil => intro p; simp [crossTerms, lastFrom]
  | cons q rest ih =>
    intro p
    have h := ih q
    simp only [List.map_cons] at h ⊢
    simp only [crossTerms, List.sum_cons, lastFrom]
    rw [h]
    simp only [QPoint.shifted]
    ring

theorem getLast?_lastFrom (rest : List QPoint) :
    ∀ p : QPoint, (p :: rest).getLast? = some (lastFrom p rest) := by
  induction rest with
  | nil => intro p; rfl
  | cons q rest ih =>
    intro p
    rw [List.getLast?_cons_cons, ih q]
    rfl

theorem crossTerms_shifted_closed (d : QPoint) (pts : List QPoint)
    (h : isClosedPts pts = true) :
    (crossTerms (pts.map (QPoint.shifted d))).sum = (crossTerms pts).sum := by
  cases pts with
  | nil => rfl
  | cons p rest =>
    unfold isClosedPts at h
    simp only [List.head?_cons, getLast?_lastFrom, Option.some.injEq, Bool.or_eq_true,
      Bool.and_eq_true, decide_eq_true_eq, beq_iff_eq] at h
    have hl : p = lastFrom p rest := by
      rcases h with h | h
      · simp at h
      · exact h.2
    rw [crossTerms_shifted, ← hl]
    ring

theorem shoelaceSum_shifted_closed (d : QPoint) (pts : List QPoint)
    (h : isClosedPts pts = true) :
    shoelaceSum 0 (pts.map (QPoint.shifted d)) = shoelaceSum 0 pts := by
  obtain ⟨k1, h1⟩ := shoelaceSum_mod (pts.map (QPoint.shifted d)) 0
  obtain ⟨k2, h2⟩ := shoelaceSum_mod pts 0
  have r1 := shoelaceSum_range (pts.map (QPoint.shifted d)) 0 (by decide) (by decide)
  have r2 := shoelaceSum_range pts 0 (by decide) (by decide)
  rw [crossTerms_shifted_closed d pts h] at h1
  omega

theorem translate_points (t : ShapeT) (d : QPoint)
    (hd : symInt32 d.x = true ∧ symInt32 d.y = true)
    (hr : ∀ p ∈ t.shape.points, inInt32 (p.x + d.x) = true ∧ inInt32 (p.y + d.y) = true) :
    (t.translate d).shape.points = t.shape.points.map (QPoint.shifted d) := by
  unfold ShapeT.translate ShapeT.transformBy
  simp only
  apply List.map_congr_left
  intro p hp
  obtain ⟨hx, hy⟩ := hr p hp
  unfold inInt32 at hx hy
  simp only [Bool.and_eq_true, decide_eq_true_eq] at hx hy
  rw [mapPoint_fromTranslate _ _ _ hd.1 hd.2, wrap32_eq _ hx, wrap32_eq _ hy]
  rfl

theorem shoelaceSum_eq_wrap64 (pts : List QPoint) :
    shoelaceSum 0 pts = wrap64 (crossTerms pts).sum := by
  obtain ⟨k, hk⟩ := shoelaceSum_mod pts 0
  have hr := shoelaceSum_range pts 0 (by decide) (by decide)
  generalize shoelaceSum 0 pts = a at hk hr
  generalize (crossTerms pts).sum = b at hk
  unfold wrap64
  omega

theorem crossTerms_sum_range (pts : List QPoint) :
    (crossTerms pts).sum = ((List.range (pts.length - 1)).map (fun i =>
      (pts.getD i ⟨0, 0⟩).x * (pts.getD (i + 1) ⟨0, 0⟩).y
        - (pts.getD (i + 1) ⟨0, 0⟩).x * (pts.getD i ⟨0, 0⟩).y)).sum := by
  induction pts with
  | nil => rfl
  | cons p ps ih =>
    cases ps with
    | nil => rfl
    | cons q rest =>
      have hl : (p :: q :: rest).length - 1 = rest.length + 1 := by simp
      have hl2 : (q :: rest).length - 1 = rest.length := by simp
      rw [hl, List.range_succ_eq_map, List.map_cons, List.sum_cons, List.map_map]
      rw [hl2] at ih
      simp only [crossTerms, List.sum_cons, ih]
      rfl

theorem getD_length_lastFrom (rest : List QPoint) :
    ∀ p d : QPoint, (p :: rest).getD rest.length d = lastFrom p rest := by
  induction rest with
  | nil => intro p d; rfl
  | cons q rest ih =>
    intro p d
    simp only [List.length_cons, List.getD_cons_succ, lastFrom]
    exact ih q d

theorem cyclicShoelace_cons (p : QPoint) (rest : List QPoint) :
    cyclicShoelace (p :: rest) = (crossTerms (p :: rest)).sum
      + ((lastFrom p rest).x * p.y - p.x * (lastFrom p rest).y) := by
  unfold cyclicShoelace
  rw [crossTerms_sum_range]
  have hl : (p :: rest).length = rest.length + 1 := rfl
  rw [hl, List.range_succ, List.map_append, List.sum_append]
  have hl1 : rest.length + 1 - 1 = rest.length := by omega
  rw [hl1]
  congr 1
  · congr 1
    apply List.map_congr_left
    intro i hi
    have hi2 : i < rest.length := List.mem_range.1 hi
    have hm : (i + 1) % (rest.length + 1) = i + 1 := Nat.mod_eq_of_lt (by omega)
    rw [hm]
  · simp only [List.map_cons, List.map_nil, List.sum_cons, List.sum_nil, Nat.mod_self,
      List.getD_cons_zero, getD_length_lastFrom, add_zero]

theorem cyclicShoelace_closed (pts : List QPoint) (hne : pts ≠ [])
    (h : isClosedPts pts = true) : cyclicShoelace pts = (crossTerms pts).sum := by
  match pts, hne with
  | p :: rest, _ =>
    unfold isClosedPts at h
    simp only [List.head?_cons, getLast?_lastFrom, Option.some.injEq, Bool.or_eq_true,
      beq_iff_eq, Bool.and_eq_true, decide_eq_true_eq] at h
    rcases h with h | ⟨_, h⟩
    · simp at h
    · rw [cyclicShoelace_cons, ← h]
      ring

/-- C13 (as amended): for every closed shape with at least one point (then more than two, the
last equal to the first), with its metrics computed by `updateMetrics()`, whose halved shoelace
sum is below `2^53` in absolute value, `signedArea()` equals the shoelace sum taken cyclically
over the vertex sequence, accumulated in 64 bits, halved and then divided by `10^5`, both cut off
toward zero, and `area()` is its absolute value. -/
theorem signedArea_closed (s : Shape) (hne : s.points ≠ []) (hc : s.isClosed = true)
    (hd : |Int.tdiv (wrap64 (cyclicShoelace s.points)) 2| < 2 ^ 53) :
    s.signedArea = s.cyclicSignedArea ∧ s.area = |s.cyclicSignedArea| := by
  have e : s.signedArea = s.cyclicSignedArea := by
    unfold Shape.signedArea Shape.cyclicSignedArea
    rw [cyclicShoelace_closed s.points hne hc] at hd ⊢
    rw [shoelaceSum_eq_wrap64]
    exact divPrecision_small _ hd
  refine ⟨e, ?_⟩
  unfold Shape.area
  rw [e]

/-- C30 (as amended): for every closed shape with at least one point, its metrics computed by
`updateMetrics()`, and every offset `d` with coordinates between `-2147483647` and `2147483647`
such that each vertex moved by `d` still has `int` coordinates, `translate(d)` moves every
vertex by exactly `d` and leaves `signedArea()` and `area()` unchanged. No condition on the
64-bit sums is needed: the sum of the cross terms of a closed chain does not change when the
chain is moved, and the 64-bit accumulation agrees with it modulo 2^64. -/
theorem translate_area_invariant (t : ShapeT) (d : QPoint)
    (_hne : t.shape.points ≠ [])
    (hc : t.shape.isClosed = true)
    (hd : symInt32 d.x = true ∧ symInt32 d.y = true)
    (hr : ∀ p ∈ t.shape.points, inInt32 (p.x + d.x) = true ∧ inInt32 (p.y + d.y) = true) :
    (t.translate d).shape.points = t.shape.points.map (QPoint.shifted d) ∧
    (t.translate d).shape.signedArea = t.shape.signedArea ∧
    (t.translate d).shape.area = t.shape.area := by
  have hp := translate_points t d hd hr
  have hs : (t.translate d).shape.signedArea = t.shape.signedArea := by
    unfold Shape.signedArea
    rw [hp, shoelaceSum_shifted_closed d _ hc]
  refine ⟨hp, hs, ?_⟩
  unfold Shape.area
  rw [hs]

/-! ## PluginRunner: the result carried by the `finished` signal -/

theorem lastDecoded_cons (toDouble : QString → Option Int) (line : QString)
    (rest : List QString) (out : PluginOutput) :
    lastDecoded toDouble (line :: rest) out
      = lastDecoded toDouble rest (decodeLine toDouble line).2 := by
  unfold lastDecoded
  cases rest with
  | nil => rfl
  | cons l ls =>
    simp only [List.map_cons, List.getLast?_cons_cons]
    cases h : ((decodeLine toDouble l).2 :: ls.map (fun l => (decodeLine toDouble l).2)).getLast?
      with
    | none => simp at h
    | some v => rfl

theorem lastDecoded_append (toDouble : QString → Option Int) (a b : List QString) :
    ∀ out : PluginOutput,
      lastDecoded toDouble (a ++ b) out = lastDecoded toDouble b (lastDecoded toDouble a out) := by
  induction a with
  | nil => intro out; rfl
  | cons l ls ih =>
    intro out
    rw [List.cons_append, lastDecoded_cons, lastDecoded_cons, ih]

theorem readLoop_good (toDouble : QString → Option Int) (name : QString)
    (lines : List QString) :
    ∀ out : PluginOutput, (∀ l ∈ lines, (decodeLine toDouble l).1.status = Status.Ok) →
      readLoop toDouble name lines out
        = ([], lastDecoded toDouble lines out, false,
            lines.map (fun l => (name, (decodeLine toDouble l).2))) := by
  induction lines with
  | nil => intro out _; rfl
  | cons l ls ih =>
    intro out h
    have hl := h l (by simp)
    simp only [readLoop, hl, ne_eq, not_true_eq_false, if_false,
      ih _ (fun x hx => h x (by simp [hx])), List.map_cons, lastDecoded_cons]

theorem readLoop_bad (toDouble : QString → Option Int) (name : QString)
    (good : List QString) (bad : QString) (rest : List QString)
    (hb : (decodeLine toDouble bad).1.status ≠ Status.Ok) :
    ∀ out : PluginOutput, (∀ l ∈ good, (decodeLine toDouble l).1.status = Status.Ok) →
      readLoop toDouble name (good ++ bad :: rest) out
        = (rest, lastDecoded toDouble good out, true,
            good.map (fun l => (name, (decodeLine toDouble l).2))) := by
  induction good with
  | nil =>
    intro out _
    simp only [List.nil_append, readLoop, hb, ne_eq, not_false_eq_true, if_true, List.map_nil]
    rfl
  | cons l ls ih =>
    intro out h
    have hl := h l (by simp)
    have e := ih (decodeLine toDouble l).2 (fun x hx => h x (by simp [hx]))
    show readLoop toDouble name (l :: (ls ++ bad :: rest)) out = _
    simp only [readLoop, hl, ne_eq, not_true_eq_false, if_false]
    rw [e]
    simp only [List.map_cons, lastDecoded_cons]

theorem receiveAll_pluginInput (toDouble : QString → Option Int) (chunks : List (List QString)) :
    ∀ r : PluginRunner,
      (r.receiveAll toDouble chunks).1.pluginInput = r.pluginInput ∧
        (r.receiveAll toDouble chunks).1.pluginName = r.pluginName := by
  induction chunks with
  | nil => intro r; exact ⟨rfl, rfl⟩
  | cons c cs ih =>
    intro r
    simp only [PluginRunner.receiveAll]
    obtain ⟨h1, h2⟩ := ih (r.receive toDouble c).1
    rw [h1, h2]
    exact ⟨rfl, rfl⟩

theorem receiveAll_good (toDouble : QString → Option Int) (chunks : List (List QString)) :
    ∀ r : PluginRunner, r.lines = [] →
      (∀ l ∈ chunks.flatten, (decodeLine toDouble l).1.status = Status.Ok) →
      r.receiveAll toDouble chunks
        = ({ r with pluginOutput := lastDecoded toDouble chunks.flatten r.pluginOutput },
            chunks.flatten.map (fun l => (r.pluginName, (decodeLine toDouble l).2))) := by
  induction chunks with
  | nil =>
    intro r _ _
    rfl
  | cons c cs ih =>
    intro r hr h
    have hc : ∀ l ∈ c, (decodeLine toDouble l).1.status = Status.Ok :=
      fun l hl => h l (by simp [hl])
    have hcs : ∀ l ∈ cs.flatten, (decodeLine toDouble l).1.status = Status.Ok := by
      intro l hl
      apply h l
      rw [List.flatten_cons]
      exact List.mem_append_right _ hl
    have e : r.receive toDouble c
        = ({ r with pluginOutput := lastDecoded toDouble c r.pluginOutput },
            c.map (fun l => (r.pluginName, (decodeLine toDouble l).2))) := by
      unfold PluginRunner.receive PluginRunner.processReadyRead
      simp only [hr, List.nil_append, readLoop_good toDouble r.pluginName c r.pluginOutput hc,
        Bool.or_false]
    have e2 := ih { r with pluginOutput := lastDecoded toDouble c r.pluginOutput } hr hcs
    simp only [PluginRunner.receiveAll, e]
    rw [e2]
    simp only [List.flatten_cons, List.map_append, lastDecoded_append]

/-- C26: a runner created for a job and fed any sequence of arrivals of complete lines emits,
when the process exits, a `finished` signal with the exit code, its name and the job it was
created with. When every line decodes, the result carried is the decoding of the last line
(the result without sheets when there was no line), every line has been surfaced as an
`outputUpdated` signal, and `kill()` has not been called. A line that fails to decode, met
after lines that decode, ends `processReadyRead()` with `kill()` called; it is not surfaced as
an `outputUpdated` signal and the stored result is the one of the line before it (the result
stored before when there is none). -/
theorem runner_finished_carries_last (toDouble : QString → Option Int) :
    (∀ (name path : QString) (job : PluginInput) (chunks : List (List QString))
        (exitCode : Int),
      (((PluginRunner.create name path job).receiveAll toDouble chunks).1.processFinished
          exitCode).pluginInput = job ∧
      (((PluginRunner.create name path job).receiveAll toDouble chunks).1.processFinished
          exitCode).pluginName = name ∧
      (((PluginRunner.create name path job).receiveAll toDouble chunks).1.processFinished
          exitCode).exitCode = exitCode ∧
      ((∀ l ∈ chunks.flatten, (decodeLine toDouble l).1.status = Status.Ok) →
        ((PluginRunner.create name path job).receiveAll toDouble chunks).1.processFinished
            exitCode
          = ⟨exitCode, name, job, lastDecoded toDouble chunks.flatten ⟨[]⟩⟩ ∧
        ((PluginRunner.create name path job).receiveAll toDouble chunks).2
          = chunks.flatten.map (fun l => (name, (decodeLine toDouble l).2)) ∧
        ((PluginRunner.create name path job).receiveAll toDouble chunks).1.killed = false)) ∧
    (∀ (r : PluginRunner) (good : List QString) (bad : QString) (rest : List QString),
      r.lines = good ++ bad :: rest →
      (∀ l ∈ good, (decodeLine toDouble l).1.status = Status.Ok) →
      (decodeLine toDouble bad).1.status ≠ Status.Ok →
      PluginRunner.processReadyRead toDouble r
        = ({ r with lines := rest, pluginOutput := lastDecoded toDouble good r.pluginOutput,
                    killed := true },
            good.map (fun l => (r.pluginName, (decodeLine toDouble l).2)))) := by
  constructor
  · intro name path job chunks exitCode
    obtain ⟨h1, h2⟩ := receiveAll_pluginInput toDouble chunks (PluginRunner.create name path job)
    refine ⟨h1, h2, rfl, ?_⟩
    intro h
    rw [receiveAll_good toDouble chunks _ rfl h]
    exact ⟨rfl, rfl, rfl⟩
  · intro r good bad rest hl hg hb
    unfold PluginRunner.processReadyRead
    simp only [hl, readLoop_bad toDouble r.pluginName good bad rest hb r.pluginOutput hg,
      Bool.or_true]

/-! ## The orchestrator: kept results -/

theorem startPlugins_validOutputs (input : PluginInput) (names : List QString) :
    ∀ b : BakeryObj, (BakeryObj.startPlugins input names b).1.validOutputs = b.validOutputs := by
  induction names with
  | nil => intro b; rfl
  | cons n ns ih =>
    intro b
    simp only [BakeryObj.startPlugins]
    rw [ih]

theorem startRun_validOutputs (b : BakeryObj) (input : PluginInput) :
    (b.startRun input).1.validOutputs = [] := by
  unfold BakeryObj.startRun
  simp only
  split_ifs
  · rfl
  · rw [startPlugins_validOutputs]

theorem pluginFinished_invalid (I : List QPoint → List QPoint → List QPoint) (s : BakeryObj)
    (ev : Finished) (h : isOutputValidForInput I ev.pluginInput ev.pluginOutput = false) :
    (s.pluginFinished I ev).1.validOutputs = s.validOutputs := by
  unfold BakeryObj.pluginFinished
  simp [h]

theorem pluginFinished_kept (I : List QPoint → List QPoint → List QPoint) (s : BakeryObj)
    (ev : Finished) (e : QString × PluginOutput)
    (he : e ∈ (s.pluginFinished I ev).1.validOutputs) :
    e ∈ s.validOutputs ∨
      (ev.pluginName = e.1 ∧ ev.pluginOutput = e.2 ∧
        isOutputValidForInput I ev.pluginInput ev.pluginOutput = true) := by
  unfold BakeryObj.pluginFinished at he
  cases hv : isOutputValidForInput I ev.pluginInput ev.pluginOutput with
  | false =>
    simp only [hv, Bool.false_eq_true, if_false] at he
    exact Or.inl he
  | true =>
    simp only [hv, if_true, hashInsert, List.mem_cons, List.mem_filter] at he
    rcases he with he | he
    · right
      rw [he]
      exact ⟨rfl, rfl, rfl⟩
    · exact Or.inl he.1

theorem pluginsFinished_kept (I : List QPoint → List QPoint → List QPoint)
    (events : List Finished) :
    ∀ (s : BakeryObj) (e : QString × PluginOutput),
      e ∈ (s.pluginsFinished I events).validOutputs →
      e ∈ s.validOutputs ∨
        ∃ ev ∈ events, ev.pluginName = e.1 ∧ ev.pluginOutput = e.2 ∧
          isOutputValidForInput I ev.pluginInput ev.pluginOutput = true := by
  induction events with
  | nil => intro s e he; exact Or.inl he
  | cons ev evs ih =>
    intro s e he
    unfold BakeryObj.pluginsFinished at he
    rw [List.foldl_cons] at he
    rcases ih _ e he with h | ⟨ev2, hm, h⟩
    · rcases pluginFinished_kept I s ev e h with h2 | h2
      · exact Or.inl h2
      · exact Or.inr ⟨ev, by simp, h2⟩
    · exact Or.inr ⟨ev2, by simp [hm], h⟩

/-- C24: in every state reached from the start of a run of `computeAllOutputs`, which clears
`_validOutputs`, by any sequence of `finished` signals handled by `_pluginFinished`, each entry
of `_validOutputs` is the name and the result of one of these signals, and that result is valid
for the job carried by the signal; a `finished` signal whose result is not valid for its job
leaves `_validOutputs` as it is. -/
theorem validOutputs_only_validated (I : List QPoint → List QPoint → List QPoint) :
    (∀ (b : BakeryObj) (input : PluginInput) (events : List Finished)
        (e : QString × PluginOutput),
      e ∈ ((b.startRun input).1.pluginsFinished I events).validOutputs →
        ∃ ev ∈ events, ev.pluginName = e.1 ∧ ev.pluginOutput = e.2 ∧
          isOutputValidForInput I ev.pluginInput ev.pluginOutput = true) ∧
    (∀ (s : BakeryObj) (ev : Finished),
      isOutputValidForInput I ev.pluginInput ev.pluginOutput = false →
        (s.pluginFinished I ev).1.validOutputs = s.validOutputs) := by
  constructor
  · intro b input events e he
    rcases pluginsFinished_kept I events _ e he with h | h
    · rw [startRun_validOutputs] at h
      simp at h
    · exact h
  · intro s ev h
    exact pluginFinished_invalid I s ev h

/-! ## The orchestrator: no enabled worker -/

/-- C25 (as amended): when no plugin is loaded, `computeAllOutputs` in synchronous mode starts
no worker, returns an empty hash and sets `ok` to false. When plugins are loaded but none is
enabled, and no runner is entered, it starts no worker and returns an empty hash as well, and
sets `ok` to true. -/
theorem computeAllOutputs_no_enabled (I : List QPoint → List QPoint → List QPoint)
    (b : BakeryObj) (input : PluginInput) (batches : List (List Finished)) :
    (b.pluginsMetadata = [] →
      b.computeAllOutputs I input true batches
        = some ⟨{ b with validOutputs := [] }, [], some false, []⟩) ∧
    (b.pluginsMetadata ≠ [] → b.getEnabledPlugins = [] → b.pluginsRunners = [] →
      b.computeAllOutputs I input true batches
        = some ⟨{ b with validOutputs := [] }, [], some true, []⟩) := by
  constructor
  · intro h
    unfold BakeryObj.computeAllOutputs
    simp [h]
  · intro h he hr
    have hlen : b.pluginsMetadata.length ≠ 0 := by
      intro h0
      exact h (List.length_eq_zero.1 h0)
    have he2 : BakeryObj.getEnabledPlugins { b with validOutputs := [] } = [] := he
    unfold BakeryObj.computeAllOutputs
    simp only [hlen, if_false, he2, BakeryObj.startPlugins, if_true]
    cases batches with
    | nil => simp [BakeryObj.waitLoop, hr]
    | cons x xs => simp [BakeryObj.waitLoop, hr]

/-! ## Cached metrics -/

theorem updateMetrics_upToDate (o : CachedShape) (h : o._updateMetrics = true) :
    o.updateMetrics.UpToDate := by
  unfold CachedShape.updateMetrics CachedShape.UpToDate
  simp only [h, Bool.not_true, Bool.false_eq_true, if_false]
  exact ⟨rfl, rfl, rfl, rfl, rfl, rfl⟩

theorem updateMetrics_flag (o : CachedShape) :
    o.updateMetrics._updateMetrics = o._updateMetrics := by
  unfold CachedShape.updateMetrics
  split_ifs <;> rfl

theorem ofPolygon_upToDate (polygon : List QPoint) :
    (CachedShape.ofPolygon polygon).UpToDate ∧
      (CachedShape.ofPolygon polygon)._updateMetrics = true :=
  ⟨updateMetrics_upToDate _ rfl, by rw [CachedShape.ofPolygon, updateMetrics_flag]⟩

/-- C23: with `_updateMetrics` true, the cached metrics are the values computed from the
current points after `append`, after `replace` and after `setUpdateMetrics(true)`. After
`removeLast`, `insert` or `remove` of the `QVector` base they are the values of the points
before the call: for the closed triangle (1,0), (2,2), (0,2), (1,0), `removeLast()` leaves
`signedArea()` at 200000 and `edges()` at three edges, while the three remaining points give
300000 and two edges; `insert` and `remove` leave three edges where the points give four and
two. -/
theorem cached_metrics_after_mutation :
    (∀ (o : CachedShape) (p : QPoint), o._updateMetrics = true → (o.append p).UpToDate) ∧
    (∀ (o : CachedShape) (i : Nat) (p : QPoint), o._updateMetrics = true →
      (o.replace i p).UpToDate) ∧
    (∀ o : CachedShape, (o.setUpdateMetrics true).UpToDate) ∧
    ((CachedShape.ofPolygon closedTriangle.points).UpToDate ∧
      (CachedShape.ofPolygon closedTriangle.points)._updateMetrics = true ∧
      (CachedShape.ofPolygon closedTriangle.points).removeLast.signedArea = 200000 ∧
      (CachedShape.ofPolygon closedTriangle.points).removeLast.shape.signedArea = 300000 ∧
      (CachedShape.ofPolygon closedTriangle.points).removeLast.edges.length = 3 ∧
      (CachedShape.ofPolygon closedTriangle.points).removeLast.shape.edges.length = 2 ∧
      ((CachedShape.ofPolygon closedTriangle.points).insert 1 ⟨0, 0⟩).edges.length = 3 ∧
      ((CachedShape.ofPolygon closedTriangle.points).insert 1 ⟨0, 0⟩).shape.edges.length = 4 ∧
      ((CachedShape.ofPolygon closedTriangle.points).remove 1).edges.length = 3 ∧
      ((CachedShape.ofPolygon closedTriangle.points).remove 1).shape.edges.length = 2) := by
  refine ⟨fun o p h => updateMetrics_upToDate _ h, fun o i p h => updateMetrics_upToDate _ h,
    fun o => ?_, (ofPolygon_upToDate _).1, (ofPolygon_upToDate _).2, ?_⟩
  · unfold CachedShape.setUpdateMetrics
    simp only [if_true]
    exact updateMetrics_upToDate _ rfl
  · have e : ∀ o : CachedShape, o.updateMetrics._signedArea
        = if o._updateMetrics then o.shape.signedArea else o._signedArea := by
      intro o
      unfold CachedShape.updateMetrics
      cases o._updateMetrics <;> rfl
    have e2 : ∀ o : CachedShape, o.updateMetrics._edges
        = if o._updateMetrics then o.shape.edges else o._edges := by
      intro o
      unfold CachedShape.updateMetrics
      cases o._updateMetrics <;> rfl
    have e3 : ∀ o : CachedShape, o.updateMetrics.points = o.points := by
      intro o
      unfold CachedShape.updateMetrics
      cases o._updateMetrics <;> rfl
    simp only [CachedShape.removeLast, CachedShape.insert, CachedShape.remove,
      CachedShape.signedArea, CachedShape.edges, CachedShape.shape, CachedShape.ofPolygon, e,
      e2, e3, if_true]
    decide

/-! ## Evaluations on concrete values -/

set_option maxRecDepth 8000

/-- Witness for `shape_wire_roundtrip`: the closed unit square is decoded to itself. -/
theorem shape_wire_roundtrip_witness :
    (decodeShape toDoubleDec ⟨encodeShape unitSquare, Status.Ok⟩ Shape.default).2 = unitSquare :=
  (shape_wire_roundtrip toDoubleDec toDoubleDec_readsIntegers unitSquare Shape.default
    (by decide) (by decide)).2.2.2.2.2 (by decide)

/-- C9, counterexamples to the claim as stated: the shape with an empty name is written as
`text_begin  text_end` and its decoding ends with status `ReadCorruptData`; the closed chain
`(1,1) (2,2) (1,1) (1,1)` is written without its final point, the three points read back are
already closed, and the decoded shape differs from the original. -/
theorem shape_wire_roundtrip_counterexample :
    (decodeShape toDoubleDec ⟨encodeShape ⟨[], unitSquare.points⟩, Status.Ok⟩ Shape.default).1.status
        = Status.ReadCorruptData ∧
    doubledEnd.isClosed = true ∧
    (decodeShape toDoubleDec ⟨encodeShape doubledEnd, Status.Ok⟩ Shape.default).1.status
        = Status.Ok ∧
    (decodeShape toDoubleDec ⟨encodeShape doubledEnd, Status.Ok⟩ Shape.default).2
        ≠ doubledEnd.ensureClosed true := by
  decide

/-- Witness for `pluginInput_wire_roundtrip`: the job of 150000 x 250000 holding the closed
unit square twice is decoded to itself. -/
theorem pluginInput_wire_roundtrip_witness :
    (decodePluginInput toDoubleDec
        ⟨encodePluginInput ⟨150000, 250000, [unitSquare, unitSquare]⟩, Status.Ok⟩ ⟨0, 0, []⟩).2
      = ⟨150000, 250000, [unitSquare, unitSquare]⟩ :=
  (pluginInput_wire_roundtrip toDoubleDec toDoubleDec_readsIntegers
    ⟨150000, 250000, [unitSquare, unitSquare]⟩ ⟨0, 0, []⟩ (by decide)).2.2 (by decide)

/-- C6, counterexample to the claim as stated: a job holding the open unit square (four
points) is decoded, with status `Ok`, to a job that differs from the original: the decoded
shape has five points. -/
theorem pluginInput_wire_roundtrip_counterexample :
    (decodePluginInput toDoubleDec
        ⟨encodePluginInput ⟨150000, 250000, [openSquare]⟩, Status.Ok⟩ ⟨0, 0, []⟩).1.status
      = Status.Ok ∧
    (decodePluginInput toDoubleDec
        ⟨encodePluginInput ⟨150000, 250000, [openSquare]⟩, Status.Ok⟩ ⟨0, 0, []⟩).2
      ≠ ⟨150000, 250000, [openSquare]⟩ := by
  decide

/-- Witness for `pluginOutput_wire_roundtrip`: the result with one sheet holding the closed
unit square is decoded to itself. -/
theorem pluginOutput_wire_roundtrip_witness :
    (decodePluginOutput toDoubleDec
        ⟨encodePluginOutput ⟨[⟨550000, 250000, [unitSquare]⟩]⟩, Status.Ok⟩ ⟨[]⟩).2
      = ⟨[⟨550000, 250000, [unitSquare]⟩]⟩ :=
  (pluginOutput_wire_roundtrip toDoubleDec toDoubleDec_readsIntegers
    ⟨[⟨550000, 250000, [unitSquare]⟩]⟩ ⟨[]⟩ (by decide)).2.2.2 (by decide)

/-- C7, counterexample to the claim as stated: a result whose sheet holds the open unit
square (four points) is decoded, with status `Ok`, to a sheet whose shape has other vertices
than the original shape. -/
theorem pluginOutput_wire_roundtrip_counterexample :
    (decodePluginOutput toDoubleDec
        ⟨encodePluginOutput ⟨[⟨550000, 250000, [openSquare]⟩]⟩, Status.Ok⟩ ⟨[]⟩).1.status
      = Status.Ok ∧
    (decodePluginOutput toDoubleDec
        ⟨encodePluginOutput ⟨[⟨550000, 250000, [openSquare]⟩]⟩, Status.Ok⟩ ⟨[]⟩).2.sheets.map
          (fun sh => sh.shapes.map Shape.points)
      ≠ [[openSquare.points]] := by
  decide

/-- Witness for `pluginMetadata_wire_roundtrip`: metadata with one blank inside each field. -/
theorem pluginMetadata_wire_roundtrip_witness :
    (decodePluginMetadata
        ⟨encodePluginMetadata ⟨"my name".toList, "my type".toList, "my author".toList,
          "my license".toList⟩, Status.Ok⟩ ⟨[], [], [], []⟩).2
      = ⟨"my name".toList, "my type".toList, "my author".toList, "my license".toList⟩ :=
  (pluginMetadata_wire_roundtrip
    ⟨"my name".toList, "my type".toList, "my author".toList, "my license".toList⟩
    ⟨[], [], [], []⟩ (by decide) (by decide) (by decide) (by decide)).2

/-- C8, counterexamples to the claim as stated: metadata with an empty license is decoded
with status `ReadCorruptData`; metadata whose name has two blanks in a row is decoded, with
status `Ok`, to a name with one blank. -/
theorem pluginMetadata_wire_roundtrip_counterexample :
    (decodePluginMetadata
        ⟨encodePluginMetadata ⟨"n".toList, "t".toList, "a".toList, []⟩, Status.Ok⟩
        ⟨[], [], [], []⟩).1.status = Status.ReadCorruptData ∧
    (decodePluginMetadata
        ⟨encodePluginMetadata ⟨"my  name".toList, "t".toList, "a".toList, "l".toList⟩, Status.Ok⟩
        ⟨[], [], [], []⟩)
      = (⟨[' '], Status.Ok⟩, ⟨"my name".toList, "t".toList, "a".toList, "l".toList⟩) := by
  decide

/-- Witness for `pluginInput_precision_rejected`: a job sent with precision 1000. -/
theorem pluginInput_precision_rejected_witness :
    (decodePluginInput toDoubleDec
        ⟨"plugininput_begin 1000 150000 250000 0 shapelist_begin shapelist_end plugininput_end ".toList,
          Status.Ok⟩ ⟨0, 0, []⟩).1.status = Status.ReadCorruptData :=
  pluginInput_precision_rejected toDoubleDec _ _ rfl (by decide) (by decide) (by decide)

/-- C11, witness: the stream of the test row `Wrong number of values`, which declares four
points and carries three pairs, is rejected. -/
theorem decodeShape_count_mismatch_witness :
    (decodeShape toDoubleDec
      ⟨"shape_begin text_begin testshape text_end 4 0 0 0 0.1 0.1 0.1 shape_end".toList,
        Status.Ok⟩ Shape.default).1.status ≠ Status.Ok :=
  (decodeShape_count_mismatch toDoubleDec (by decide)
    ⟨"shape_begin text_begin testshape text_end 4 0 0 0 0.1 0.1 0.1 shape_end".toList, Status.Ok⟩
    Shape.default 4 3 ⟨" shape_end".toList, Status.Ok⟩
    rfl (by decide) (by decide) (by decide) (by decide) (by decide)).1
    (by decide) (by decide)

/-- C11, counterexample: the declared count -1 differs from the number of pairs before
`shape_end`, which is 0, and the decoder accepts the stream: the status stays `Ok` and the
shape read has no points. The stream is what the encoder writes for the shape without
points. -/
theorem decodeShape_negative_count_counterexample :
    decodeShape toDoubleDec
        ⟨"shape_begin text_begin a text_end -1 shape_end".toList, Status.Ok⟩ Shape.default
      = (⟨[], Status.Ok⟩, ⟨['a'], []⟩) ∧
    encodeShape ⟨['a'], []⟩ = "shape_begin text_begin a text_end -1 shape_end ".toList := by
  decide

/-- C12, witness: the stream of the test row `Wrong format of number of values`, whose point
count is the token `4.2`, ends with status `ReadCorruptData`, and so does the stream of the
row `Single invalid value`, whose fourth coordinate is the word `float`. -/
theorem decoders_reject_unparsable_number_witness :
    (decodeShape toDoubleDec
      ⟨"shape_begin text_begin testshape text_end 4.2 0 0 0 0.1 0.1 0.1 0.1 0 shape_end".toList,
        Status.Ok⟩ Shape.default).1.status = Status.ReadCorruptData ∧
    (decodeShape toDoubleDec
      ⟨"shape_begin text_begin testshape text_end 4 0 0 float 0.1 0.1 0.1 0.1 0 shape_end".toList,
        Status.Ok⟩ Shape.default).1.status = Status.ReadCorruptData :=
  ⟨(decoders_reject_unparsable_number toDoubleDec).1
      ⟨"shape_begin text_begin testshape text_end 4.2 0 0 0 0.1 0.1 0.1 0.1 0 shape_end".toList,
        Status.Ok⟩ Shape.default rfl (by decide) (by decide) (by decide) (by decide),
    (decoders_reject_unparsable_number toDoubleDec).2.1
      ⟨"shape_begin text_begin testshape text_end 4 0 0 float 0.1 0.1 0.1 0.1 0 shape_end".toList,
        Status.Ok⟩ Shape.default 4 1 ⟨" float 0.1 0.1 0.1 0.1 0 shape_end".toList, Status.Ok⟩
      rfl (by decide) (by decide) (by decide) (by decide) (by decide) (by decide) (by decide)⟩

/-- C12, counterexample: the coordinates `0.5` and `2.5` are not integers (`toInt` rejects
them), and the Shape decoder accepts them: the status stays `Ok` and the point read is
`(0, 2)`. The PluginInput decoder accepts the sheet height `2.5` in the same way. -/
theorem decodeShape_fraction_counterexample :
    toInt "0.5".toList = none ∧ toInt "2.5".toList = none ∧
    decodeShape toDoubleDec
        ⟨"shape_begin text_begin a text_end 1 0.5 2.5 shape_end".toList, Status.Ok⟩
        Shape.default
      = (⟨[], Status.Ok⟩, ⟨['a'], [⟨0, 2⟩, ⟨0, 2⟩]⟩) ∧
    decodePluginInput toDoubleDec
        ⟨("plugininput_begin 100000 300000 2.5 0 shapelist_begin shapelist_end " ++
          "plugininput_end").toList, Status.Ok⟩ ⟨0, 0, []⟩
      = (⟨[], Status.Ok⟩, ⟨300000, 2, []⟩) := by
  decide

theorem outputScore_rectOutput (name : QString) (w h a : Int)
    (ha : (rectSheet name w h).shapesArea = a) :
    outputScore (rectOutput name w h) = some ((a : ℚ) / 100000 * 100) := by
  have harea : (rectSheet name w h).area = 100000 := by
    show divPrecision (100000 * 100000) = 100000
    decide
  have hu : (rectSheet name w h).utilitization = some ((a : ℚ) / 100000) := by
    rw [utilitization_eq, harea, ha]
    norm_num
  unfold outputScore rectOutput
  dsimp only
  rw [List.isEmpty_cons, if_neg Bool.false_ne_true, List.foldl_cons, List.foldl_nil, hu,
    List.length_singleton]
  simp [QReal.add, QReal.mul, QReal.div]

theorem outputScoreDouble_of_some (output : PluginOutput) (q : ℚ)
    (h : outputScore output = some q) : outputScoreDouble output = some (WithTop.some q) := by
  unfold outputScoreDouble
  rw [h]

theorem outputScoreDouble_outputA : outputScoreDouble outputA = some (WithTop.some 40) := by
  have h : (rectSheet ['a'] 100000 40000).shapesArea = 40000 := by decide
  apply outputScoreDouble_of_some
  rw [outputA, outputScore_rectOutput _ _ _ _ h]
  norm_num

theorem outputScoreDouble_outputB : outputScoreDouble outputB = some (WithTop.some 75) := by
  have h : (rectSheet ['b'] 100000 75000).shapesArea = 75000 := by decide
  apply outputScoreDouble_of_some
  rw [outputB, outputScore_rectOutput _ _ _ _ h]
  norm_num

theorem outputScoreDouble_outputC : outputScoreDouble outputC = some (WithTop.some 75) := by
  have h : (rectSheet ['c'] 75000 100000).shapesArea = 75000 := by decide
  apply outputScoreDouble_of_some
  rw [outputC, outputScore_rectOutput _ _ _ _ h]
  norm_num

theorem outputScoreDouble_outputNaN : outputScoreDouble outputNaN = none := by
  decide

theorem outputScoreDouble_ab (o : PluginOutput)
    (ho : o ∈ ([(['A'], outputA), (['B'], outputB)] : List (QString × PluginOutput)).map
      Prod.snd) :
    outputScoreDouble o ≠ none := by
  simp only [List.map_cons, List.map_nil, List.mem_cons, List.mem_singleton,
    List.not_mem_nil, or_false] at ho
  rcases ho with rfl | rfl
  · rw [outputScoreDouble_outputA]; simp
  · rw [outputScoreDouble_outputB]; simp

/-- C3, the failing inputs with the score of the program. For 17 times the result "B", whose
score is 75, the first loop of `std::__unguarded_partition`, with one of them as the pivot,
passes the 16 others and reads past the end of the list. For the result "B" followed by a
result whose only sheet is the default `Sheet()`, with the score NaN, `findBestOutput` returns
the latter. Of the two results "A" and "B" it returns one that scores at least as much as
either. -/
theorem findBestOutput_max_witness :
    (outputScoreDouble outputB = some (WithTop.some 75) ∧
      unguardedPartitionScan (operatorLess outputScoreDouble) outputB
        (List.replicate 16 outputB) = none) ∧
    (outputScoreDouble outputNaN = none ∧
      findBestOutput outputScoreDouble insertionSort [(['B'], outputB), (['N'], outputNaN)]
        = outputNaN) ∧
    (∀ o ∈ [outputA, outputB], ∃ a b, outputScoreDouble o = some a ∧
      outputScoreDouble (findBestOutput outputScoreDouble insertionSort
        [(['A'], outputA), (['B'], outputB)]) = some b ∧ a ≤ b) :=
  ⟨⟨outputScoreDouble_outputB,
      (findBestOutput_max outputScoreDouble).2.1 outputB (List.replicate 16 outputB)
        (by rw [outputScoreDouble_outputB]; exact Option.some_ne_none _)
        (fun x hx => by rw [List.eq_of_mem_replicate hx])⟩,
    ⟨outputScoreDouble_outputNaN,
      (findBestOutput_max outputScoreDouble).2.2 ['B'] ['N'] outputB outputNaN
        outputScoreDouble_outputNaN⟩,
    (((findBestOutput_max outputScoreDouble).1 [(['A'], outputA), (['B'], outputB)]
      (by decide) outputScoreDouble_ab).2 (by decide)).2⟩

theorem outputScoreDouble_abc (o : PluginOutput)
    (ho : o ∈ ([(['A'], outputA), (['B'], outputB), (['C'], outputC)]
      : List (QString × PluginOutput)).map Prod.snd) :
    outputScoreDouble o ≠ none := by
  simp only [List.map_cons, List.map_nil, List.mem_cons, List.mem_singleton,
    List.not_mem_nil, or_false] at ho
  rcases ho with rfl | rfl | rfl
  · rw [outputScoreDouble_outputA]; simp
  · rw [outputScoreDouble_outputB]; simp
  · rw [outputScoreDouble_outputC]; simp

/-- Witness for `findBestOutput_ties_first`: the results "A", "B", "C" split around the
result returned, with smaller scores before it and no larger score after it. -/
theorem findBestOutput_ties_first_witness :
    ∃ pre post b,
      ([(['A'], outputA), (['B'], outputB), (['C'], outputC)]
        : List (QString × PluginOutput)).map Prod.snd
        = pre ++ findBestOutput outputScoreDouble insertionSort
            [(['A'], outputA), (['B'], outputB), (['C'], outputC)] :: post ∧
      outputScoreDouble (findBestOutput outputScoreDouble insertionSort
            [(['A'], outputA), (['B'], outputB), (['C'], outputC)]) = some b ∧
      (∀ x ∈ pre, ∃ a, outputScoreDouble x = some a ∧ a < b) ∧
      (∀ x ∈ post, ∃ a, outputScoreDouble x = some a ∧ a ≤ b) :=
  findBestOutput_ties_first outputScoreDouble
    [(['A'], outputA), (['B'], outputB), (['C'], outputC)] (by decide) (by decide)
    outputScoreDouble_abc

/-- C4, counterexample: for the results "A", "B", "C" with the scores 40, 75, 75
`findBestOutput` returns "B", the first of the two results with the maximum score, and not
"C", the last of them. With a third result of the score NaN after "B" and "C" it returns that
one, which is none of the tied maxima. With 17 results of the score 75 the first loop of
`std::__unguarded_partition` passes the 16 results behind the pivot, which all compare `<=` to
it, and reads past the end of the list. -/
theorem findBestOutput_ties_counterexample :
    (outputScoreDouble outputA = some (WithTop.some 40) ∧
      outputScoreDouble outputB = some (WithTop.some 75) ∧
      outputScoreDouble outputC = some (WithTop.some 75) ∧
      findBestOutput outputScoreDouble insertionSort
          [(['A'], outputA), (['B'], outputB), (['C'], outputC)] = outputB ∧
      findBestOutput outputScoreDouble insertionSort
          [(['A'], outputA), (['B'], outputB), (['C'], outputC)] ≠ outputC) ∧
    (outputScoreDouble outputNaN = none ∧
      findBestOutput outputScoreDouble insertionSort
          [(['B'], outputB), (['C'], outputC), (['N'], outputNaN)] = outputNaN) ∧
    unguardedPartitionScan (operatorLess outputScoreDouble) outputB
      (List.replicate 16 outputB) = none := by
  have hB : findBestOutput outputScoreDouble insertionSort
      [(['A'], outputA), (['B'], outputB), (['C'], outputC)] = outputB := by
    rw [findBestOutput_insertionSort outputScoreDouble ⊤ _ _ _ outputScoreDouble_abc]
    have h1 : (WithTop.some (40 : ℚ)) < WithTop.some 75 :=
      WithTop.coe_lt_coe.2 (by norm_num)
    have h2 : ¬ (WithTop.some (75 : ℚ)) < WithTop.some 75 := lt_irrefl _
    simp only [List.map_cons, List.map_nil, firstMax]
    simp only [outputScoreDouble_outputA, outputScoreDouble_outputB, Option.getD_some, h1,
      if_true]
    simp only [outputScoreDouble_outputB, outputScoreDouble_outputC, Option.getD_some, h2,
      if_false]
  refine ⟨⟨outputScoreDouble_outputA, outputScoreDouble_outputB, outputScoreDouble_outputC, hB,
    ?_⟩, ⟨outputScoreDouble_outputNaN, ?_⟩, ?_⟩
  · rw [hB]
    decide
  · simp [findBestOutput, insertionSort, insertionStep, unguardedLinearInsert, operatorLess,
      outputScoreDouble_outputNaN, outputScoreDouble_outputB, outputScoreDouble_outputC]
  · apply unguardedPartitionScan_tied
    intro x hx
    rw [List.eq_of_mem_replicate hx]
    simp [operatorLess, outputScoreDouble_outputB]

/-- C13, witness: the triangle (1,0), (2,2), (0,2) of `TestShape::area`, closed by
`ensureClosed()`, has the signed area of the cyclic shoelace sum and the area 200000. -/
theorem signedArea_closed_witness :
    closedTriangle.points ≠ [] ∧ closedTriangle.isClosed = true ∧
      |Int.tdiv (wrap64 (cyclicShoelace closedTriangle.points)) 2| < 2 ^ 53 ∧
      closedTriangle.signedArea = closedTriangle.cyclicSignedArea ∧
      closedTriangle.area = |closedTriangle.cyclicSignedArea| ∧ closedTriangle.area = 200000 :=
  ⟨by decide, by decide, by decide,
    (signedArea_closed closedTriangle (by decide) (by decide) (by decide)).1,
    (signedArea_closed closedTriangle (by decide) (by decide) (by decide)).2, by decide⟩

/-- C13, counterexample. For the triangle (1,0), (2,2), (0,2) given by its three points, without
the repeated first point, `signedArea()` is 300000 while the cyclic shoelace sum gives 200000:
the loop of `updateMetrics()` leaves out the edge from the last vertex back to the first. For
the closed triangle (0,0), (2000000001,0), (0,9199998) the halved sum is 9199998004599999, above
`2^53`; its division by the `double` `1.0E+5` gives 91999980046, one more than the quotient cut
off toward zero. A shape made by `Shape(QString)` has no points, so it is closed, and
`signedArea()` returns the member that no one has written, here 7. -/
theorem signedArea_open_counterexample :
    (openTriangle.points.length = 3 ∧ openTriangle.isClosed = false ∧
      openTriangle.signedArea = 300000 ∧ openTriangle.area = 300000 ∧
      openTriangle.cyclicSignedArea = 200000) ∧
    (wideTriangle.isClosed = true ∧
      Int.tdiv (wrap64 (cyclicShoelace wideTriangle.points)) 2 = 9199998004599999 ∧
      wideTriangle.signedArea = 91999980046 ∧ wideTriangle.cyclicSignedArea = 91999980045) ∧
    ((CachedShape.named ['n'] 7).shape.isClosed = true ∧
      (CachedShape.named ['n'] 7).signedArea = 7 ∧
      (CachedShape.named ['n'] 7).shape.cyclicSignedArea = 0) := by
  decide

/-- C14, witness: three points on a line through the origin have cross terms 0 and the
centroid (0,0). -/
theorem centroid_zero_terms_witness :
    (Shape.mk ['l'] [⟨1, 1⟩, ⟨2, 2⟩, ⟨3, 3⟩]).centroid = ⟨0, 0⟩ :=
  (centroid_zero_terms ⟨['l'], [⟨1, 1⟩, ⟨2, 2⟩, ⟨3, 3⟩]⟩).2.1 (by decide)

/-- C14, counterexample: three shapes with signed area 0 whose centroid is not (0,0): a
closed self-crossing chain whose shoelace sum cancels, a shape of two points, and a triangle
whose halved shoelace sum is below `10^5`. -/
theorem centroid_zero_area_counterexample :
    (shoelaceSum 0 bowTie.points = 0 ∧ bowTie.signedArea = 0 ∧ bowTie.centroid = ⟨-8, 0⟩) ∧
    ((Shape.mk ['s'] [⟨1, 0⟩, ⟨0, 1⟩]).signedArea = 0 ∧
      (Shape.mk ['s'] [⟨1, 0⟩, ⟨0, 1⟩]).centroid = ⟨1, 1⟩) ∧
    ((Shape.mk ['t'] [⟨0, 0⟩, ⟨0, 6⟩, ⟨6, 6⟩, ⟨0, 0⟩]).signedArea = 0 ∧
      (Shape.mk ['t'] [⟨0, 0⟩, ⟨0, 6⟩, ⟨6, 6⟩, ⟨0, 0⟩]).centroid = ⟨2, 4⟩) := by
  decide

/-- C15, witness: the square with corners (0,0) and (150000,150000) of `TestShape::centroid`
has the centroid (75000,75000) in both orientations. -/
theorem centroid_rectangle_witness :
    (rectangle ['q'] 0 0 150000 150000).centroid = ⟨75000, 75000⟩ ∧
    (rectangleRev ['q'] 0 0 150000 150000).centroid = ⟨75000, 75000⟩ :=
  centroid_rectangle ['q'] 0 0 150000 150000 (by decide) (by decide) (by decide) (by decide)
    (by decide) (by decide)

/-- C18, witness: the two points of the test row `Empty hull, 2 points`, repeated, give the
empty shape. -/
theorem convexHull_few_points_witness :
    (Shape.mk ['p'] [⟨0, 0⟩, ⟨0, 100000⟩, ⟨0, 0⟩, ⟨0, 100000⟩, ⟨0, 100000⟩]).convexHull
        = Shape.default ∧
      (Shape.mk ['p'] [⟨0, 0⟩, ⟨0, 100000⟩, ⟨0, 0⟩, ⟨0, 100000⟩, ⟨0, 100000⟩]).convexHull.points
        = [] :=
  convexHull_few_points ⟨['p'], [⟨0, 0⟩, ⟨0, 100000⟩, ⟨0, 0⟩, ⟨0, 100000⟩, ⟨0, 100000⟩]⟩
    (by decide)

/-- C19, failing input: for the six distinct points (0,0), (2,0), (1,0), (3,0), (1,1), (0,2)
the hull returned keeps the inner point (1,1), and the hull of that hull is a different
shape. -/
theorem convexHull_not_idempotent :
    (Shape.mk ['h'] [⟨0, 0⟩, ⟨2, 0⟩, ⟨1, 0⟩, ⟨3, 0⟩, ⟨1, 1⟩, ⟨0, 2⟩]).convexHull
      = ⟨"<default>".toList, [⟨0, 0⟩, ⟨2, 0⟩, ⟨1, 1⟩, ⟨3, 0⟩, ⟨0, 2⟩, ⟨0, 0⟩]⟩ ∧
    (Shape.mk ['h'] [⟨0, 0⟩, ⟨2, 0⟩, ⟨1, 0⟩, ⟨3, 0⟩, ⟨1, 1⟩, ⟨0, 2⟩]).convexHull.convexHull
      = ⟨"<default>".toList, [⟨0, 0⟩, ⟨2, 0⟩, ⟨3, 0⟩, ⟨0, 2⟩, ⟨0, 0⟩]⟩ ∧
    (Shape.mk ['h'] [⟨0, 0⟩, ⟨2, 0⟩, ⟨1, 0⟩, ⟨3, 0⟩, ⟨1, 1⟩, ⟨0, 2⟩]).convexHull.convexHull
      ≠ (Shape.mk ['h'] [⟨0, 0⟩, ⟨2, 0⟩, ⟨1, 0⟩, ⟨3, 0⟩, ⟨1, 1⟩, ⟨0, 2⟩]).convexHull := by
  decide

/-- C20, failing inputs: for the five distinct points (0,0), (2,0), (1,0), (3,0), (0,1), not
all on a line, the hull returned is (0,0), (2,0), (0,1), (0,0); the input vertex (3,0) lies
strictly on the other side of the hull edge from (2,0) to (0,1) than the hull vertex (0,0).
For the five points (0,1), (1,0), (3,1), (1,1), (2,1) the shape returned is `Shape()`. The two
squares of `TestShape::convexHull` give the hull expected by the test. -/
theorem convexHull_misses_vertex :
    ((Shape.mk ['h'] [⟨0, 0⟩, ⟨2, 0⟩, ⟨1, 0⟩, ⟨3, 0⟩, ⟨0, 1⟩]).convexHull.points
        = [⟨0, 0⟩, ⟨2, 0⟩, ⟨0, 1⟩, ⟨0, 0⟩] ∧
      vectorOrientation ⟨2, 0⟩ ⟨0, 1⟩ ⟨3, 0⟩ = 1 ∧ vectorOrientation ⟨2, 0⟩ ⟨0, 1⟩ ⟨0, 0⟩ = 2) ∧
    ((Shape.mk ['h'] [⟨0, 1⟩, ⟨1, 0⟩, ⟨3, 1⟩, ⟨1, 1⟩, ⟨2, 1⟩]).convexHull = Shape.default ∧
      vectorOrientation ⟨0, 1⟩ ⟨1, 0⟩ ⟨3, 1⟩ ≠ 0) ∧
    (Shape.mk ['q'] [⟨0, 0⟩, ⟨100000, 0⟩, ⟨100000, 100000⟩, ⟨0, 100000⟩, ⟨0, 0⟩,
        ⟨200000, 200000⟩, ⟨300000, 200000⟩, ⟨300000, 300000⟩, ⟨200000, 300000⟩,
        ⟨200000, 200000⟩]).convexHull.points
      = [⟨0, 0⟩, ⟨100000, 0⟩, ⟨300000, 200000⟩, ⟨300000, 300000⟩, ⟨200000, 300000⟩,
          ⟨0, 100000⟩, ⟨0, 0⟩] := by
  decide

/-- C21, witness: the open and the closed triangle of `TestShape::ensureClosed` are closed
after `ensureClosed()`, with four points each. -/
theorem ensureClosed_establishes_witness :
    (openTriangle.ensureClosed true).isClosed = true ∧
      (openTriangle.ensureClosed true).ensureClosed true = openTriangle.ensureClosed true :=
  (ensureClosed_establishes openTriangle).1 (by decide)

/-- C21, counterexample: a shape of one point is not closed after `ensureClosed(true)`, and a
second call appends the point once more; the closed shape (1,1),(2,2),(1,1),(1,1) is still
closed after `ensureClosed(false)`, and a second call removes another point. -/
theorem ensureClosed_counterexample :
    (Shape.mk ['a'] [⟨1, 1⟩]).points ≠ [] ∧
    ((Shape.mk ['a'] [⟨1, 1⟩]).ensureClosed true).isClosed = false ∧
    ((Shape.mk ['a'] [⟨1, 1⟩]).ensureClosed true).ensureClosed true
      ≠ (Shape.mk ['a'] [⟨1, 1⟩]).ensureClosed true ∧
    doubledEnd.points ≠ [] ∧
    (doubledEnd.ensureClosed false).isClosed = true ∧
    (doubledEnd.ensureClosed false).ensureClosed false ≠ doubledEnd.ensureClosed false := by
  decide

/-- C27, witness: the empty sheet `S(10, 10)` of `TestSheet::utilitization` has the
utilization 0. -/
theorem utilitization_defined_witness :
    emptyTenByTen.utilitization = some ((emptyTenByTen.shapesArea : ℚ) / (emptyTenByTen.area : ℚ))
      ∧ (emptyTenByTen.shapes = [] → emptyTenByTen.utilitization = some 0) :=
  (utilitization_defined emptyTenByTen).2.1 (by decide)

/-- C27, counterexample: the default-constructed sheet of raw size 1 x 1 holds no shapes, has
`area()` 0, and its `utilitization()` is the quotient of 0 by 0, which is not a finite value
and so is not 0. -/
theorem utilitization_default_counterexample :
    Sheet.default.width = 1 ∧ Sheet.default.height = 1 ∧ Sheet.default.shapes = [] ∧
    Sheet.default.area = 0 ∧ Sheet.default.utilitization = none ∧
    Sheet.default.utilitization ≠ some 0 := by
  refine ⟨rfl, rfl, rfl, by decide, ?_, ?_⟩
  · rw [utilitization_eq, if_pos (by decide)]
  · rw [utilitization_eq, if_pos (by decide)]
    simp

/-- C28, witness: a result that places, under the name of the job shape, a triangle unrelated
to the unit square of the job is accepted like the result that places the square itself. -/
theorem isOutputValidForInput_names_only_witness :
    isOutputValidForInput noOverlap squareJob squareResult
      = isOutputValidForInput noOverlap squareJob forgedResult ∧
    isOutputValidForInput noOverlap squareJob forgedResult = true :=
  ⟨isOutputValidForInput_names_only noOverlap squareJob squareResult forgedResult (by decide)
    (by decide) (by decide), by decide⟩

/-- C30, witness: the closed triangle of `TestShape::translate`, moved by (-1,-1) units, has
its vertices moved by exactly that offset and keeps its signed area and its area. -/
theorem translate_area_invariant_witness :
    ((ShapeT.fresh closedTriangle).translate ⟨-100000, -100000⟩).shape.points
      = closedTriangle.points.map (QPoint.shifted ⟨-100000, -100000⟩) ∧
    ((ShapeT.fresh closedTriangle).translate ⟨-100000, -100000⟩).shape.signedArea
      = closedTriangle.signedArea ∧
    ((ShapeT.fresh closedTriangle).translate ⟨-100000, -100000⟩).shape.area
      = closedTriangle.area :=
  translate_area_invariant (ShapeT.fresh closedTriangle) ⟨-100000, -100000⟩ (by decide)
    (by decide) (by decide) (by decide)

/-- C30, counterexample: the closed triangle (0,0), (2147483647,0), (0,100000) moved by (1,0).
No 64-bit sum overflows, before or after (the accumulated sums are the exact sums of the cross
terms), but the abscissa 2147483647 + 1 is not an `int`: the vertex comes out at -2147483648,
and the signed area changes from 1073741823 to -1073741824. And a shape made by
`Shape(QString)`, which has no points and is closed: `signedArea()` returns the member that no
one has written, here 7, before `translate`, and 0 after it, when `updateMetrics()` has run. -/
theorem translate_int_overflow_counterexample :
    (edgeTriangle.isClosed = true ∧
      shoelaceSum 0 edgeTriangle.points = (crossTerms edgeTriangle.points).sum ∧
      shoelaceSum 0 ((ShapeT.fresh edgeTriangle).translate ⟨1, 0⟩).shape.points
        = (crossTerms ((ShapeT.fresh edgeTriangle).translate ⟨1, 0⟩).shape.points).sum ∧
      ((ShapeT.fresh edgeTriangle).translate ⟨1, 0⟩).shape.points
        = [⟨1, 0⟩, ⟨-2147483648, 0⟩, ⟨1, 100000⟩, ⟨1, 0⟩] ∧
      ((ShapeT.fresh edgeTriangle).translate ⟨1, 0⟩).shape.points
        ≠ edgeTriangle.points.map (QPoint.shifted ⟨1, 0⟩) ∧
      edgeTriangle.signedArea = 1073741823 ∧
      ((ShapeT.fresh edgeTriangle).translate ⟨1, 0⟩).shape.signedArea = -1073741824) ∧
    ((CachedShape.named ['n'] 7).shape.isClosed = true ∧
      (CachedShape.named ['n'] 7).signedArea = 7 ∧
      ((CachedShape.named ['n'] 7).translate ⟨1, 0⟩).signedArea = 0) := by
  refine ⟨?_, by decide⟩
  have hp : ((ShapeT.fresh edgeTriangle).translate ⟨1, 0⟩).shape.points
      = [⟨1, 0⟩, ⟨-2147483648, 0⟩, ⟨1, 100000⟩, ⟨1, 0⟩] := by
    unfold ShapeT.translate ShapeT.transformBy
    have e := fun q => mapPoint_fromTranslate 1 0 q (by decide) (by decide)
    simp only [e, ShapeT.fresh, edgeTriangle, List.map_cons, List.map_nil]
    decide
  unfold Shape.signedArea
  rw [hp]
  decide

/-- C22, failing input: the closed triangle (0,0), (2147483647,0), (0,2147483647) has three
vertices that are not on a line (its cross terms add up to `2147483647^2`), and `isSimple()` is
false. The second and the third edge meet at the vertex (0, 21474.83647) only;
`QLineF::intersect` finds a bounded intersection and computes the abscissa `2^-38` for the
common point, where the vertex has the abscissa 0. The difference is above the tolerance
`10^-12` of `qFuzzyIsNull`, so the comparison of `QPointF` values does not recognise the common
point as the shared end point, and the pair sets `_simple` to false. The triangle of
`TestShape::isSimple` is simple and the crossed quadrilateral is not, as the test expects. The
chain (0,0), (2,0), (1,0), (0,0), whose first two edges share a segment, and the chain through
(0,0) twice, whose first and fifth edge meet there, are reported simple. -/
theorem isSimple_large_triangle :
    (largeTriangle.isClosed = true ∧ (crossTerms largeTriangle.points).sum ≠ 0 ∧
      largeTriangle.isSimple = false) ∧
    (((QLineF.mk (qPointRounded ⟨2147483647, 0⟩) (qPointRounded ⟨0, 2147483647⟩)).intersect
        (QLineF.mk (qPointRounded ⟨0, 2147483647⟩) (qPointRounded ⟨0, 0⟩))).1
        = IntersectType.BoundedIntersection ∧
      ((QLineF.mk (qPointRounded ⟨2147483647, 0⟩) (qPointRounded ⟨0, 2147483647⟩)).intersect
        (QLineF.mk (qPointRounded ⟨0, 2147483647⟩) (qPointRounded ⟨0, 0⟩))).2.xp
        = ⟨4503599627370496, -90⟩ ∧
      (qPointRounded ⟨0, 2147483647⟩).xp = ⟨0, 0⟩ ∧
      qFuzzyIsNull (Dbl.sub ⟨4503599627370496, -90⟩ ⟨0, 0⟩) = false ∧
      edgePairSimple (QLineF.mk (qPointRounded ⟨2147483647, 0⟩) (qPointRounded ⟨0, 2147483647⟩))
        (QLineF.mk (qPointRounded ⟨0, 2147483647⟩) (qPointRounded ⟨0, 0⟩)) = false) ∧
    (testTriangle.isSimple = true ∧ crossedQuadrilateral.isSimple = false) ∧
    (flatChain.isSimple = true ∧ touchingTriangles.isSimple = true) := by
  decide

/-- C24, witness: a `finished` signal for the job `squareJob` with the result `squareResult`
is kept under the name of its worker. -/
theorem validOutputs_only_validated_witness :
    ∃ ev ∈ [(⟨0, ['p'], squareJob, squareResult⟩ : Finished)],
      ev.pluginName = ['p'] ∧ ev.pluginOutput = squareResult ∧
        isOutputValidForInput noOverlap ev.pluginInput ev.pluginOutput = true :=
  (validOutputs_only_validated noOverlap).1 oneDisabled squareJob
    [⟨0, ['p'], squareJob, squareResult⟩] (['p'], squareResult) (by decide)

/-- C25, witness: without any plugin loaded the synchronous call starts no worker, returns
nothing and sets `ok` to false. -/
theorem computeAllOutputs_no_enabled_witness :
    noPlugins.computeAllOutputs noOverlap squareJob true []
      = some ⟨{ noPlugins with validOutputs := [] }, [], some false, []⟩ :=
  (computeAllOutputs_no_enabled noOverlap noPlugins squareJob []).1 rfl

/-- C25, counterexample: with one plugin loaded and disabled no worker is enabled, and the
synchronous call starts no worker and returns an empty hash, but it sets `ok` to true. -/
theorem computeAllOutputs_disabled_counterexample :
    oneDisabled.getEnabledPlugins = [] ∧
    (oneDisabled.computeAllOutputs noOverlap squareJob true []).map ComputeResult.started
      = some [] ∧
    (oneDisabled.computeAllOutputs noOverlap squareJob true []).map ComputeResult.outputs
      = some [] ∧
    (oneDisabled.computeAllOutputs noOverlap squareJob true []).map ComputeResult.ok
      = some (some true) := by
  decide

/-- C26, witness: a worker that writes the encoded result `squareResult` as its only line and
exits with code 0 makes the runner emit `finished` with the job it was created with and the
decoding of that line, which is `squareResult` again. -/
theorem runner_finished_carries_last_witness :
    ((PluginRunner.create ['p'] ['x'] squareJob).receiveAll toDoubleDec
        [[encodePluginOutput squareResult ++ ['\n']]]).1.processFinished 0
      = ⟨0, ['p'], squareJob,
          lastDecoded toDoubleDec [encodePluginOutput squareResult ++ ['\n']] ⟨[]⟩⟩ ∧
    lastDecoded toDoubleDec [encodePluginOutput squareResult ++ ['\n']] ⟨[]⟩ = squareResult :=
  ⟨(((runner_finished_carries_last toDoubleDec).1 ['p'] ['x'] squareJob
      [[encodePluginOutput squareResult ++ ['\n']]] 0).2.2.2 (by decide)).1, by decide⟩

/-- A line that is not an encoded result, received after the encoded `squareResult`, is not
surfaced and leaves `squareResult` stored; `kill()` is called. -/
theorem runner_bad_line_example :
    PluginRunner.receive toDoubleDec (PluginRunner.create ['p'] ['x'] squareJob)
        [encodePluginOutput squareResult ++ ['\n'], "oops\n".toList]
      = (⟨['p'], ['x'], squareJob, squareResult, [], true⟩, [(['p'], squareResult)]) := by
  decide

end Bakery
